import Mathlib

/-!
Verification of the core of the `angola` document layer: the dict mutator
(`dict_mutator.py`), the path codec (`flatten_dict` / `unflatten_dict` in
`lib.py`) and the XQL-to-AQL compiler (`lib_xql.py`).  Values are embedded as
a tagged variant mirroring Python's JSON-shaped data; dictionaries are
insertion-ordered association lists, matching Python `dict` semantics.
-/

set_option maxHeartbeats 1000000

/- A JSON-shaped Python value: `None`, `bool`, `int`, `str`, `list`, `dict`.
`VList` and `VDict` are mutual spines so that every recursion below is
structural.  Floats are not used by the code under verification. -/
mutual
inductive Val where
  | null : Val
  | bool (b : Bool) : Val
  | int (n : Int) : Val
  | str (s : String) : Val
  | list (l : VList) : Val
  | dict (d : VDict) : Val
deriving DecidableEq

inductive VList where
  | nil : VList
  | cons (v : Val) (tl : VList) : VList
deriving DecidableEq

inductive VDict where
  | nil : VDict
  | cons (k : String) (v : Val) (tl : VDict) : VDict
deriving DecidableEq
end

/-- Build a `VList` from a Lean list literal. -/
def VList.ofList : List Val → VList
  | [] => .nil
  | v :: tl => .cons v (VList.ofList tl)

/-- Build a `VDict` from a Lean list literal of key/value pairs. -/
def VDict.ofList : List (String × Val) → VDict
  | [] => .nil
  | (k, v) :: tl => .cons k v (VDict.ofList tl)

def VList.toList : VList → List Val
  | .nil => []
  | .cons v tl => v :: VList.toList tl

def VDict.toList : VDict → List (String × Val)
  | .nil => []
  | .cons k v tl => (k, v) :: VDict.toList tl

def VList.append : VList → VList → VList
  | .nil, l2 => l2
  | .cons v tl, l2 => .cons v (VList.append tl l2)

def VList.length : VList → Nat
  | .nil => 0
  | .cons _ tl => VList.length tl + 1

def VDict.length : VDict → Nat
  | .nil => 0
  | .cons _ _ tl => VDict.length tl + 1

/-- Python truthiness (`bool(v)`). -/
def Val.truthy : Val → Bool
  | .null => false
  | .bool b => b
  | .int n => n != 0
  | .str s => s ≠ ""
  | .list .nil => false
  | .list _ => true
  | .dict .nil => false
  | .dict _ => true

/-- Python `isinstance(v, int)`.  NB: Python `bool` is a subclass of `int`,
so `True` and `False` count as ints. -/
def Val.isPyInt : Val → Bool
  | .int _ => true
  | .bool _ => true
  | _ => false

/-- Python `isinstance(v, list)`. -/
def Val.isPyList : Val → Bool
  | .list _ => true
  | _ => false

/-- Python `isinstance(v, dict)`. -/
def Val.isPyDict : Val → Bool
  | .dict _ => true
  | _ => false

/-- Python `isinstance(v, str)`. -/
def Val.isPyStr : Val → Bool
  | .str _ => true
  | _ => false

/-- The numeric value Python uses when a `bool` or `int` enters arithmetic
or comparison (`True == 1`, `False == 0`). -/
def Val.asInt : Val → Option Int
  | .int n => some n
  | .bool b => some (if b then 1 else 0)
  | _ => none

/-- Python `d[k]` lookup on a nested dict. -/
def vdictLookup : VDict → String → Option Val
  | .nil, _ => none
  | .cons k' v tl, k => if k' = k then some v else vdictLookup tl k

/- Python `==` on JSON-shaped values.  Numeric cross-type equality
(`1 == True`) follows Python.  Dict equality follows CPython `dict_equal`:
lengths equal, and every entry of the left dict matches a lookup in the
right dict (a Python dict never holds duplicate keys). -/
mutual
def pyEq : Val → Val → Bool
  | .null, .null => true
  | .bool a, .bool b => a == b
  | .bool a, .int b => (if a then (1 : Int) else 0) == b
  | .int a, .bool b => a == (if b then (1 : Int) else 0)
  | .int a, .int b => a == b
  | .str a, .str b => a == b
  | .list a, .list b => pyEqList a b
  | .dict a, .dict b => a.length == b.length && pyEqDict a b
  | _, _ => false

def pyEqList : VList → VList → Bool
  | .nil, .nil => true
  | .cons a ta, .cons b tb => pyEq a b && pyEqList ta tb
  | _, _ => false

def pyEqDict : VDict → VDict → Bool
  | .nil, _ => true
  | .cons k v tl, d =>
    (match vdictLookup d k with
     | some v' => pyEq v v'
     | none => false) && pyEqDict tl d
end

/-- Python `len` for values that support it. -/
def Val.pyLen : Val → Option Nat
  | .str s => some s.length
  | .list l => some l.length
  | .dict d => some d.length
  | _ => none

/-- Python `str(v)` as used by `%s` / `str.format` interpolation.  Exact for
`str`, `int`, `bool`, `None`; containers get a simplified rendering (the
claims never interpolate containers). -/
def Val.pyToStr : Val → String
  | .null => "None"
  | .bool b => if b then "True" else "False"
  | .int n => toString n
  | .str s => s
  | .list _ => "[...]"
  | .dict _ => "{...}"

-- ---------------------------------------------------------------------------
-- Flat dictionaries: the `_FlattenDictType` of the source, i.e. a Python dict
-- with dotted-path string keys, modelled as an insertion-ordered assoc list.
-- ---------------------------------------------------------------------------

abbrev FlatDict := List (String × Val)

/-- Python `d.get(k)` (also `d[k]` where the source guarantees presence). -/
def fget (d : FlatDict) (k : String) : Option Val :=
  match d with
  | [] => none
  | (k', v) :: tl => if k' = k then some v else fget tl k

/-- Python `d[k] = v`: replace in place if present, else append. -/
def fset (d : FlatDict) (k : String) (v : Val) : FlatDict :=
  match d with
  | [] => [(k, v)]
  | (k', v') :: tl => if k' = k then (k', v) :: tl else (k', v') :: fset tl k v

/-- Python `d.pop(k)` guarded by `if k in d` (`_pop` in the source):
returns the removed value (if any) and the remaining dict. -/
def fpop (d : FlatDict) (k : String) : Option Val × FlatDict :=
  match d with
  | [] => (none, [])
  | (k', v) :: tl =>
    if k' = k then (some v, tl)
    else
      let r := fpop tl k
      (r.1, (k', v) :: r.2)

/-- Python `d1.update(d2)`. -/
def fupdate (d1 d2 : FlatDict) : FlatDict :=
  d2.foldl (fun acc kv => fset acc kv.1 kv.2) d1

theorem fdict_test1 : fget (fset [] "a" (.int 1)) "a" = some (.int 1) := rfl
theorem fdict_test2 :
    fupdate [("a", .int 1), ("b", .int 2)] [("a", .int 3), ("c", .int 4)] =
      [("a", .int 3), ("b", .int 2), ("c", .int 4)] := rfl

-- ---------------------------------------------------------------------------
-- String helpers mirroring the exact Python string operations the source uses.
-- All are structurally recursive over the character list so that closed
-- applications reduce in the kernel.
-- ---------------------------------------------------------------------------

/-- `":" in s`. -/
def hasColon (s : String) : Bool := s.data.any (· = ':')

def hasColonDollarAux : List Char → Bool
  | ':' :: '$' :: _ => true
  | _ :: tl => hasColonDollarAux tl
  | [] => false

/-- `":$" in s`. -/
def hasColonDollar (s : String) : Bool := hasColonDollarAux s.data

/-- Generic single-character split, Python `s.split(c)` semantics
(`"".split(".") == [""]`, empty segments kept). -/
def splitCharAux (c : Char) : List Char → List Char → List String
  | [], cur => [String.mk cur.reverse]
  | x :: tl, cur =>
    if x = c then String.mk cur.reverse :: splitCharAux c tl []
    else splitCharAux c tl (x :: cur)

/-- Python `s.split(".")`. -/
def splitDot (s : String) : List String := splitCharAux '.' s.data []

/-- Python `s.split(":")`. -/
def splitColon (s : String) : List String := splitCharAux ':' s.data []

/-- Python `s.split(",")`. -/
def splitComma (s : String) : List String := splitCharAux ',' s.data []

def splitColonDollarAux : List Char → List Char → List String
  | ':' :: '$' :: tl, cur => String.mk cur.reverse :: splitColonDollarAux tl []
  | x :: tl, cur => splitColonDollarAux tl (x :: cur)
  | [], cur => [String.mk cur.reverse]

/-- Python `s.split(":$")`. -/
def splitColonDollar (s : String) : List String := splitColonDollarAux s.data []

/-- Python `s.strip(".")`: remove leading and trailing dots. -/
def stripDots (s : String) : String :=
  String.mk (((s.data.dropWhile (· = '.')).reverse.dropWhile (· = '.')).reverse)

/-- Python `s.strip()`: remove leading and trailing whitespace. -/
def pyStrip (s : String) : String :=
  String.mk (((s.data.dropWhile Char.isWhitespace).reverse.dropWhile
    Char.isWhitespace).reverse)

/-- Python `s.upper()` (ASCII as used by the source's key names). -/
def pyUpper (s : String) : String := String.mk (s.data.map Char.toUpper)

/-- Python `".".join(parts)`. -/
def joinDot : List String → String
  | [] => ""
  | [x] => x
  | x :: tl => x ++ "." ++ joinDot tl

/-- Python `s.replace("#", "")` (all occurrences). -/
def removeHashes (s : String) : String := String.mk (s.data.filter (· ≠ '#'))

def replaceDotOpAux : List Char → List Char
  | '.' :: ':' :: '$' :: tl => ':' :: '$' :: replaceDotOpAux tl
  | x :: tl => x :: replaceDotOpAux tl
  | [] => []

/-- Python `s.replace(".:$", ":$")` (left-to-right, non-overlapping). -/
def replaceDotOp (s : String) : String := String.mk (replaceDotOpAux s.data)

/-- Python `s.startswith(p)`. -/
def pyStartsWith (s p : String) : Bool := s.data.take p.data.length == p.data

/-- Python `s.endswith(p)`. -/
def pyEndsWith (s p : String) : Bool := s.data.reverse.take p.data.length == p.data.reverse

-- ---------------------------------------------------------------------------
-- PathCodec: `flatten_dict` / `unflatten_dict` from `lib.py`.
-- A Python dict is represented as `VDict` when it sits inside a `Val` and as
-- `FlatDict` when it is handled as a standalone mapping; the two converters
-- below are representation changes only.
-- ---------------------------------------------------------------------------

def toVDict : FlatDict → VDict
  | [] => .nil
  | (k, v) :: tl => .cons k v (toVDict tl)

def ofVDict : VDict → FlatDict
  | .nil => []
  | .cons k v tl => (k, v) :: ofVDict tl

/-- `sep.join([_str, k]).strip(sep)` with `sep = "."`, the key-prefixing
used throughout `flatten_dict` (the list branch's `("%s.%s" % (_str, k))`
builds the same string). -/
def joinKey (pre k : String) : String := stripDots (pre ++ "." ++ k)

/- `flatten_dict` (lib.py:259-282): nested mappings are flattened to dotted
keys; a list value is kept as a leaf except that its dict items are each
flattened from a fresh prefix; other values are leaves.  `flattenGo`'s
accumulator is the Python `ret_dict`. -/
mutual
def flattenGo (pre : String) (acc : FlatDict) : VDict → FlatDict
  | .nil => acc
  | .cons k v tl =>
    match v with
    | .dict sub => flattenGo pre (fupdate acc (flattenGo (joinKey pre k) [] sub)) tl
    | .list l => flattenGo pre (fset acc (joinKey pre k) (.list (flattenItems l))) tl
    | x => flattenGo pre (fset acc (joinKey pre k) x) tl

def flattenItems : VList → VList
  | .nil => .nil
  | .cons (.dict sub) tl => .cons (.dict (toVDict (flattenGo "" [] sub))) (flattenItems tl)
  | .cons x tl => .cons x (flattenItems tl)
end

/-- `lib.flatten_dict(d)` with the default empty prefix. -/
def flatten_dict (d : VDict) : FlatDict := flattenGo "" [] d

/-- Python `d[k] = v` on a nested dict. -/
def vdictSet : VDict → String → Val → VDict
  | .nil, k, v => .cons k v .nil
  | .cons k' v' tl, k, v =>
    if k' = k then .cons k' v tl else .cons k' v' (vdictSet tl k v)

/- `_get_nested_default(d, path[:-1])[path[-1]] = value` (`_set_nested`,
lib.py:303-312).  Each prefix segment is `setdefault`-ed to a mapping; if an
existing intermediate is not a mapping the Python code raises
`AttributeError`/`TypeError`, re-raised as `AttributeError` — modelled as
`Except.error`. -/
def setNestedGo : VDict → List String → Val → Except String VDict
  | _, [], _ => .error "IndexError"
  | d, [last], v => .ok (vdictSet d last v)
  | d, seg :: rest, v =>
    match vdictLookup d seg with
    | none => do
      let sub ← setNestedGo .nil rest v
      .ok (vdictSet d seg (.dict sub))
    | some (.dict sub) => do
      let sub2 ← setNestedGo sub rest v
      .ok (vdictSet d seg (.dict sub2))
    | some _ => .error "DataTypeAttributeError"

/- `unflatten_dict` (lib.py:285-300): entries are replayed in order through
`_set_nested`; a list value first has its dict items unflattened
recursively.  The flat input is walked as a `VDict` spine so the mutual
recursion is structural. -/
mutual
def unflattenGo : VDict → VDict → Except String VDict
  | out, .nil => .ok out
  | out, .cons k v tl =>
    match unflattenItem v with
    | .error e => .error e
    | .ok v2 =>
      match setNestedGo out (splitDot k) v2 with
      | .error e => .error e
      | .ok out2 => unflattenGo out2 tl

def unflattenItem : Val → Except String Val
  | .list l =>
    match unflattenItemList l with
    | .error e => .error e
    | .ok l2 => .ok (.list l2)
  | v => .ok v

def unflattenItemList : VList → Except String VList
  | .nil => .ok .nil
  | .cons (.dict d) tl =>
    match unflattenGo .nil d with
    | .error e => .error e
    | .ok d2 =>
      match unflattenItemList tl with
      | .error e => .error e
      | .ok tl2 => .ok (.cons (.dict d2) tl2)
  | .cons x tl =>
    match unflattenItemList tl with
    | .error e => .error e
    | .ok tl2 => .ok (.cons x tl2)
end

/-- `lib.unflatten_dict(f)`. -/
def unflatten_dict (f : FlatDict) : Except String VDict := unflattenGo .nil (toVDict f)

theorem flatten_test1 :
    flatten_dict (VDict.ofList
      [("a", .dict (VDict.ofList [("b", .int 1), ("c", .int 2)])),
       ("d", .int 3)]) =
      [("a.b", .int 1), ("a.c", .int 2), ("d", .int 3)] := rfl
theorem unflatten_test1 :
    unflatten_dict [("a.b", .int 1), ("a.c", .int 2), ("d", .int 3)] =
      .ok (VDict.ofList
        [("a", .dict (VDict.ofList [("b", .int 1), ("c", .int 2)])),
         ("d", .int 3)]) := rfl
theorem unflatten_test2 :
    unflatten_dict [("a", .int 2), ("a.b", .int 1)] =
      .error "DataTypeAttributeError" := rfl
theorem flatten_drops_empty_dict :
    flatten_dict (VDict.ofList [("a", .dict .nil)]) = [] := rfl

-- ---------------------------------------------------------------------------
-- Mutator (`dict_mutator.py`).
-- ---------------------------------------------------------------------------

/-- Generic insertion-ordered assoc-list update (`d[k] = v`). -/
def aset {α : Type} : List (String × α) → String → α → List (String × α)
  | [], k, v => [(k, v)]
  | (k', v') :: tl, k, v => if k' = k then (k', v) :: tl else (k', v') :: aset tl k v

/- Mutation values: a plain value, or one of the marker containers `_NMutDict`
/ `_NMutList` that `mutate` builds for nested list-operator patches.  As with
`Val`, the spines are mutual so helper recursions are structural. -/
mutual
inductive MVal where
  | plain (v : Val) : MVal
  | nmutdict (d : MDict) : MVal
  | nmutlist (l : MList) : MVal

inductive MDict where
  | nil : MDict
  | cons (k : String) (v : MVal) (tl : MDict) : MDict

inductive MList where
  | nil : MList
  | cons (v : MVal) (tl : MList) : MList
end

def MDict.ofList : List (String × MVal) → MDict
  | [] => .nil
  | (k, v) :: tl => .cons k v (MDict.ofList tl)

def MDict.toList : MDict → List (String × MVal)
  | .nil => []
  | .cons k v tl => (k, v) :: MDict.toList tl

/- `_NMutDict` and `_NMutList` are `dict`/`list` subclasses: stripping the
markers gives back the underlying value. -/
mutual
def mvalToVal : MVal → Val
  | .plain v => v
  | .nmutdict d => .dict (mdictToVDict d)
  | .nmutlist l => .list (mlistToVList l)

def mdictToVDict : MDict → VDict
  | .nil => .nil
  | .cons k v tl => .cons k (mvalToVal v) (mdictToVDict tl)

def mlistToVList : MList → VList
  | .nil => .nil
  | .cons v tl => .cons (mvalToVal v) (mlistToVList tl)
end

/-- Wrap a flat dict of plain mutation values as an `_NMutDict` spine. -/
def toMDict : FlatDict → MDict
  | [] => .nil
  | (k, v) :: tl => .cons k (.plain v) (toMDict tl)

/-- Oracles for the source's impure primitives: `arrow.utcnow()`,
`uuid.uuid4()`, `_arrow_date_shifter` (`none` = exception, caught by the
source) and `lib.render_template` over the flat document extended with the
`TIMESTAMP`/`DATETIME` pseudo-variables (`none` = exception, swallowed in the
post pass). -/
structure MutEnv where
  now : Val
  uuid4 : String
  shift : String → Option Val
  render : String → FlatDict → Option Val

/-- `custom_ops`: name ↦ `fn(data, path, value)`; `none` models an exception
(swallowed in the post pass). -/
def CustomOps := List (String × (FlatDict → String → Val → Option Val))

def copsLookup (cops : CustomOps) (op : String) :
    Option (FlatDict → String → Val → Option Val) :=
  match cops with
  | [] => none
  | (k, f) :: tl => if k = op then some f else copsLookup tl op

def copsHas (cops : CustomOps) (op : String) : Bool :=
  (copsLookup cops op).isSome

/-- `LISTTYPES_OPERATORS` (dict_mutator.py:24). -/
def LISTTYPES_OPERATORS : List String :=
  ["xadd", "xadd_many", "xrem", "xrem_many", "xpush", "xpush_many",
   "xpushl", "xpushl_many"]

/-- `_get_int_data` (dict_mutator.py:379-388): missing or `None` counts as 0;
a present non-`int` raises `TypeError`.  Python `bool` is an `int` and enters
the arithmetic as 0/1. -/
def get_int_data (data : FlatDict) (path : String) : Except String Int :=
  match fget data path with
  | none => .ok 0
  | some .null => .ok 0
  | some (.int n) => .ok n
  | some (.bool b) => .ok (if b then 1 else 0)
  | some _ => .error ("Invalid data type for '" ++ path ++ "'. Must be 'int' ")

/-- `_get_list_data` (dict_mutator.py:390-399): missing or `None` gives a
fresh empty list; a present non-`list` raises `TypeError`. -/
def get_list_data (data : FlatDict) (path : String) : Except String VList :=
  match fget data path with
  | none => .ok .nil
  | some .null => .ok .nil
  | some (.list l) => .ok l
  | some _ => .error ("Invalid data type for '" ++ path ++ "'. Must be 'list' ")

/-- `_values_to_mlist` (dict_mutator.py:401-405). -/
def values_to_mlist (value : Val) (many : Bool) : VList :=
  if many = false then .cons value .nil
  else match value with
    | .list l => l
    | v => .cons v .nil

/-- Python `x in l` over list elements (`==` semantics). -/
def vlistContainsPy : VList → Val → Bool
  | .nil, _ => false
  | .cons e tl, x => pyEq e x || vlistContainsPy tl x

/-- Python `l.remove(x)`: drop the first `==`-matching element. -/
def removeFirstPy : VList → Val → VList
  | .nil, _ => .nil
  | .cons e tl, x => if pyEq e x then tl else .cons e (removeFirstPy tl x)

/-- The `$xadd` loop: append each value not already present. -/
def xaddAll : VList → VList → VList
  | v, .nil => v
  | v, .cons val tl =>
    xaddAll (if vlistContainsPy v val then v else VList.append v (.cons val .nil)) tl

/-- The `$xrem` loop: remove each present value, tracking whether anything
was removed. -/
def xremAll : VList → VList → Bool → VList × Bool
  | v, .nil, removed => (v, removed)
  | v, .cons val tl, removed =>
    if vlistContainsPy v val then xremAll (removeFirstPy v val) tl true
    else xremAll v tl removed

def VList.dropLast : VList → VList
  | .nil => .nil
  | .cons _ .nil => .nil
  | .cons v tl => .cons v (VList.dropLast tl)

def VList.getLastD : VList → Val → Val
  | .nil, dflt => dflt
  | .cons v .nil, _ => v
  | .cons _ tl, dflt => VList.getLastD tl dflt

def VList.headD : VList → Val → Val
  | .nil, dflt => dflt
  | .cons v _, _ => v

def VList.tailOrNil : VList → VList
  | .nil => .nil
  | .cons _ tl => tl

/-- State of the `_mutate` main loop: the working flat document, the oplog
and the `postproc` map. -/
structure MutSt where
  data : FlatDict
  oplog : FlatDict
  post : FlatDict

/-- Post-processing ops deferred to the post pass (dict_mutator.py:194). -/
def POSTPROC_OPS : List String := ["template", "xlen", "rename", "copy"]

/- The post pass (dict_mutator.py:307-352).  Every item runs under
`try/except: pass`, so failures leave the document as-is.  Two corners fall
outside the JSON-shaped model and are noted inline: a `$rename`/`$copy`
target that is not a string would store the value under a non-string dict
key in Python (making the final unflatten raise for documents that surface
it); the claims never exercise these. -/
def postItem (env : MutEnv) (cops : CustomOps) (data : FlatDict)
    (immuts : List String) (path : String) (value : Val) : FlatDict :=
  if ¬ hasColon path then data
  else if ¬ hasColonDollar path then data
  else
    match splitColonDollar path with
    | [p, op] =>
      if p ∈ immuts then data
      else if op = "template" then
        match value with
        | .str s =>
          match env.render s data with
          | some v => fset data p v
          | none => data
        | _ => data
      else if op = "xlen" ∧ value.truthy then
        match value with
        | .str src =>
          fset data p (.int (match fget data src with
            | some w =>
              if w.truthy then (match w.pyLen with | some n => (n : Int) | none => 0)
              else 0
            | none => 0))
        | .list _ | .dict _ => data
        | _ => fset data p (.int 0)
      else if op = "rename" ∧ value.truthy then
        match value with
        | .str s =>
          let r := fpop data p
          fset r.2 s (r.1.getD .null)
        | _ => (fpop data p).2
      else if op = "copy" ∧ value.truthy then
        match value with
        | .str s => fset data s ((fget data p).getD .null)
        | _ => data
      else
        match copsLookup cops op with
        | some f =>
          match f data p value with
          | some nv => fset data p nv
          | none => data
        | none => data
    | _ => data

def postPass (env : MutEnv) (cops : CustomOps) :
    FlatDict → FlatDict → List String → FlatDict
  | [], data, _ => data
  | (path, value) :: rest, data, immuts =>
    postPass env cops rest (postItem env cops data immuts path value) immuts

/-- One direct-pass operator application (dict_mutator.py:199-302): returns
the value to write (`none` = `_UnOperableValue`), the updated data (only
`$unset` pops) and the updated oplog. -/
def mutStep (env : MutEnv) (cops : CustomOps) (data oplog : FlatDict)
    (p oppath op : String) (value : Val) :
    Except String (Option Val × FlatDict × FlatDict) :=
  if op = "set" then .ok (some value, data, oplog)
  else if op = "incr" then
    match get_int_data data p with
    | .error e => .error e
    | .ok base =>
      let amt := match value.asInt with
        | some a => a
        | none => 1
      let nv : Val := .int (base + amt)
      .ok (some nv, data, fset oplog oppath nv)
  else if op = "decr" then
    match get_int_data data p with
    | .error e => .error e
    | .ok base =>
      let amt := (match value.asInt with
        | some a => a
        | none => 1) * (-1)
      let nv : Val := .int (base + amt)
      .ok (some nv, data, fset oplog oppath nv)
  else if op = "unset" then
    let r := fpop data p
    .ok (none, r.2, fset oplog oppath (r.1.getD .null))
  else if op = "datetime" ∨ op = "timestamp" ∨ op = "currdate" then
    if value = .bool true then .ok (some env.now, data, oplog)
    else
      match value with
      | .str s =>
        match env.shift s with
        | some dv => .ok (some dv, data, oplog)
        | none => .ok (none, data, oplog)
      | _ => .ok (none, data, oplog)
  else if op = "uuid4" then .ok (some (.str env.uuid4), data, oplog)
  else if op ∈ LISTTYPES_OPERATORS then
    let values := values_to_mlist value (pyEndsWith op "_many")
    match get_list_data data p with
    | .error e => .error e
    | .ok v =>
      if pyStartsWith op "xadd" then .ok (some (.list (xaddAll v values)), data, oplog)
      else if pyStartsWith op "xrem" then
        let r := xremAll v values false
        if r.2 then .ok (some (.list r.1), data, oplog)
        else .ok (none, data, oplog)
      else if op = "xpush" ∨ op = "xpush_many" then
        .ok (some (.list (VList.append v values)), data, oplog)
      else
        -- "xpushl" / "xpushl_many": v2 = list(values); v2.extend(v)
        .ok (some (.list (VList.append values v)), data, oplog)
  else if op = "xpop" then
    match get_list_data data p with
    | .error e => .error e
    | .ok v =>
      match v with
      | .nil => .ok (some value, data, oplog)
      | _ => .ok (some (.list v.dropLast), data, fset oplog oppath (v.getLastD .null))
  else if op = "xpopl" then
    match get_list_data data p with
    | .error e => .error e
    | .ok v =>
      match v with
      | .nil => .ok (some value, data, oplog)
      | _ => .ok (some (.list v.tailOrNil), data, fset oplog oppath (v.headD .null))
  else .ok (none, data, oplog)

/-- The direct-pass operator names handled inline by `_mutate`'s
`elif` chain (a custom operator of the same name is shadowed by them). -/
def isBuiltinOp (op : String) : Bool :=
  op ∈ ["set", "incr", "decr", "unset", "datetime", "timestamp", "currdate",
        "uuid4", "xpop", "xpopl"] ∨ op ∈ LISTTYPES_OPERATORS

/- `_mutate` (dict_mutator.py:81-355), fuelled.  All mutually fuelled
functions recurse structurally on the fuel, so closed applications reduce in
the kernel; `fuel` only has to cover the number of patch entries plus the
nesting depth, and every theorem below quantifies over it.  Note line 164 of
the source: the `immuts` argument is reassigned to `[]` («disabled immuts»)
before the loop runs. -/
mutual
def mutateFull (env : MutEnv) (cops : CustomOps) :
    Nat → List (String × MVal) → FlatDict → List String →
    Except String (FlatDict × FlatDict)
  | 0, _, _, _ => .error "FUEL"
  | fuel + 1, muts, init_data, _immuts =>
    -- data = copy.deepcopy(init_data); immuts = []  (lines 159-164)
    let immuts : List String := []
    match mutLoop env cops fuel muts ⟨init_data, [], []⟩ immuts with
    | .error e => .error e
    | .ok st => .ok (postPass env cops st.post st.data immuts, st.oplog)

def mutLoop (env : MutEnv) (cops : CustomOps) :
    Nat → List (String × MVal) → MutSt → List String → Except String MutSt
  | 0, _, _, _ => .error "FUEL"
  | _ + 1, [], st, _ => .ok st
  | fuel + 1, (path, mval) :: rest, st, immuts =>
    -- line 169: `if immuts and path in immuts: continue`
    if immuts ≠ [] ∧ path ∈ immuts then mutLoop env cops fuel rest st immuts
    else if hasColon path then
      -- line 174: `if ":$" not in path: continue`
      if ¬ hasColonDollar path then mutLoop env cops fuel rest st immuts
      else
        -- lines 178-183: unwrap `_NMutDict` / `_NMutList` through nested
        -- `_mutate` calls (their errors propagate)
        match convertMVal env cops fuel mval with
        | .error e => .error e
        | .ok value =>
          -- line 187: `path, op = path.split(":$")` (≠ 2 parts would raise)
          match splitColonDollar path with
          | [p, op] =>
            -- line 190: `if immuts and path in immuts: continue`
            if immuts ≠ [] ∧ p ∈ immuts then mutLoop env cops fuel rest st immuts
            -- line 194: defer post-process ops
            else if op ∈ POSTPROC_OPS then
              mutLoop env cops fuel rest
                { st with post := fset st.post path value } immuts
            else if isBuiltinOp op then
              match mutStep env cops st.data st.oplog p path op value with
              | .error e => .error e
              | .ok (wr, data2, oplog2) =>
                let data3 := match wr with
                  | some v => fset data2 p v
                  | none => data2
                mutLoop env cops fuel rest { st with data := data3, oplog := oplog2 } immuts
            -- line 296: `elif op in custom_ops:` defer to the post pass
            else if copsHas cops op then
              mutLoop env cops fuel rest
                { st with post := fset st.post path value } immuts
            -- line 301: `_UnOperableValue`, nothing written
            else mutLoop env cops fuel rest st immuts
          | _ => .error "ValueError"
    else
      -- no ":" in the key: plain write of the raw value (line 304-305)
      mutLoop env cops fuel rest
        { st with data := fset st.data path (mvalToVal mval) } immuts

def convertMVal (env : MutEnv) (cops : CustomOps) :
    Nat → MVal → Except String Val
  | 0, _ => .error "FUEL"
  | _ + 1, .plain v => .ok v
  | fuel + 1, .nmutdict d =>
    -- line 179: `value = _mutate(value)[0]` (defaults: no init, no immuts, no custom ops)
    match mutateFull env [] fuel (MDict.toList d) [] [] with
    | .error e => .error e
    | .ok (d2, _) => .ok (.dict (toVDict d2))
  | fuel + 1, .nmutlist l =>
    -- line 183: dict items run through `_mutate`, the rest pass through
    match convertMList env cops fuel l with
    | .error e => .error e
    | .ok l2 => .ok (.list l2)

def convertMList (env : MutEnv) (cops : CustomOps) :
    Nat → MList → Except String VList
  | 0, _ => .error "FUEL"
  | _ + 1, .nil => .ok .nil
  | fuel + 1, .cons (.nmutdict d) tl =>
    match mutateFull env [] fuel (MDict.toList d) [] [] with
    | .error e => .error e
    | .ok (d2, _) =>
      match convertMList env cops fuel tl with
      | .error e => .error e
      | .ok tl2 => .ok (.cons (.dict (toVDict d2)) tl2)
  | fuel + 1, .cons (.plain (.dict pd)) tl =>
    -- `isinstance(vv, dict)` also catches plain dicts
    match mutateFull env [] fuel ((ofVDict pd).map (fun kv => (kv.1, MVal.plain kv.2))) [] [] with
    | .error e => .error e
    | .ok (d2, _) =>
      match convertMList env cops fuel tl with
      | .error e => .error e
      | .ok tl2 => .ok (.cons (.dict (toVDict d2)) tl2)
  | fuel + 1, .cons v tl =>
    match convertMList env cops fuel tl with
    | .error e => .error e
    | .ok tl2 => .ok (.cons (mvalToVal v) tl2)
end

/-- Generic insertion-ordered assoc-list lookup. -/
def aget {α : Type} : List (String × α) → String → Option α
  | [], _ => none
  | (k', v) :: tl, k => if k' = k then some v else aget tl k

def removeColonDollarAux : List Char → List Char
  | ':' :: '$' :: tl => removeColonDollarAux tl
  | c :: tl => c :: removeColonDollarAux tl
  | [] => []

/-- Python `s.replace(":$", "")`. -/
def removeColonDollar (s : String) : String := String.mk (removeColonDollarAux s.data)

/-- `\w` of the restructure regex (ASCII range, as the source's keys use). -/
def isWordChar (c : Char) : Bool := c.isAlphanum || c = '_'

/- `re.split("(\:\$\w+)(?:\.)?", k)` followed by dropping falsy segments
(dict_mutator.py:60).  The scanner walks the key; at each `:$word` match it
emits the pending segment and the captured `:$word`, and swallows one
optional following dot.  Fuel is the character count, which bounds the steps
(each step consumes at least one character). -/
def goSplitOps : Nat → List Char → List Char → List String → List String
  | 0, _, _, out => out
  | _ + 1, [], cur, out => (out ++ [String.mk cur.reverse]).filter (· ≠ "")
  | fuel + 1, ':' :: tl, cur, out =>
    match tl with
    | '$' :: c :: tl2 =>
      if isWordChar c then
        let w := (c :: tl2).takeWhile isWordChar
        let r := (c :: tl2).dropWhile isWordChar
        let r2 := match r with
          | '.' :: t => t
          | _ => r
        goSplitOps fuel r2 [] (out ++ [String.mk cur.reverse, ":$" ++ String.mk w])
      else goSplitOps fuel tl (':' :: cur) out
    | _ => goSplitOps fuel tl (':' :: cur) out
  | fuel + 1, c :: tl, cur, out => goSplitOps fuel tl (c :: cur) out

def splitOps (k : String) : List String := goSplitOps (k.data.length + 1) k.data [] []

theorem splitOps_test1 : splitOps "l:$xadd.c" = ["l", ":$xadd", "c"] := rfl
theorem splitOps_test2 : splitOps "n:$incr" = ["n", ":$incr"] := rfl
theorem splitOps_test3 : splitOps "_key" = ["_key"] := rfl

/-- The per-value wrapping `mutate` applies to every kept patch entry
(dict_mutator.py:70/74): lists become `_NMutList`s whose dict items become
(shallow) `_NMutDict`s. -/
def liftVD : VDict → MDict
  | .nil => .nil
  | .cons k v tl => .cons k (.plain v) (liftVD tl)

def wrapItems : VList → MList
  | .nil => .nil
  | .cons (.dict d) tl => .cons (.nmutdict (liftVD d)) (wrapItems tl)
  | .cons x tl => .cons (.plain x) (wrapItems tl)

def wrapMutVal : Val → MVal
  | .list l => .nmutlist (wrapItems l)
  | x => .plain x

/- The restructure pass of `mutate` (dict_mutator.py:58-76): flat patch keys
that embed a list-typed operator are regrouped under the operator-qualified
path into an `_NMutDict` of their sub-paths; every other key is defaulted to
`:$set` when it names no operator. -/
def restructureGo : FlatDict → List (String × MVal) → List (String × FlatDict) →
    List (String × MVal) × List (String × FlatDict)
  | [], muts, restr => (muts, restr)
  | (k, v) :: tl, muts, restr =>
    let xl := splitOps k
    if 2 < xl.length then
      let op := removeColonDollar (xl.getD 1 "")
      if op ∈ LISTTYPES_OPERATORS then
        let pathkey := xl.headD "" ++ ":$" ++ op
        let jpath := replaceDotOp (joinDot (xl.drop 2))
        let sub := match aget restr pathkey with
          | some s => s
          | none => []
        restructureGo tl muts (aset restr pathkey (fset sub jpath v))
      else restructureGo tl (aset muts k (wrapMutVal v)) restr
    else
      let k2 := if hasColonDollar k then k else k ++ ":$set"
      restructureGo tl (aset muts k2 (wrapMutVal v)) restr

/-- `mutate` (dict_mutator.py:39-78): flatten patch and init data, run the
restructure pass, append the regrouped entries (`muts.update(_restructed)`),
run `_mutate`, and unflatten the result. -/
def mutate (env : MutEnv) (cops : CustomOps) (fuel : Nat)
    (mutations init_data : VDict) (immuts : List String) :
    Except String (VDict × FlatDict) :=
  let _muts := flatten_dict mutations
  let _inits := flatten_dict init_data
  let r := restructureGo _muts [] []
  let allMuts := r.2.foldl
    (fun acc pr => aset acc pr.1 (MVal.nmutdict (toMDict pr.2))) r.1
  match mutateFull env cops fuel allMuts _inits immuts with
  | .error e => .error e
  | .ok (d, oplog) =>
    match unflatten_dict d with
    | .error e => .error e
    | .ok out => .ok (out, oplog)

/-- A fixed oracle instantiation used by concrete evaluations. -/
def testEnv : MutEnv :=
  { now := .str "2026-01-01T00:00:00+00:00"
    uuid4 := "u-u-i-d"
    shift := fun _ => none
    render := fun _ _ => none }

-- Scenario S1 of the spec (restricted to its `$incr`/`$unset` rows):
theorem mutate_s1 :
    mutate testEnv [] 100
      (VDict.ofList [("n:$incr", .int 3), ("nope:$unset", .bool true)])
      (VDict.ofList [("_key", .str "k"), ("n", .int 0)]) [] =
      .ok (VDict.ofList [("_key", .str "k"), ("n", .int 3)],
           [("n:$incr", .int 3), ("nope:$unset", .null)]) := rfl

-- Scenario S2 of the spec: `$xpop` on a non-empty list.
theorem mutate_s2 :
    mutate testEnv [] 100
      (VDict.ofList [("l:$xpop", .bool true)])
      (VDict.ofList [("_key", .str "k"),
                     ("l", .list (VList.ofList [.int 10, .int 20, .int 30]))]) [] =
      .ok (VDict.ofList [("_key", .str "k"),
                         ("l", .list (VList.ofList [.int 10, .int 20]))],
           [("l:$xpop", .int 30)]) := rfl

-- ---------------------------------------------------------------------------
-- XQL → AQL compiler (`lib_xql.py`).
-- ---------------------------------------------------------------------------

/-- Oracles for the compiler's impure primitives: `slugify(_, separator="_")`,
the `gen_number(6)` nonce stream (indexed by how many draws happened so far),
and the arrow date primitives used by the `NOW` filter macro
(`lib.get_datetime`, `lib.arrow_date_shifter`, `arrow.format`), abstracted
over an opaque token representation of arrow instants. -/
structure XqlEnv where
  slug : String → String
  nonce : Nat → String
  nowTok : String
  shiftTok : String → String → String
  fmtTok : String → String → String

/-- `AQL_FILTER_LOGIC` (lib_xql.py:12-17). -/
def aqlLogicLookup (k : String) : Option String :=
  if k = "$AND" then some " AND "
  else if k = "$OR" then some " OR "
  else if k = "$NOT" then some " NOT "
  else if k = "$NOR" then some " NOR "
  else none

/-- `AQL_FILTER_OPERATORS` (lib_xql.py:20-52); `none` models the `KeyError`
on an unknown operator name. -/
def aqlOpLookup (k : String) : Option String :=
  if k = "$EQ" then some "=="
  else if k = "$NE" then some "!="
  else if k = "$GT" then some ">"
  else if k = "$GTE" then some ">="
  else if k = "$LT" then some "<"
  else if k = "$LTE" then some "<="
  else if k = "$INCLUDES" then some "IN"
  else if k = "$XINCLUDES" then some "NOT IN"
  else if k = "$IN" then some "IN"
  else if k = "$XIN" then some "NOT IN"
  else if k = "$LIKE" then some "LIKE"
  else if k = "$NLIKE" then some "NOT LIKE"
  else none

/-- `_rev_ops_order` (lib_xql.py:55). -/
def revOps : List String := ["$INCLUDES", "$XINCLUDES"]

def joinWith (sep : String) : List String → String
  | [] => ""
  | [x] => x
  | x :: tl => x ++ sep ++ joinWith sep tl

def joinComma : List String → String := joinWith ","

/- The `NOW` macro pattern `^\[\[\@MACRO:NOW\s*,?\s*(.*)]]$`, matched
case-insensitively (`_re_match` passes `re.IGNORECASE`); returns the capture
group. -/
def matchNowCap (s : String) : Option String :=
  match s.data with
  | '[' :: '[' :: '@' :: rest =>
    if (rest.take 9).map Char.toUpper = "MACRO:NOW".data then
      let r1 := (rest.drop 9).dropWhile Char.isWhitespace
      let r2 := match r1 with
        | ',' :: t => t
        | _ => r1
      let r3 := r2.dropWhile Char.isWhitespace
      if r3.reverse.take 2 = [']', ']'] then
        some (String.mk r3.dropLast.dropLast)
      else none
    else none
  | _ => none

/-- `_macro_now` (lib_xql.py:66-96): split the capture into shifter and
format (default `YYYY-MM-DD`), shift "now" when a shifter is given, format. -/
def nowSubst (env : XqlEnv) (cap : String) : String :=
  let pr : String × String :=
    match splitComma cap with
    | a :: b :: rest => (pyStrip a, pyStrip (joinComma (b :: rest)))
    | _ => (cap, "YYYY-MM-DD")
  let dt := if pr.1 ≠ "" then env.shiftTok env.nowTok pr.1 else env.nowTok
  env.fmtTok dt pr.2

/- `eval_macros` (lib_xql.py:109-115): a matching string is substituted, a
list is scanned element-wise, anything else passes through. -/
mutual
def evalMcr (env : XqlEnv) : Val → Val
  | .str s =>
    match matchNowCap s with
    | some cap => .str (nowSubst env cap)
    | none => .str s
  | .list l => .list (evalMcrList env l)
  | v => v

def evalMcrList (env : XqlEnv) : VList → VList
  | .nil => .nil
  | .cons v tl => .cons (evalMcr env v) (evalMcrList env tl)
end

/-- Python `str.format` restricted to `{name}` placeholders (the filter
statement templates).  Fuelled by the character count. -/
def pyFormatAux (subs : List (String × String)) : Nat → List Char → List Char
  | 0, _ => []
  | _ + 1, [] => []
  | fuel + 1, '{' :: tl =>
    let name := String.mk (tl.takeWhile (· ≠ '}'))
    let rest := (tl.dropWhile (· ≠ '}')).drop 1
    (((subs.find? (·.1 = name)).map (·.2)).getD "").data ++ pyFormatAux subs fuel rest
  | fuel + 1, c :: tl => c :: pyFormatAux subs fuel tl

def pyFormat (tmpl : String) (subs : List (String × String)) : String :=
  String.mk (pyFormatAux subs (tmpl.data.length + 1) tmpl.data)

/- `_parse_filter_row` (lib_xql.py:160-206).  `cnt` indexes the nonce
stream; the returned counter accounts for the single `gen_number` draw. -/
def parse_filter_row (env : XqlEnv) (cnt : Nat) (k0 : String) (value : Val)
    (propkey : String) : Except String (String × FlatDict × Nat) :=
  let step : String → String → Except String (String × FlatDict × Nat) :=
    fun k operator =>
      let dlit := match value with
        | .str s => pyStartsWith s "#"
        | _ => false
      let num_ := env.nonce cnt
      let ukey := env.slug (k ++ "_" ++ num_)
      let value2 := evalMcr env value
      match aqlOpLookup operator with
      | none => .error "KeyError"
      | some opstr =>
        if dlit then
          let vstr := removeHashes value2.pyToStr
          let stmt := if operator ∈ revOps then " {value} {operator} {propkey}.{key}"
                      else " {propkey}.{key} {operator} {value}"
          .ok (pyFormat stmt
                [("value", vstr), ("propkey", propkey), ("key", k),
                 ("operator", opstr), ("ukey", ukey)], [], cnt + 1)
        else
          let stmt := if operator ∈ revOps then " @{ukey} {operator} {propkey}.{key}"
                      else " {propkey}.{key} {operator} @{ukey}"
          .ok (pyFormat stmt
                [("value", value2.pyToStr), ("propkey", propkey), ("key", k),
                 ("operator", opstr), ("ukey", ukey)], [(ukey, value2)], cnt + 1)
  if hasColon k0 then
    -- `k, operator = k.split(":", 2)`: any second colon raises ValueError
    match splitColon k0 with
    | [k, op1] => step k (pyUpper op1)
    | _ => .error "ValueError"
  else step k0 "$EQ"

/-- One `$AND`/`$OR`/... alternative: compile each leaf of the mapping. -/
def filterGroupRows (env : XqlEnv) :
    Nat → VDict → String → Except String (List String × FlatDict × Nat)
  | cnt, .nil, _ => .ok ([], [], cnt)
  | cnt, .cons k2 v2 tl, propkey =>
    match parse_filter_row env cnt k2 v2 propkey with
    | .error e => .error e
    | .ok (a, ps, cnt') =>
      match filterGroupRows env cnt' tl propkey with
      | .error e => .error e
      | .ok (rest, ps2, cnt'') => .ok (a :: rest, fupdate ps ps2, cnt'')

/-- The list of alternatives under a logic key; non-mapping alternatives make
Python's subscripting raise (modelled as `TypeError`). -/
def filterGroups (env : XqlEnv) (conn : String) :
    Nat → VList → String → Except String (String × FlatDict × Nat)
  | cnt, .nil, _ => .ok ("", [], cnt)
  | cnt, .cons (.dict d) tlg, propkey =>
    match filterGroupRows env cnt d propkey with
    | .error e => .error e
    | .ok (rows, ps, cnt') =>
      match filterGroups env conn cnt' tlg propkey with
      | .error e => .error e
      | .ok (aqlRest, ps2, cnt'') =>
        .ok ("FILTER (" ++ joinWith conn rows ++ ")\n" ++ aqlRest,
             fupdate ps ps2, cnt'')
  | _, .cons _ _, _ => .error "TypeError"

/- `aql_filter_builder` (lib_xql.py:209-274). -/
def aqlFilterBuilder (env : XqlEnv) :
    Nat → VDict → String → Except String (String × FlatDict × Nat)
  | cnt, .nil, _ => .ok ("", [], cnt)
  | cnt, .cons k fv tl, propkey =>
    if pyStartsWith k "$" then
      let kU := pyUpper k
      match aqlLogicLookup kU with
      | none => .error ("Invalid logic: " ++ k)
      | some conn =>
        match fv with
        | .dict d =>
          -- `if isinstance(fk, dict): fk = [fk]`
          match filterGroups env conn cnt (.cons (.dict d) .nil) propkey with
          | .error e => .error e
          | .ok (aql1, ps, cnt') =>
            match aqlFilterBuilder env cnt' tl propkey with
            | .error e => .error e
            | .ok (aql2, ps2, cnt'') => .ok (aql1 ++ aql2, fupdate ps ps2, cnt'')
        | .list gl =>
          match filterGroups env conn cnt gl propkey with
          | .error e => .error e
          | .ok (aql1, ps, cnt') =>
            match aqlFilterBuilder env cnt' tl propkey with
            | .error e => .error e
            | .ok (aql2, ps2, cnt'') => .ok (aql1 ++ aql2, fupdate ps ps2, cnt'')
        | _ => .error ("Invalid logic: " ++ k)
    else
      match parse_filter_row env cnt k fv propkey with
      | .error e => .error e
      | .ok (a, ps, cnt') =>
        match aqlFilterBuilder env cnt' tl propkey with
        | .error e => .error e
        | .ok (aql2, ps2, cnt'') =>
          .ok ("FILTER (" ++ a ++ ")\n" ++ aql2, fupdate ps ps2, cnt'')

def sortDictItems : VDict → List String
  | .nil => []
  | .cons k v tl => (k ++ ":" ++ v.pyToStr) :: sortDictItems tl

def sortListItems : VList → Except String (List String)
  | .nil => .ok []
  | .cons (.str s) tl =>
    match sortListItems tl with
    | .error e => .error e
    | .ok r => .ok (s :: r)
  | .cons _ _ => .error "AttributeError"

/- `aql_sort_builder` (lib_xql.py:121-150). -/
def sortBuilder (sorts : Val) (propkey : String) : Except String String :=
  if ¬ sorts.truthy then .ok ""
  else
    let items : Except String (List String) :=
      match sorts with
      | .str s => .ok [s]
      | .dict d => .ok (sortDictItems d)
      | .list l => sortListItems l
      | _ => .error "TypeError"
    match items with
    | .error e => .error e
    | .ok its =>
      .ok (" SORT " ++ joinWith ", " (its.map (fun s =>
        let parts := splitColon s
        propkey ++ "." ++ parts.headD "" ++ " " ++
          (if parts.length > 1 then parts.getD 1 "" else "ASC"))) ++ " ")

/-- `xql.get(K) or default`. -/
def orDefault (v : Option Val) (dflt : Val) : Val :=
  match v with
  | some w => if w.truthy then w else dflt
  | none => dflt

/-- The `_defaults` mapping of `prepare_xql` (lib_xql.py:277-295). -/
def XQL_DEFAULTS : FlatDict :=
  [("FROM", .null), ("ALIAS", .str "root__"), ("FILTERS", .dict .nil),
   ("SORT", .null), ("OFFSET", .null), ("COUNT_AS", .null), ("LIMIT", .int 10),
   ("PAGE", .int 1), ("JOIN", .list .nil), ("RETURN", .null),
   ("RETURN_WITH", .null)]

/-- `prepare_xql`: overlay the tree on the defaults, uppercase the keys,
default `RETURN` to `ALIAS`. -/
def prepare_xql (xql : FlatDict) : FlatDict :=
  let merged := fupdate XQL_DEFAULTS xql
  let r := merged.foldl (fun acc kv => fset acc (pyUpper kv.1) kv.2) []
  match fget r "RETURN" with
  | some .null => fset r "RETURN" ((fget r "ALIAS").getD .null)
  | _ => r

/-- Python `v > m` against an int; non-numeric comparison raises. -/
def pyGtInt (v : Val) (m : Int) : Except String Bool :=
  match v.asInt with
  | some a => .ok (decide (m < a))
  | none => .error "TypeError"

/-- `lib.calc_pagination_offset` (lib.py:526-536):
`0 if page < 1 else (page - 1) * per_page`.  Both arguments are numeric at
every call site that reaches this (the caller compared `per_page` first). -/
def calc_pagination_offset (page per_page : Val) : Except String Val :=
  match page.asInt with
  | none => .error "TypeError"
  | some p =>
    if p < 1 then .ok (.int 0)
    else
      match per_page.asInt with
      | none => .error "TypeError"
      | some pp => .ok (.int ((p - 1) * pp))

/- `xql_to_aql` (lib_xql.py:356-526), fuelled on the join-nesting depth.
`prs` is the optional `parser` hook, `vars` the (unused by the source body)
`vars` argument, `cnt` the nonce-stream position. -/
mutual
def xql_to_aql (env : XqlEnv) (prs : Option (FlatDict → FlatDict))
    (maxLimit : Int) :
    Nat → Nat → FlatDict → FlatDict → Except String (String × FlatDict × Nat)
  | 0, _, _, _ => .error "FUEL"
  | fuel + 1, cnt, xql0, _vars =>
    let xql1 := prepare_xql xql0
    -- `if not xql.get("ALIAS"): xql["ALIAS"] = "root__"`; then
    -- `ALIAS = xql.get("ALIAS") or "root__"` (both before the parser hook)
    let xql2 := if ¬ ((fget xql1 "ALIAS").getD .null).truthy
                then fset xql1 "ALIAS" (.str "root__") else xql1
    let ALIAS := orDefault (fget xql2 "ALIAS") (.str "root__")
    let xql3 := match prs with
      | some f => f xql2
      | none => xql2
    let COLLECTION := (fget xql3 "FROM").getD .null
    let FILTERS := orDefault (fget xql3 "FILTERS") (.dict .nil)
    let SORTS := (fget xql3 "SORT").getD .null
    let OFFSET := (fget xql3 "OFFSET").getD .null
    let LIMIT := orDefault (fget xql3 "LIMIT") (.int 10)
    let PAGE := orDefault (fget xql3 "PAGE") (.int 1)
    let JOINS := orDefault (fget xql3 "JOIN") (.list .nil)
    let COUNT_AS := (fget xql3 "COUNT_AS").getD .null
    let COLLECTS := orDefault (fget xql3 "COLLECT") (.list .nil)
    let RETURN := orDefault (fget xql3 "RETURN") ALIAS
    -- take/skip resolution (lines 482-490)
    let offRes : Except String (Val × Val) :=
      if OFFSET = .null then
        match pyGtInt LIMIT maxLimit with
        | .error e => .error e
        | .ok gt =>
          let perPage := if gt then Val.int maxLimit else LIMIT
          match calc_pagination_offset PAGE perPage with
          | .error e => .error e
          | .ok off => .ok (off, perPage)
      else .ok (OFFSET, LIMIT)
    match offRes with
    | .error e => .error e
    | .ok (OFF2, LIM1) =>
      match pyGtInt LIM1 maxLimit with
      | .error e => .error e
      | .ok gt2 =>
        let LIM2 := if gt2 then Val.int maxLimit else LIM1
        let num_ := env.nonce cnt
        match FILTERS with
        | .dict fd =>
          match aqlFilterBuilder env (cnt + 1) fd ALIAS.pyToStr with
          | .error e => .error e
          | .ok (aqlFilter, filterVars, cnt2) =>
            match sortBuilder SORTS ALIAS.pyToStr with
            | .error e => .error e
            | .ok aqlSorting =>
              let _ := COLLECTS  -- `xql_collects_builder` returns "" (TODO in source)
              let aqlCollects :=
                if COUNT_AS.truthy then
                  " COLLECT WITH COUNT INTO " ++ COUNT_AS.pyToStr ++ " "
                else ""
              match JOINS with
              | .list jl =>
                match joinLoop env prs maxLimit fuel cnt2 jl with
                | .error e => .error e
                | .ok (subquery, bvJoins, cnt3) =>
                  let query :=
                    "FOR " ++ ALIAS.pyToStr ++ " IN @@collection_" ++ num_ ++ " "
                    ++ aqlFilter ++ subquery ++ aqlCollects
                    ++ " LIMIT @offset_" ++ num_ ++ ", @limit_" ++ num_ ++ " "
                    ++ aqlSorting
                    ++ "RETURN UNSET_RECURSIVE(" ++ RETURN.pyToStr
                    ++ ", ['_id', '_rev', '_old_rev'])"
                  let binds := fupdate bvJoins (fupdate filterVars
                    [("offset_" ++ num_, OFF2), ("limit_" ++ num_, LIM2),
                     ("@collection_" ++ num_, COLLECTION)])
                  .ok (query, binds, cnt3)
              | _ => .error "TypeError"
        | _ => .error "TypeError"

def joinLoop (env : XqlEnv) (prs : Option (FlatDict → FlatDict))
    (maxLimit : Int) :
    Nat → Nat → VList → Except String (String × FlatDict × Nat)
  | 0, _, _ => .error "FUEL"
  | _ + 1, cnt, .nil => .ok ("", [], cnt)
  | fuel + 1, cnt, .cons j tl =>
    match j with
    | .dict jd =>
      let xql2 := prepare_xql (ofVDict jd)
      match xql_to_aql env prs maxLimit fuel cnt xql2 [] with
      | .error e => .error e
      | .ok (q, bv, cnt') =>
        match joinLoop env prs maxLimit fuel cnt' tl with
        | .error e => .error e
        | .ok (sub2, bv2, cnt'') =>
          .ok ("\nLET " ++ ((fget xql2 "ALIAS").getD .null).pyToStr
               ++ " = (" ++ q ++ ") \n" ++ sub2, fupdate bv bv2, cnt'')
    | _ => .error "TypeError"
end

/-- A fixed compiler-oracle instantiation used by concrete evaluations. -/
def testXEnv : XqlEnv :=
  { slug := fun s => "f_" ++ s
    nonce := fun i => toString (100000 + i)
    nowTok := "NOW0"
    shiftTok := fun d s => d ++ "+" ++ s
    fmtTok := fun d f => d ++ "@" ++ f }

theorem string_test1 : splitColonDollar "a:b:$set" = ["a:b", "set"] := rfl
theorem string_test2 : splitDot "a.b." = ["a", "b", ""] := rfl
theorem string_test3 : stripDots ".a.b." = "a.b" := rfl
theorem string_test4 : removeHashes "#a#b" = "ab" := rfl
theorem string_test5 : replaceDotOp "x.:$set.y" = "x:$set.y" := rfl
theorem string_test6 : pyEndsWith "xadd_many" "_many" = true := rfl

-- Scenario S5 of the spec: bind variables of a simple compile.
theorem xql_test_s5 :
    ∃ q cnt, xql_to_aql testXEnv none 100 5 0
      [("FROM", .str "users"),
       ("FILTERS", .dict (VDict.ofList [("age:$gt", .int 18)])),
       ("LIMIT", .int 5), ("PAGE", .int 2)] [] =
      .ok (q, [("f_age_100001", .int 18), ("offset_100000", .int 5),
               ("limit_100000", .int 5), ("@collection_100000", .str "users")],
           cnt) :=
  ⟨_, _, rfl⟩

-- ---------------------------------------------------------------------------
-- Claim C1.  `_mutate` reassigns `immuts = []` (dict_mutator.py:164,
-- «disabled immuts») before its loop, so both `path in immuts` guards and
-- the post-pass guard are dead: a patch overwrites `_key` even when `_key`
-- is passed in `immuts`.
-- ---------------------------------------------------------------------------

/-- C1: the immutable-key list is ignored by the code: with
`immuts = ["_key"]`, the patch `{"_key": "x2"}` still overwrites `_key` of
`{"_key": "k"}`.  This evaluates the embedded `mutate` at the failing input
of the claim. -/
theorem c1_immuts_ignored_eval :
    mutate testEnv [] 10
      (VDict.ofList [("_key", .str "x2")])
      (VDict.ofList [("_key", .str "k")])
      ["_key"] =
      .ok (VDict.ofList [("_key", .str "x2")], []) := rfl

-- ---------------------------------------------------------------------------
-- Claim C4.  `$xpop` on a non-empty list pops the tail and logs it, but on
-- an empty or absent list the branch (dict_mutator.py:281-287) leaves
-- `value` as the raw patch value (`True`), which line 304-305 then writes
-- over the path, instead of producing `_UnOperableValue` as `$xrem` does.
-- ---------------------------------------------------------------------------

/-- C4: evaluating the code at the failing input: `$xpop` on the empty list
`l` of `{"_key": "k", "l": []}` replaces `l` with the raw operator value
`true` (and writes no oplog entry) instead of skipping. -/
theorem c4_xpop_empty_eval :
    mutate testEnv [] 10
      (VDict.ofList [("l:$xpop", .bool true)])
      (VDict.ofList [("_key", .str "k"), ("l", .list .nil)])
      [] =
      .ok (VDict.ofList [("_key", .str "k"), ("l", .bool true)], []) := rfl

-- ---------------------------------------------------------------------------
-- Claim C2.  The claim says a failed precondition is silently skipped and
-- never raises.  In the code, `_get_int_data` / `_get_list_data` raise
-- `TypeError` on a wrong-typed present value (fail-hard), and a pop on a
-- missing path does not raise but *overwrites* the path with the raw
-- operator value.
-- ---------------------------------------------------------------------------

/-- C2 counterexample: (a) `$incr` on a present string raises instead of
being skipped; (b) `$xpop` on a missing path does not leave the value
unchanged — it writes the literal `true` at the path. -/
theorem c2_counterexample :
    mutate testEnv [] 10
      (VDict.ofList [("n:$incr", .int 1)])
      (VDict.ofList [("n", .str "s")]) [] =
      .error "Invalid data type for 'n'. Must be 'int' " ∧
    mutate testEnv [] 10
      (VDict.ofList [("l:$xpop", .bool true)])
      .nil [] =
      .ok (VDict.ofList [("l", .bool true)], []) :=
  ⟨rfl, rfl⟩

-- ---------------------------------------------------------------------------
-- Claim C3.  Wrong-typed targets of list / int operators raise.
-- ---------------------------------------------------------------------------

/-- C3: in `_mutate`, a list operator (`$xadd`, `$xrem`, `$xpush`, `$xpushl`,
their `_many` variants, `$xpop`, `$xpopl`) whose target path holds a present
non-list value raises the `TypeError` of `_get_list_data`, and `$incr` /
`$decr` on a present non-int value (Python-wise: not `int` and not `bool`)
raises the `TypeError` of `_get_int_data`. -/
theorem c3_wrong_type_raises :
    (∀ (env : MutEnv) (cops : CustomOps) (n : Nat) (key p op : String) (v : Val)
        (data : FlatDict) (imm : List String) (w : Val),
      op ∈ LISTTYPES_OPERATORS ++ ["xpop", "xpopl"] →
      hasColon key = true →
      hasColonDollar key = true →
      splitColonDollar key = [p, op] →
      fget data p = some w →
      w.isPyList = false → w ≠ .null →
      mutateFull env cops (n + 3) [(key, MVal.plain v)] data imm =
        .error ("Invalid data type for '" ++ p ++ "'. Must be 'list' ")) ∧
    (∀ (env : MutEnv) (cops : CustomOps) (n : Nat) (key p op : String) (v : Val)
        (data : FlatDict) (imm : List String) (w : Val),
      op ∈ ["incr", "decr"] →
      hasColon key = true →
      hasColonDollar key = true →
      splitColonDollar key = [p, op] →
      fget data p = some w →
      w.isPyInt = false → w ≠ .null →
      mutateFull env cops (n + 3) [(key, MVal.plain v)] data imm =
        .error ("Invalid data type for '" ++ p ++ "'. Must be 'int' ")) := by
  constructor
  · intro env cops n key p op v data imm w hop hc hcd hsp hget hlist hnull
    simp only [LISTTYPES_OPERATORS, List.mem_append, List.mem_cons,
      List.mem_singleton, List.not_mem_nil, or_false] at hop
    rcases hop with (rfl | rfl | rfl | rfl | rfl | rfl | rfl | rfl) | (rfl | rfl) <;>
      · simp only [mutateFull, mutLoop, convertMVal, hc, hcd, hsp, mutStep,
          get_list_data, hget, POSTPROC_OPS, isBuiltinOp, LISTTYPES_OPERATORS]
        cases w <;> simp_all [mutStep, get_list_data, hget, Val.isPyList]
  · intro env cops n key p op v data imm w hop hc hcd hsp hget hint hnull
    simp only [List.mem_cons, List.mem_singleton, List.not_mem_nil, or_false] at hop
    rcases hop with rfl | rfl <;>
      · simp only [mutateFull, mutLoop, convertMVal, hc, hcd, hsp, mutStep,
          get_int_data, hget, POSTPROC_OPS, isBuiltinOp, LISTTYPES_OPERATORS]
        cases w <;> simp_all [mutStep, get_int_data, hget, Val.isPyInt]

/-- Witness for `c3_wrong_type_raises`: `$xadd` on a string-valued path and
`$incr` on a string-valued path, both raising. -/
theorem c3_witness :
    mutateFull testEnv [] 3 [("l:$xadd", MVal.plain (.int 5))]
        [("l", .str "x")] [] =
      .error "Invalid data type for 'l'. Must be 'list' " ∧
    mutateFull testEnv [] 3 [("n:$incr", MVal.plain (.int 1))]
        [("n", .str "x")] [] =
      .error "Invalid data type for 'n'. Must be 'int' " :=
  ⟨c3_wrong_type_raises.1 testEnv [] 0 "l:$xadd" "l" "xadd" (.int 5)
      [("l", .str "x")] [] (.str "x") (by decide) rfl rfl rfl rfl rfl
      (by decide),
    c3_wrong_type_raises.2 testEnv [] 0 "n:$incr" "n" "incr" (.int 1)
      [("n", .str "x")] [] (.str "x") (by decide) rfl rfl rfl rfl rfl
      (by decide)⟩

/-- C2 (amended): a Mutator operation whose type precondition fails is not
silently skipped — `$incr`/`$decr` on a present non-int raises `TypeError`
(fail-hard, §7) — while a `$xpop` on a missing path raises no error, but
instead of leaving the path unchanged it writes the operation's literal
value there. -/
theorem c2_amended_fail_soft_only_for_pop :
    (∀ (env : MutEnv) (cops : CustomOps) (n : Nat) (key p op : String) (v : Val)
        (data : FlatDict) (imm : List String) (w : Val),
      op ∈ ["incr", "decr"] →
      hasColon key = true →
      hasColonDollar key = true →
      splitColonDollar key = [p, op] →
      fget data p = some w →
      w.isPyInt = false → w ≠ .null →
      mutateFull env cops (n + 3) [(key, MVal.plain v)] data imm =
        .error ("Invalid data type for '" ++ p ++ "'. Must be 'int' ")) ∧
    (∀ (env : MutEnv) (cops : CustomOps) (n : Nat) (key p : String) (v : Val)
        (data : FlatDict) (imm : List String),
      hasColon key = true →
      hasColonDollar key = true →
      splitColonDollar key = [p, "xpop"] →
      fget data p = none →
      mutateFull env cops (n + 3) [(key, MVal.plain v)] data imm =
        .ok (fset data p v, [])) := by
  constructor
  · intro env cops n key p op v data imm w hop hc hcd hsp hget hint hnull
    simp only [List.mem_cons, List.mem_singleton, List.not_mem_nil, or_false] at hop
    rcases hop with rfl | rfl <;>
      · simp only [mutateFull, mutLoop, convertMVal, hc, hcd, hsp, mutStep,
          get_int_data, hget, POSTPROC_OPS, isBuiltinOp, LISTTYPES_OPERATORS]
        cases w <;> simp_all [mutStep, get_int_data, hget, Val.isPyInt]
  · intro env cops n key p v data imm hc hcd hsp hget
    simp [mutateFull, mutLoop, convertMVal, hc, hcd, hsp, mutStep,
      get_list_data, hget, POSTPROC_OPS, isBuiltinOp, LISTTYPES_OPERATORS,
      postPass]

/-- Witness for `c2_amended_fail_soft_only_for_pop`. -/
theorem c2_amended_witness :
    mutateFull testEnv [] 3 [("n:$decr", MVal.plain (.int 1))]
        [("n", .str "x")] [] =
      .error "Invalid data type for 'n'. Must be 'int' " ∧
    mutateFull testEnv [] 3 [("l:$xpop", MVal.plain (.bool true))] [] [] =
      .ok ([("l", .bool true)], []) :=
  ⟨c2_amended_fail_soft_only_for_pop.1 testEnv [] 0 "n:$decr" "n" "decr"
      (.int 1) [("n", .str "x")] [] (.str "x") (by decide) rfl rfl rfl rfl rfl
      (by decide),
    c2_amended_fail_soft_only_for_pop.2 testEnv [] 0 "l:$xpop" "l"
      (.bool true) [] [] rfl rfl rfl rfl⟩

-- ---------------------------------------------------------------------------
-- Claim C9.  A `#`-prefixed filter value is emitted without generating a
-- bind variable; but `value.replace("#", "")` removes every `#`, not only
-- the leading marker, so the emission is not verbatim for values containing
-- further `#` characters.
-- ---------------------------------------------------------------------------

/-- C9 counterexample: the leaf `{"d": "#a#b"}` compiles to the clause text
` u.d == ab` — the inner `#` is removed too, so the emitted text is not the
value verbatim with the marker removed (which would be ` u.d == a#b`).  (No
bind variable is generated, as the claim also says.) -/
theorem c9_counterexample :
    parse_filter_row testXEnv 0 "d" (.str "#a#b") "u" =
      .ok (" u.d == ab", [], 1) ∧
    (" u.d == ab" : String) ≠ " u.d == a#b" :=
  ⟨rfl, by decide⟩

theorem pyFormat_std (vstr propkey k opstr ukey : String) :
    pyFormat " {propkey}.{key} {operator} {value}"
      [("value", vstr), ("propkey", propkey), ("key", k),
       ("operator", opstr), ("ukey", ukey)] =
      String.mk ((" ".data ++ propkey.data) ++ ".".data ++ k.data ++ " ".data
        ++ opstr.data ++ " ".data ++ vstr.data) := by
  simp [pyFormat, pyFormatAux]

theorem pyFormat_rev (vstr propkey k opstr ukey : String) :
    pyFormat " {value} {operator} {propkey}.{key}"
      [("value", vstr), ("propkey", propkey), ("key", k),
       ("operator", opstr), ("ukey", ukey)] =
      String.mk ((" ".data ++ vstr.data) ++ " ".data ++ opstr.data ++ " ".data
        ++ propkey.data ++ ".".data ++ k.data) := by
  simp [pyFormat, pyFormatAux]

/-- C9 (amended): for a filter leaf whose value string starts with `#`, the
compiler generates no bind variable, consumes one nonce, and splices the
value with **every** `#` character removed into the clause text (in operand
order per the operator's direction). -/
theorem c9_amended_hash_literal :
    ∀ (env : XqlEnv) (cnt : Nat) (k0 k op1 operator opstr s propkey : String),
      pyStartsWith s "#" = true →
      hasColon k0 = true →
      splitColon k0 = [k, op1] →
      pyUpper op1 = operator →
      aqlOpLookup operator = some opstr →
      parse_filter_row env cnt k0 (.str s) propkey =
        .ok ((if operator ∈ revOps then
                String.mk ((" ".data ++ (removeHashes s).data) ++ " ".data
                  ++ opstr.data ++ " ".data ++ propkey.data ++ ".".data ++ k.data)
              else
                String.mk ((" ".data ++ propkey.data) ++ ".".data ++ k.data
                  ++ " ".data ++ opstr.data ++ " ".data ++ (removeHashes s).data),
              [], cnt + 1)) := by
  intro env cnt k0 k op1 operator opstr s propkey hs hc hsp hup hlk
  have hmc : matchNowCap s = none := by
    cases s with
    | mk data =>
      cases data with
      | nil => simp [pyStartsWith] at hs
      | cons c tl =>
        have : c = '#' := by
          simpa [pyStartsWith, List.take] using hs
        subst this
        simp [matchNowCap]
  by_cases hrev : operator ∈ revOps
  · simp [parse_filter_row, hc, hsp, hup, hlk, hs, evalMcr, hmc, hrev,
      Val.pyToStr, pyFormat_rev]
  · simp [parse_filter_row, hc, hsp, hup, hlk, hs, evalMcr, hmc, hrev,
      Val.pyToStr, pyFormat_std]

/-- Witness for `c9_amended_hash_literal`. -/
theorem c9_amended_witness :
    parse_filter_row testXEnv 4 "d:$eq" (.str "#app.v_d") "post" =
      .ok (" post.d == app.v_d", [], 5) := by
  have h := c9_amended_hash_literal testXEnv 4 "d:$eq" "d" "$eq" "$EQ" "=="
    "#app.v_d" "post" (by decide) rfl rfl (by decide) rfl
  simpa using h

-- ---------------------------------------------------------------------------
-- Association-list lemmas for `fget` / `fset` / `fupdate`.
-- ---------------------------------------------------------------------------

def akeys (d : FlatDict) : List String := d.map (·.1)

def NodupKeys (d : FlatDict) : Prop := (akeys d).Nodup

theorem akeys_nil : akeys [] = [] := rfl

theorem akeys_cons (k : String) (v : Val) (tl : FlatDict) :
    akeys ((k, v) :: tl) = k :: akeys tl := rfl

theorem nodupKeys_nil : NodupKeys [] := List.nodup_nil

theorem nodupKeys_cons (k : String) (v : Val) (tl : FlatDict) :
    NodupKeys ((k, v) :: tl) ↔ k ∉ akeys tl ∧ NodupKeys tl := by
  simp [NodupKeys, akeys_cons, List.nodup_cons]

theorem fget_fset_self (d : FlatDict) (k : String) (v : Val) :
    fget (fset d k v) k = some v := by
  induction d with
  | nil => simp [fset, fget]
  | cons hd tl ih =>
    obtain ⟨k', v'⟩ := hd
    by_cases h : k' = k <;> simp [fset, fget, h, ih]

theorem fget_fset_ne (d : FlatDict) (k k' : String) (v : Val) (h : k ≠ k') :
    fget (fset d k v) k' = fget d k' := by
  induction d with
  | nil => simp [fset, fget, h]
  | cons hd tl ih =>
    obtain ⟨k2, v2⟩ := hd
    by_cases h2 : k2 = k
    · subst h2; simp [fset, fget, h]
    · simp [fset, fget, h2, ih]

theorem mem_akeys_fset : ∀ (d : FlatDict) (k x : String) (v : Val),
    x ∈ akeys (fset d k v) → x ∈ akeys d ∨ x = k := by
  intro d
  induction d with
  | nil =>
    intro k x v h
    simp only [fset, akeys_cons, akeys_nil, List.mem_cons,
      List.not_mem_nil, or_false] at h
    right; exact h
  | cons hd tl ih =>
    intro k x v h
    obtain ⟨k2, v2⟩ := hd
    by_cases h2 : k2 = k
    · subst h2
      simp only [fset, if_true, reduceIte, akeys_cons, List.mem_cons] at h ⊢
      tauto
    · simp only [fset, h2, ite_false, akeys_cons, List.mem_cons] at h ⊢
      rcases h with h | h
      · tauto
      · rcases ih k x v h with h3 | h3 <;> tauto

theorem nodupKeys_fset : ∀ (d : FlatDict) (k : String) (v : Val),
    NodupKeys d → NodupKeys (fset d k v) := by
  intro d
  induction d with
  | nil =>
    intro k v _
    simp [fset, nodupKeys_cons, nodupKeys_nil, akeys_nil]
  | cons hd tl ih =>
    intro k v h
    obtain ⟨k2, v2⟩ := hd
    rw [nodupKeys_cons] at h
    by_cases h2 : k2 = k
    · subst h2
      simp only [fset, reduceIte]
      rw [nodupKeys_cons]
      exact h
    · simp only [fset, h2, ite_false]
      rw [nodupKeys_cons]
      refine ⟨?_, ih k v h.2⟩
      intro hx
      rcases mem_akeys_fset tl k k2 v hx with h3 | h3
      · exact h.1 h3
      · exact h2 h3

theorem fupdate_nil (d : FlatDict) : fupdate d [] = d := rfl

theorem fupdate_cons (d1 : FlatDict) (k : String) (v : Val) (tl : FlatDict) :
    fupdate d1 ((k, v) :: tl) = fupdate (fset d1 k v) tl := rfl

theorem nodupKeys_fupdate : ∀ (d2 d1 : FlatDict),
    NodupKeys d1 → NodupKeys (fupdate d1 d2) := by
  intro d2
  induction d2 with
  | nil => intro d1 h; simpa [fupdate_nil]
  | cons hd tl ih =>
    intro d1 h
    obtain ⟨k, v⟩ := hd
    rw [fupdate_cons]
    exact ih _ (nodupKeys_fset _ _ _ h)

theorem fget_fupdate_notin : ∀ (d2 d1 : FlatDict) (k : String),
    k ∉ akeys d2 → fget (fupdate d1 d2) k = fget d1 k := by
  intro d2
  induction d2 with
  | nil => intro d1 k _; simp [fupdate_nil]
  | cons hd tl ih =>
    intro d1 k h
    obtain ⟨k2, v2⟩ := hd
    simp only [akeys_cons, List.mem_cons] at h
    push_neg at h
    rw [fupdate_cons, ih _ _ h.2, fget_fset_ne _ _ _ _ (fun he => h.1 he.symm)]

theorem fget_fupdate_right : ∀ (d2 d1 : FlatDict) (k : String) (v : Val),
    NodupKeys d2 → fget d2 k = some v → fget (fupdate d1 d2) k = some v := by
  intro d2
  induction d2 with
  | nil => intro d1 k v _ h; simp [fget] at h
  | cons hd tl ih =>
    intro d1 k v hnd h
    obtain ⟨k2, v2⟩ := hd
    rw [nodupKeys_cons] at hnd
    rw [fupdate_cons]
    by_cases h2 : k2 = k
    · subst h2
      simp only [fget, reduceIte, Option.some_inj] at h
      subst h
      rw [fget_fupdate_notin _ _ _ hnd.1, fget_fset_self]
    · simp only [fget, h2, ite_false] at h
      exact ih (fset d1 k2 v2) k v hnd.2 h

theorem mem_fset : ∀ (d : FlatDict) (k : String) (v : Val) (p : String × Val),
    p ∈ fset d k v → p ∈ d ∨ p = (k, v) := by
  intro d
  induction d with
  | nil => intro k v p h; simp [fset] at h; simp [h]
  | cons hd tl ih =>
    intro k v p h
    obtain ⟨k2, v2⟩ := hd
    by_cases h2 : k2 = k
    · subst h2
      simp only [fset, reduceIte, List.mem_cons] at h
      rcases h with h | h
      · right; simp [h]
      · left; simp [h]
    · simp only [fset, h2, ite_false, List.mem_cons] at h
      rcases h with h | h
      · left; simp [h]
      · rcases ih k v p h with h3 | h3
        · left; simp [h3]
        · right; exact h3

theorem mem_fupdate : ∀ (d2 d1 : FlatDict) (p : String × Val),
    p ∈ fupdate d1 d2 → p ∈ d1 ∨ p ∈ d2 := by
  intro d2
  induction d2 with
  | nil => intro d1 p h; simp [fupdate_nil] at h; simp [h]
  | cons hd tl ih =>
    intro d1 p h
    obtain ⟨k2, v2⟩ := hd
    rw [fupdate_cons] at h
    rcases ih _ _ h with h2 | h2
    · rcases mem_fset _ _ _ _ h2 with h3 | h3
      · simp [h3]
      · simp [h3]
    · simp [h2]

theorem string_data_append (a b : String) : (a ++ b).data = a.data ++ b.data := rfl

theorem pfr_params_nodup (env : XqlEnv) (cnt : Nat) (k0 : String) (v : Val)
    (pk a : String) (ps : FlatDict) (c : Nat)
    (h : parse_filter_row env cnt k0 v pk = .ok (a, ps, c)) : NodupKeys ps := by
  unfold parse_filter_row at h
  dsimp only [] at h
  split at h <;> (try split at h) <;> (try split at h) <;> (try split at h) <;>
    (try split at h)
  all_goals first
    | (simp at h; done)
    | (simp only [Except.ok.injEq, Prod.mk.injEq] at h
       rw [← h.2.1]
       simp [nodupKeys_cons, nodupKeys_nil, akeys_nil])

theorem fgr_params_nodup (d : VDict) (env : XqlEnv) (cnt : Nat)
    (pk : String) (rows : List String) (ps : FlatDict) (c : Nat)
    (h : filterGroupRows env cnt d pk = .ok (rows, ps, c)) : NodupKeys ps := by
  cases d with
  | nil =>
    simp only [filterGroupRows] at h
    simp_all [nodupKeys_nil]
  | cons k2 v2 tl =>
    simp only [filterGroupRows] at h
    split at h
    · simp at h
    · rename_i a1 ps1 c1 heq1
      split at h
      · simp at h
      · rename_i rest2 ps2 c2 heq2
        simp only [Except.ok.injEq, Prod.mk.injEq] at h
        rw [← h.2.1]
        exact nodupKeys_fupdate _ _ (pfr_params_nodup _ _ _ _ _ _ _ _ heq1)

theorem fgroups_params_nodup (gl : VList) (env : XqlEnv) (conn : String)
    (cnt : Nat) (pk aql : String) (ps : FlatDict) (c : Nat)
    (h : filterGroups env conn cnt gl pk = .ok (aql, ps, c)) : NodupKeys ps := by
  cases gl with
  | nil =>
    simp only [filterGroups] at h
    simp_all [nodupKeys_nil]
  | cons g tl =>
    cases g <;> simp only [filterGroups] at h <;> try simp at h
    case dict gd =>
      split at h
      · simp at h
      · rename_i rows1 ps1 c1 heq1
        split at h
        · simp at h
        · rename_i aql2 ps2 c2 heq2
          simp only [Except.ok.injEq, Prod.mk.injEq] at h
          rw [← h.2.1]
          exact nodupKeys_fupdate _ _
            (fgr_params_nodup _ _ _ _ _ _ _ heq1)

theorem afb_params_nodup (fd : VDict) (env : XqlEnv) (cnt : Nat)
    (pk aql : String) (ps : FlatDict) (c : Nat)
    (h : aqlFilterBuilder env cnt fd pk = .ok (aql, ps, c)) : NodupKeys ps := by
  cases fd with
  | nil =>
    simp only [aqlFilterBuilder] at h
    simp_all [nodupKeys_nil]
  | cons k fv tl =>
    simp only [aqlFilterBuilder] at h
    split at h
    · -- "$"-prefixed logic key
      split at h
      · simp at h
      · split at h
        · -- dict alternative
          split at h
          · simp at h
          · rename_i aql1 ps1 c1 heq1
            split at h
            · simp at h
            · rename_i aql2 ps2 c2 heq2
              simp only [Except.ok.injEq, Prod.mk.injEq] at h
              rw [← h.2.1]
              exact nodupKeys_fupdate _ _
                (fgroups_params_nodup _ _ _ _ _ _ _ _ heq1)
        · -- list of alternatives
          split at h
          · simp at h
          · rename_i aql1 ps1 c1 heq1
            split at h
            · simp at h
            · rename_i aql2 ps2 c2 heq2
              simp only [Except.ok.injEq, Prod.mk.injEq] at h
              rw [← h.2.1]
              exact nodupKeys_fupdate _ _
                (fgroups_params_nodup _ _ _ _ _ _ _ _ heq1)
        · simp at h
    · -- plain leaf
      split at h
      · simp at h
      · rename_i a1 ps1 c1 heq1
        split at h
        · simp at h
        · rename_i aql2 ps2 c2 heq2
          simp only [Except.ok.injEq, Prod.mk.injEq] at h
          rw [← h.2.1]
          exact nodupKeys_fupdate _ _ (pfr_params_nodup _ _ _ _ _ _ _ _ heq1)

-- ---------------------------------------------------------------------------
-- Claim C8.  When OFFSET is unset the compiler first clamps LIMIT to
-- `max_limit` and only then computes the offset, and a PAGE below 1 yields
-- offset 0 — so the emitted offset is (PAGE-1)*min(LIMIT, max_limit), not
-- (PAGE-1)*LIMIT.
-- ---------------------------------------------------------------------------

/-- C8 counterexample: `{"LIMIT": 200, "PAGE": 2}` with `max_limit = 100`
compiles to an offset bind of 100, not `(2-1)*200 = 200` as the claim
computes. -/
theorem c8_counterexample :
    (∃ q cnt, xql_to_aql testXEnv none 100 5 0
      [("LIMIT", .int 200), ("PAGE", .int 2)] [] =
      .ok (q, [("offset_100000", .int 100), ("limit_100000", .int 100),
               ("@collection_100000", .null)], cnt)) ∧
    Val.int 100 ≠ Val.int ((2 - 1) * 200) :=
  ⟨⟨_, _, rfl⟩, by decide⟩

theorem limit_ne_offset (s : String) : ("limit_" ++ s) ≠ ("offset_" ++ s) := by
  intro h
  have h2 := congrArg (fun t : String => t.data.length) h
  simp only [string_data_append, List.length_append] at h2
  have e1 : ("limit_" : String).data.length = 6 := rfl
  have e2 : ("offset_" : String).data.length = 7 := rfl
  rw [e1, e2] at h2
  omega

theorem coll_ne_offset (s : String) : ("@collection_" ++ s) ≠ ("offset_" ++ s) := by
  intro h
  have h2 := congrArg (fun t : String => t.data.length) h
  simp only [string_data_append, List.length_append] at h2
  have e1 : ("@collection_" : String).data.length = 12 := rfl
  have e2 : ("offset_" : String).data.length = 7 := rfl
  rw [e1, e2] at h2
  omega

theorem intOrDefault (L d : Int) :
    (if (Val.int L).truthy = true then Val.int L else Val.int d) =
      Val.int (if L = 0 then d else L) := by
  by_cases h : L = 0 <;> simp [Val.truthy, h]

theorem pyGtInt_int (x M : Int) :
    pyGtInt (Val.int x) M = .ok (decide (M < x)) := rfl

theorem calc_off_int (p l : Int) :
    calc_pagination_offset (.int p) (.int l) =
      .ok (.int (if p < 1 then 0 else (p - 1) * l)) := by
  simp only [calc_pagination_offset, Val.asInt]
  split <;> simp

theorem clamp_decide (M L2 : Int) :
    (if (decide (M < L2)) = true then Val.int M else Val.int L2) =
      Val.int (if M < L2 then M else L2) := by
  by_cases h : M < L2 <;> simp [h]

/-- C8 (amended): for a tree whose normalized OFFSET is unset (with
`parser = None` and numeric LIMIT/PAGE), a successful compile emits the
top-level offset bind `(PAGE'-1) * min(LIMIT', max_limit)` — LIMIT is
clamped **before** the multiplication — where LIMIT' defaults a falsy LIMIT
to 10, PAGE' defaults a falsy PAGE to 1, and a PAGE below 1 yields 0. -/
theorem c8_amended_offset_formula
    (env : XqlEnv) (M : Int) (fuel cnt : Nat) (xql vars : FlatDict)
    (L P : Int) (q : String) (binds : FlatDict) (c' : Nat)
    (hOff : fget (prepare_xql xql) "OFFSET" = some .null)
    (hLim : fget (prepare_xql xql) "LIMIT" = some (.int L))
    (hPage : fget (prepare_xql xql) "PAGE" = some (.int P))
    (hAlias : ((fget (prepare_xql xql) "ALIAS").getD .null).truthy = true)
    (hcomp : xql_to_aql env none M (fuel + 1) cnt xql vars = .ok (q, binds, c')) :
    fget binds ("offset_" ++ env.nonce cnt) =
      some (.int (
        if (if P = 0 then 1 else P) < 1 then 0
        else ((if P = 0 then 1 else P) - 1) *
          (if M < (if L = 0 then 10 else L) then M
           else (if L = 0 then 10 else L)))) := by
  unfold xql_to_aql at hcomp
  dsimp only [] at hcomp
  rw [hAlias] at hcomp
  simp only [not_true, ite_false, reduceIte] at hcomp
  rw [hOff, hLim, hPage] at hcomp
  simp only [orDefault, Option.getD_some, intOrDefault, pyGtInt_int,
    calc_off_int, clamp_decide, reduceIte] at hcomp
  split at hcomp
  case h_2 => simp at hcomp
  case h_1 fd hfd =>
    split at hcomp
    case h_1 e heq => simp at hcomp
    case h_2 aqlFilter filterVars cnt2 heqfb =>
      split at hcomp
      case h_1 e heq => simp at hcomp
      case h_2 aqlSorting heqsort =>
        split at hcomp
        case h_2 => simp at hcomp
        case h_1 jl hjl =>
          split at hcomp
          case h_1 e heq => simp at hcomp
          case h_2 subquery bvJoins cnt3 heqjoin =>
            simp only [Except.ok.injEq, Prod.mk.injEq] at hcomp
            rw [← hcomp.2.1]
            apply fget_fupdate_right
            · exact nodupKeys_fupdate _ _
                (afb_params_nodup _ _ _ _ _ _ _ heqfb)
            · rw [show ∀ (fv : FlatDict) (a b c : String) (va vb vc : Val),
                  fupdate fv [(a, va), (b, vb), (c, vc)] =
                    fset (fset (fset fv a va) b vb) c vc from
                  fun _ _ _ _ _ _ _ => rfl]
              rw [fget_fset_ne _ _ _ _ (coll_ne_offset _),
                fget_fset_ne _ _ _ _ (limit_ne_offset _), fget_fset_self]

/-- Witness for `c8_amended_offset_formula`: `LIMIT=200, PAGE=2, max_limit=100`
gives offset `(2-1)*100 = 100`. -/
theorem c8_amended_witness :
    fget [("offset_100000", Val.int 100), ("limit_100000", Val.int 100),
          ("@collection_100000", Val.null)] ("offset_" ++ testXEnv.nonce 0) =
      some (.int 100) := by
  have h := c8_amended_offset_formula testXEnv 100 4 0
    [("LIMIT", .int 200), ("PAGE", .int 2)] [] 200 2 _ _ _
    rfl rfl rfl rfl rfl
  simpa using h

-- ---------------------------------------------------------------------------
-- Claim C7.  Every limit bind variable's value is at most max_limit.
-- ---------------------------------------------------------------------------

/-- "The bind value is a number at most `M`" (a limit bind is always an int
or a bool; Python compares bools as 0/1). -/
def limitValLe (v : Val) (M : Int) : Prop :=
  match v with
  | .int n => n ≤ M
  | .bool b => (if b then (1 : Int) else 0) ≤ M
  | _ => False

theorem pfr_params_slug (env : XqlEnv) (cnt : Nat) (k0 : String) (v : Val)
    (pk a : String) (ps : FlatDict) (c : Nat)
    (h : parse_filter_row env cnt k0 v pk = .ok (a, ps, c)) :
    ∀ p ∈ ps, ∃ s, p.1 = env.slug s := by
  unfold parse_filter_row at h
  dsimp only [] at h
  split at h <;> (try split at h) <;> (try split at h) <;> (try split at h) <;>
    (try split at h)
  all_goals first
    | (simp at h; done)
    | (simp only [Except.ok.injEq, Prod.mk.injEq] at h
       rw [← h.2.1]
       simp
       try exact ⟨_, rfl⟩)

theorem fgr_params_slug : ∀ (d : VDict) (env : XqlEnv) (cnt : Nat)
    (pk : String) (rows : List String) (ps : FlatDict) (c : Nat),
    filterGroupRows env cnt d pk = .ok (rows, ps, c) →
    ∀ p ∈ ps, ∃ s, p.1 = env.slug s
  | .nil => by
    intro env cnt pk rows ps c h
    simp only [filterGroupRows] at h
    simp_all
  | .cons k2 v2 tl => by
    intro env cnt pk rows ps c h
    simp only [filterGroupRows] at h
    split at h
    · simp at h
    · rename_i a1 ps1 c1 heq1
      split at h
      · simp at h
      · rename_i rest2 ps2 c2 heq2
        simp only [Except.ok.injEq, Prod.mk.injEq] at h
        rw [← h.2.1]
        intro p hp
        rcases mem_fupdate _ _ _ hp with h3 | h3
        · exact pfr_params_slug _ _ _ _ _ _ _ _ heq1 p h3
        · exact fgr_params_slug tl _ _ _ _ _ _ heq2 p h3

theorem fgroups_params_slug : ∀ (gl : VList) (env : XqlEnv) (conn : String)
    (cnt : Nat) (pk aql : String) (ps : FlatDict) (c : Nat),
    filterGroups env conn cnt gl pk = .ok (aql, ps, c) →
    ∀ p ∈ ps, ∃ s, p.1 = env.slug s
  | .nil => by
    intro env conn cnt pk aql ps c h
    simp only [filterGroups] at h
    simp_all
  | .cons (.dict gd) tl => by
    intro env conn cnt pk aql ps c h
    simp only [filterGroups] at h
    split at h
    · simp at h
    · rename_i rows1 ps1 c1 heq1
      split at h
      · simp at h
      · rename_i aql2 ps2 c2 heq2
        simp only [Except.ok.injEq, Prod.mk.injEq] at h
        rw [← h.2.1]
        intro p hp
        rcases mem_fupdate _ _ _ hp with h3 | h3
        · exact fgr_params_slug _ _ _ _ _ _ _ heq1 p h3
        · exact fgroups_params_slug tl _ _ _ _ _ _ _ heq2 p h3
  | .cons (.null) tl
  | .cons (.bool _) tl
  | .cons (.int _) tl
  | .cons (.str _) tl
  | .cons (.list _) tl => by
    intro env conn cnt pk aql ps c h
    simp only [filterGroups] at h
    simp at h

theorem afb_params_slug : ∀ (fd : VDict) (env : XqlEnv) (cnt : Nat)
    (pk aql : String) (ps : FlatDict) (c : Nat),
    aqlFilterBuilder env cnt fd pk = .ok (aql, ps, c) →
    ∀ p ∈ ps, ∃ s, p.1 = env.slug s
  | .nil => by
    intro env cnt pk aql ps c h
    simp only [aqlFilterBuilder] at h
    simp_all
  | .cons k fv tl => by
    intro env cnt pk aql ps c h
    simp only [aqlFilterBuilder] at h
    split at h
    · split at h
      · simp at h
      · split at h
        · split at h
          · simp at h
          · rename_i aql1 ps1 c1 heq1
            split at h
            · simp at h
            · rename_i aql2 ps2 c2 heq2
              simp only [Except.ok.injEq, Prod.mk.injEq] at h
              rw [← h.2.1]
              intro p hp
              rcases mem_fupdate _ _ _ hp with h3 | h3
              · exact fgroups_params_slug _ _ _ _ _ _ _ _ heq1 p h3
              · exact afb_params_slug tl _ _ _ _ _ _ heq2 p h3
        · split at h
          · simp at h
          · rename_i aql1 ps1 c1 heq1
            split at h
            · simp at h
            · rename_i aql2 ps2 c2 heq2
              simp only [Except.ok.injEq, Prod.mk.injEq] at h
              rw [← h.2.1]
              intro p hp
              rcases mem_fupdate _ _ _ hp with h3 | h3
              · exact fgroups_params_slug _ _ _ _ _ _ _ _ heq1 p h3
              · exact afb_params_slug tl _ _ _ _ _ _ heq2 p h3
        · simp at h
    · split at h
      · simp at h
      · rename_i a1 ps1 c1 heq1
        split at h
        · simp at h
        · rename_i aql2 ps2 c2 heq2
          simp only [Except.ok.injEq, Prod.mk.injEq] at h
          rw [← h.2.1]
          intro p hp
          rcases mem_fupdate _ _ _ hp with h3 | h3
          · exact pfr_params_slug _ _ _ _ _ _ _ _ heq1 p h3
          · exact afb_params_slug tl _ _ _ _ _ _ heq2 p h3

theorem offset_not_limit_pre (s : String) :
    pyStartsWith ("offset_" ++ s) "limit_" = false := rfl

theorem coll_not_limit_pre (s : String) :
    pyStartsWith ("@collection_" ++ s) "limit_" = false := rfl

theorem pyGtInt_ok_inv (v : Val) (M : Int) (g : Bool)
    (h : pyGtInt v M = .ok g) :
    ∃ a, v.asInt = some a ∧ g = decide (M < a) := by
  cases v <;> simp [pyGtInt, Val.asInt] at h ⊢ <;> exact h.symm

/-- The value the compiler binds for `limit_<n>` — `LIMIT` after the final
clamp — never exceeds `max_limit`. -/
theorem limitValLe_clamped (LIM1 : Val) (M : Int) (g : Bool)
    (h : pyGtInt LIM1 M = .ok g) :
    limitValLe (if g = true then Val.int M else LIM1) M := by
  obtain ⟨a, ha, hg⟩ := pyGtInt_ok_inv LIM1 M g h
  subst hg
  by_cases hgt : M < a
  · simp [hgt, limitValLe]
  · simp only [hgt, decide_eq_true_eq, if_false, ite_false]
    cases LIM1
    · simp [Val.asInt] at ha
    · rename_i b
      cases b <;> simp_all [limitValLe, Val.asInt] <;> omega
    · rename_i nn
      simp only [Val.asInt, Option.some_inj] at ha
      subst ha
      simp only [limitValLe]
      omega
    · simp [Val.asInt] at ha
    · simp [Val.asInt] at ha
    · simp [Val.asInt] at ha

/-- C7: every bind variable named `limit_*` produced by `xql_to_aql` — at
the top level and inside every nested JOIN subquery — has a numeric value
at most `max_limit`, for every fuel, nonce position, parser hook and tree
(provided the slugified filter bind names never carry the reserved
`limit_` prefix).  The second conjunct is the same statement for the join
loop, carried through the induction. -/
theorem c7_limit_binds_le (env : XqlEnv)
    (hslug : ∀ s, pyStartsWith (env.slug s) "limit_" = false) :
    ∀ (fuel : Nat),
      (∀ (prs : Option (FlatDict → FlatDict)) (M : Int) (cnt : Nat)
         (xql vars : FlatDict) (q : String) (binds : FlatDict) (c' : Nat),
        xql_to_aql env prs M fuel cnt xql vars = .ok (q, binds, c') →
        ∀ p ∈ binds, pyStartsWith p.1 "limit_" = true → limitValLe p.2 M) ∧
      (∀ (prs : Option (FlatDict → FlatDict)) (M : Int) (cnt : Nat)
         (jl : VList) (sub : String) (binds : FlatDict) (c' : Nat),
        joinLoop env prs M fuel cnt jl = .ok (sub, binds, c') →
        ∀ p ∈ binds, pyStartsWith p.1 "limit_" = true → limitValLe p.2 M) := by
  intro fuel
  induction fuel with
  | zero =>
    constructor
    · intro prs M cnt xql vars q binds c' h
      simp [xql_to_aql] at h
    · intro prs M cnt jl sub binds c' h
      simp [joinLoop] at h
  | succ n ih =>
    obtain ⟨ihA, ihB⟩ := ih
    constructor
    · intro prs M cnt xql vars q binds c' h
      unfold xql_to_aql at h
      dsimp only [] at h
      split at h
      case h_1 e heqoffres => simp at h
      case h_2 OFF2 LIM1 heqoffres =>
        split at h
        case h_1 e heqgt2 => simp at h
        case h_2 gt2 heqgt2 =>
          split at h
          case h_2 => simp at h
          case h_1 fd hfd =>
            split at h
            case h_1 e heqf => simp at h
            case h_2 aqlF fv cnt2 heqfb =>
              split at h
              case h_1 e heqs => simp at h
              case h_2 aqlS heqsort =>
                split at h
                case h_2 => simp at h
                case h_1 jl hjl =>
                  split at h
                  case h_1 e heqj => simp at h
                  case h_2 sub bvJ cnt3 heqjoin =>
                    simp only [Except.ok.injEq, Prod.mk.injEq] at h
                    rw [← h.2.1]
                    intro p hp hpre
                    rcases mem_fupdate _ _ _ hp with hmem | hmem
                    · exact ihB _ _ _ _ _ _ _ heqjoin p hmem hpre
                    · rcases mem_fupdate _ _ _ hmem with hmem2 | hmem2
                      · obtain ⟨s, hs⟩ :=
                          afb_params_slug _ _ _ _ _ _ _ heqfb p hmem2
                        rw [hs, hslug s] at hpre
                        exact absurd hpre (by simp)
                      · simp only [List.mem_cons, List.not_mem_nil,
                          or_false] at hmem2
                        rcases hmem2 with rfl | rfl | rfl
                        · rw [offset_not_limit_pre] at hpre
                          exact absurd hpre (by simp)
                        · exact limitValLe_clamped _ _ _ heqgt2
                        · rw [coll_not_limit_pre] at hpre
                          exact absurd hpre (by simp)
    · intro prs M cnt jl sub binds c' h
      cases jl with
      | nil =>
        simp only [joinLoop] at h
        simp only [Except.ok.injEq, Prod.mk.injEq] at h
        rw [← h.2.1]
        intro p hp
        simp at hp
      | cons j tl =>
        simp only [joinLoop] at h
        split at h
        case h_2 => simp at h
        case h_1 jd =>
          split at h
          case h_1 e heqx => simp at h
          case h_2 q1 bv cnt1 heqx =>
            split at h
            case h_1 e heqj => simp at h
            case h_2 sub2 bv2 cnt2 heqj =>
              simp only [Except.ok.injEq, Prod.mk.injEq] at h
              rw [← h.2.1]
              intro p hp hpre
              rcases mem_fupdate _ _ _ hp with hmem | hmem
              · exact ihA _ _ _ _ _ _ _ _ heqx p hmem hpre
              · exact ihB _ _ _ _ _ _ _ heqj p hmem hpre

/-- Witness for `c7_limit_binds_le`: the S5-style query compiled with
`max_limit = 100` carries the limit bind `("limit_100000", 5)`, and `5 ≤ 100`. -/
theorem c7_witness :
    pyStartsWith "limit_100000" "limit_" = true ∧ limitValLe (Val.int 5) 100 :=
  ⟨rfl,
    (c7_limit_binds_le testXEnv (fun _ => rfl) 5).1 none 100 0
      [("FROM", .str "users"),
       ("FILTERS", .dict (VDict.ofList [("age:$gt", .int 18)])),
       ("LIMIT", .int 5), ("PAGE", .int 2)] [] _ _ _ rfl
      ("limit_100000", .int 5) (by decide) rfl⟩

-- ---------------------------------------------------------------------------
-- Claim C5.  Round trip `unflatten(flatten(V)) == V`.
-- String-level lemmas about dotted keys.
-- ---------------------------------------------------------------------------

/-- A usable literal key: non-empty and containing no dot (the claim already
excludes dotted literal keys; empty keys break the `strip(".")` joining the
same way). -/
def goodKeyB (k : String) : Bool := k != "" && !(k.data.any (· = '.'))

theorem dropWhile_dot_of_all (l : List Char) (h : ∀ c ∈ l, ¬ c = '.') :
    l.dropWhile (· = '.') = l := by
  cases l with
  | nil => rfl
  | cons c tl =>
    rw [List.dropWhile_cons]
    simp [h c (by simp)]

theorem mk_data (s : String) : String.mk s.data = s := rfl

theorem goodKey_ne_dot (k : String) (h : goodKeyB k = true) :
    ∀ c ∈ k.data, ¬ c = '.' := by
  intro c hc
  simp only [goodKeyB, Bool.and_eq_true, bne_iff_ne, ne_eq,
    Bool.not_eq_true', List.any_eq_false] at h
  have := h.2 c hc
  simpa using this

theorem goodKey_data_ne_nil (k : String) (h : goodKeyB k = true) :
    k.data ≠ [] := by
  simp only [goodKeyB, Bool.and_eq_true, bne_iff_ne, ne_eq] at h
  intro hd
  exact h.1 (by cases k; simp_all)

theorem splitCharAux_of_no_dot (l cur : List Char) (h : ∀ c ∈ l, ¬ c = '.') :
    splitCharAux '.' l cur = [String.mk (cur.reverse ++ l)] := by
  induction l generalizing cur with
  | nil => simp [splitCharAux]
  | cons c tl ih =>
    rw [splitCharAux]
    have hc : ¬ c = '.' := h c (by simp)
    simp only [hc, if_false, ite_false]
    rw [ih (c :: cur) (fun x hx => h x (by simp [hx]))]
    simp

/-- A good key splits to itself. -/
theorem splitDot_good (k : String) (h : goodKeyB k = true) :
    splitDot k = [k] := by
  unfold splitDot
  rw [splitCharAux_of_no_dot _ _ (goodKey_ne_dot k h)]
  simp [mk_data]

theorem splitCharAux_append_dot (xs : List Char) :
    ∀ (cur t : List Char), (∀ c ∈ xs, ¬ c = '.') →
    splitCharAux '.' (xs ++ '.' :: t) cur =
      String.mk (cur.reverse ++ xs) :: splitCharAux '.' t [] := by
  induction xs with
  | nil => intro cur t _; rw [List.nil_append, splitCharAux]; simp
  | cons c tl ih =>
    intro cur t h
    have hc : ¬ c = '.' := h c (by simp)
    rw [List.cons_append, splitCharAux]
    simp only [hc, if_false, ite_false]
    rw [ih (c :: cur) t (fun x hx => h x (by simp [hx]))]
    simp

/-- `s.split(".")` of `x ++ "." ++ t` peels the first good segment. -/
theorem splitDot_cons (x t : String) (h : goodKeyB x = true) :
    splitDot (x ++ "." ++ t) = x :: splitDot t := by
  unfold splitDot
  have : (x ++ "." ++ t).data = x.data ++ '.' :: t.data := by
    rw [string_data_append, string_data_append, List.append_assoc]
    rfl
  rw [this, splitCharAux_append_dot x.data _ _ (goodKey_ne_dot x h)]
  simp [mk_data]

theorem str_ext (a b : String) (h : a.data = b.data) : a = b := by
  cases a; cases b; simp_all

/-- All segments of a dotted path are usable keys. -/
def goodSegs (l : List String) : Bool := l.all goodKeyB

theorem goodSegs_cons (s : String) (tl : List String) :
    goodSegs (s :: tl) = (goodKeyB s && goodSegs tl) := by
  simp [goodSegs]

theorem goodSegs_append (a b : List String) :
    goodSegs (a ++ b) = (goodSegs a && goodSegs b) := by
  simp [goodSegs, List.all_append]

/-- Splitting inverts joining on a non-empty path of good segments. -/
theorem splitDot_joinDot : ∀ (segs : List String), goodSegs segs = true →
    segs ≠ [] → splitDot (joinDot segs) = segs := by
  intro segs
  induction segs with
  | nil => intro _ h; exact absurd rfl h
  | cons s tl ih =>
    intro hg _
    rw [goodSegs_cons, Bool.and_eq_true] at hg
    cases tl with
    | nil => exact splitDot_good s hg.1
    | cons y tl2 =>
      show splitDot (s ++ "." ++ joinDot (y :: tl2)) = _
      rw [splitDot_cons _ _ hg.1, ih hg.2 (by simp)]

theorem joinDot_append_single : ∀ (segs : List String) (k : String),
    segs ≠ [] → joinDot (segs ++ [k]) = joinDot segs ++ "." ++ k := by
  intro segs
  induction segs with
  | nil => intro k h; exact absurd rfl h
  | cons s tl ih =>
    intro k _
    cases tl with
    | nil => rfl
    | cons y tl2 =>
      show s ++ "." ++ joinDot ((y :: tl2) ++ [k]) = _
      rw [ih k (by simp), ← String.append_assoc, ← String.append_assoc]
      rfl

theorem dropWhile_dot_of_head (l : List Char)
    (h : ∀ c, l.head? = some c → ¬ c = '.') :
    l.dropWhile (· = '.') = l := by
  cases l with
  | nil => rfl
  | cons c tl =>
    rw [List.dropWhile_cons]
    simp [h c rfl]

/-- Python `s.strip(".")` is the identity when neither end is a dot. -/
theorem stripDots_id (l : List Char)
    (h1 : ∀ c, l.head? = some c → ¬ c = '.')
    (h2 : ∀ c, l.getLast? = some c → ¬ c = '.') :
    stripDots (String.mk l) = String.mk l := by
  unfold stripDots
  show String.mk (((l.dropWhile (· = '.')).reverse.dropWhile (· = '.')).reverse) = _
  rw [dropWhile_dot_of_head l h1]
  rw [dropWhile_dot_of_head l.reverse
    (fun c hc => h2 c (by rwa [List.head?_reverse] at hc))]
  rw [List.reverse_reverse]

theorem joinDot_data_cons (s : String) (y : String) (tl : List String) :
    (joinDot (s :: y :: tl)).data = s.data ++ '.' :: (joinDot (y :: tl)).data := by
  show (s ++ "." ++ joinDot (y :: tl)).data = _
  rw [string_data_append, string_data_append, List.append_assoc]
  rfl

theorem joinDot_head_ne_dot : ∀ (s : String) (rest : List String),
    goodKeyB s = true →
    ∀ c, (joinDot (s :: rest)).data.head? = some c → ¬ c = '.' := by
  intro s rest hs c hc
  have hmem : c ∈ s.data := by
    cases rest with
    | nil => exact List.mem_of_mem_head? hc
    | cons y tl =>
      rw [joinDot_data_cons] at hc
      cases hd : s.data with
      | nil => exact absurd hd (goodKey_data_ne_nil s hs)
      | cons a l2 =>
        rw [hd] at hc
        simp only [List.cons_append, List.head?_cons, Option.some_inj] at hc
        subst hc
        simp [hd]
  exact goodKey_ne_dot s hs c hmem

theorem joinDot_data_ne_nil (y : String) (tl2 : List String)
    (hgy : goodKeyB y = true) : (joinDot (y :: tl2)).data ≠ [] := by
  cases tl2 with
  | nil => exact goodKey_data_ne_nil y hgy
  | cons z tl3 =>
    rw [joinDot_data_cons]
    simp

theorem joinDot_last_ne_dot : ∀ (segs : List String),
    goodSegs segs = true → segs ≠ [] →
    ∀ c, (joinDot segs).data.getLast? = some c → ¬ c = '.' := by
  intro segs
  induction segs with
  | nil => intro _ h; exact absurd rfl h
  | cons s tl ih =>
    intro hg _
    have hgs : goodKeyB s = true := by
      rw [goodSegs_cons, Bool.and_eq_true] at hg; exact hg.1
    have hgt : goodSegs tl = true := by
      rw [goodSegs_cons, Bool.and_eq_true] at hg; exact hg.2
    intro c hc
    cases tl with
    | nil => exact goodKey_ne_dot s hgs c (List.mem_of_mem_getLast? hc)
    | cons y tl2 =>
      have hgy : goodKeyB y = true := by
        rw [goodSegs_cons, Bool.and_eq_true] at hgt; exact hgt.1
      rw [joinDot_data_cons] at hc
      have hne : (joinDot (y :: tl2)).data ≠ [] := joinDot_data_ne_nil y tl2 hgy
      have hsplit : s.data ++ '.' :: (joinDot (y :: tl2)).data =
          (s.data ++ ['.']) ++ (joinDot (y :: tl2)).data := by simp
      rw [hsplit, List.getLast?_append_of_ne_nil _ hne] at hc
      exact ih hgt (by simp) c hc

/-- `joinKey` extends a good dotted path by one good segment. -/
theorem joinKey_joinDot : ∀ (segs : List String) (k : String),
    goodSegs segs = true → goodKeyB k = true →
    joinKey (joinDot segs) k = joinDot (segs ++ [k]) := by
  intro segs k hs hk
  cases segs with
  | nil =>
    show stripDots ("" ++ "." ++ k) = k
    have hdata : ("" ++ "." ++ k).data = '.' :: k.data := by
      rw [string_data_append, string_data_append]; rfl
    have heq : ("" ++ "." ++ k) = String.mk ('.' :: k.data) := str_ext _ _ hdata
    rw [heq]
    unfold stripDots
    show String.mk (((('.' :: k.data).dropWhile (· = '.')).reverse.dropWhile
      (· = '.')).reverse) = k
    rw [List.dropWhile_cons]
    simp only [decide_True, if_true, reduceIte]
    rw [dropWhile_dot_of_all k.data (goodKey_ne_dot k hk)]
    rw [dropWhile_dot_of_all k.data.reverse
      (fun c hc => goodKey_ne_dot k hk c (List.mem_reverse.mp hc))]
    rw [List.reverse_reverse]
  | cons s tl =>
    show stripDots (joinDot (s :: tl) ++ "." ++ k) = _
    rw [goodSegs_cons, Bool.and_eq_true] at hs
    have hdata : (joinDot (s :: tl) ++ "." ++ k).data =
        (joinDot (s :: tl)).data ++ '.' :: k.data := by
      rw [string_data_append, string_data_append, List.append_assoc]; rfl
    have heq : joinDot (s :: tl) ++ "." ++ k =
        String.mk ((joinDot (s :: tl)).data ++ '.' :: k.data) := str_ext _ _ hdata
    rw [heq]
    rw [stripDots_id _ ?hh ?hl]
    case hh =>
      intro c hc
      rw [List.head?_append_of_ne_nil _ (joinDot_data_ne_nil s tl hs.1)] at hc
      exact joinDot_head_ne_dot s tl hs.1 c hc
    case hl =>
      intro c hc
      rw [List.getLast?_append_of_ne_nil _ (by simp)] at hc
      have hsplit : ('.' :: k.data) = ['.'] ++ k.data := rfl
      rw [hsplit, List.getLast?_append_of_ne_nil _ (goodKey_data_ne_nil k hk)] at hc
      exact goodKey_ne_dot k hk c (List.mem_of_mem_getLast? hc)
    · rw [← heq, joinDot_append_single _ _ (by simp)]

-- ---------------------------------------------------------------------------
-- `fset` / `fupdate` algebra used to decompose `flatten_dict`.
-- ---------------------------------------------------------------------------

theorem fupdate_append (b : FlatDict) : ∀ (x y : FlatDict),
    fupdate b (x ++ y) = fupdate (fupdate b x) y := by
  intro x y
  simp [fupdate, List.foldl_append]

theorem fset_fset_self (d : FlatDict) (k : String) (v1 v2 : Val) :
    fset (fset d k v1) k v2 = fset d k v2 := by
  induction d with
  | nil => simp [fset]
  | cons hd tl ih =>
    obtain ⟨k2, v'⟩ := hd
    by_cases h : k2 = k <;> simp [fset, h, ih]

theorem fset_fset_comm_present : ∀ (b : FlatDict) (k k2 : String)
    (v v2 w : Val), ¬ k = k2 → fget b k = some w →
    fset (fset b k2 v2) k v = fset (fset b k v) k2 v2 := by
  intro b
  induction b with
  | nil => intro k k2 v v2 w _ hw; simp [fget] at hw
  | cons hd tl ih =>
    intro k k2 v v2 w hne hw
    obtain ⟨k3, v3⟩ := hd
    by_cases h3 : k3 = k
    · subst h3
      have h32 : ¬ k3 = k2 := hne
      simp [fset, h32, reduceIte]
    · simp only [fget, h3, ite_false, if_false] at hw
      by_cases h32 : k3 = k2
      · subst h32
        simp [fset, h3]
      · simp only [fset, h3, h32, ite_false, if_false]
        rw [ih k k2 v v2 w hne hw]

theorem fset_fupdate_present : ∀ (tl : FlatDict) (b : FlatDict)
    (k : String) (v w : Val), k ∉ akeys tl → fget b k = some w →
    fset (fupdate b tl) k v = fupdate (fset b k v) tl := by
  intro tl
  induction tl with
  | nil => intro b k v w _ _; simp [fupdate_nil]
  | cons hd tl2 ih =>
    intro b k v w hk hw
    obtain ⟨k2, v2⟩ := hd
    simp only [akeys_cons, List.mem_cons] at hk
    push_neg at hk
    rw [fupdate_cons, fupdate_cons]
    rw [ih (fset b k2 v2) k v w hk.2
      (by rw [fget_fset_ne _ _ _ _ (fun h => hk.1 h.symm)]; exact hw)]
    rw [fset_fset_comm_present b k k2 v v2 w hk.1 hw]

/-- Pushing one `d[k] = v` through `d.update(...)` of a nodup-keyed dict. -/
theorem fset_fupdate : ∀ (f : FlatDict), NodupKeys f →
    ∀ (a : FlatDict) (k : String) (v : Val),
    fset (fupdate a f) k v = fupdate a (fset f k v) := by
  intro f
  induction f with
  | nil => intro _ a k v; simp [fupdate_nil, fupdate, fset]
  | cons hd tl ih =>
    intro hnd a k v
    obtain ⟨k2, v2⟩ := hd
    rw [nodupKeys_cons] at hnd
    by_cases h2 : k2 = k
    · subst h2
      have hstep : fset ((k2, v2) :: tl) k2 v = (k2, v) :: tl := by
        simp [fset]
      rw [hstep, fupdate_cons, fupdate_cons]
      rw [fset_fupdate_present tl (fset a k2 v2) k2 v v2 hnd.1
        (fget_fset_self a k2 v2)]
      rw [fset_fset_self]
    · have hstep : fset ((k2, v2) :: tl) k v = (k2, v2) :: fset tl k v := by
        simp [fset, h2]
      rw [hstep, fupdate_cons, fupdate_cons]
      rw [ih hnd.2 (fset a k2 v2) k v]

/-- `a.update(f); a.update(r)` is `a.update(f.update-by-r)` when `f` has
nodup keys. -/
theorem fupdate_assoc : ∀ (r f : FlatDict), NodupKeys f → ∀ (a : FlatDict),
    fupdate (fupdate a f) r = fupdate a (fupdate f r) := by
  intro r
  induction r with
  | nil => intro f _ a; simp [fupdate_nil]
  | cons hd tlr ih =>
    intro f hnd a
    obtain ⟨k, v⟩ := hd
    rw [fupdate_cons, fupdate_cons]
    rw [fset_fupdate f hnd a k v]
    exact ih (fset f k v) (nodupKeys_fset f k v hnd) a

theorem fset_notin_append (b : FlatDict) (k : String) (v : Val) :
    k ∉ akeys b → fset b k v = b ++ [(k, v)] := by
  induction b with
  | nil => intro _; rfl
  | cons hd tl ih =>
    intro hk
    obtain ⟨k2, v2⟩ := hd
    simp only [akeys_cons, List.mem_cons] at hk
    push_neg at hk
    have hne : ¬ k2 = k := fun h => hk.1 h.symm
    simp only [fset, hne, ite_false, if_false, List.cons_append]
    rw [ih hk.2]

/-- `b.update(f)` is plain concatenation when the key sets are disjoint. -/
theorem fupdate_disjoint_append : ∀ (f b : FlatDict),
    (∀ key ∈ akeys f, key ∉ akeys b) → NodupKeys f →
    fupdate b f = b ++ f := by
  intro f
  induction f with
  | nil => intro b _ _; simp [fupdate_nil]
  | cons hd tl ih =>
    intro b hdisj hnd
    obtain ⟨k, v⟩ := hd
    rw [nodupKeys_cons] at hnd
    rw [fupdate_cons]
    rw [fset_notin_append b k v (hdisj k (by simp [akeys_cons]))]
    rw [ih (b ++ [(k, v)]) ?hd2 hnd.2]
    · simp
    case hd2 =>
      intro key hkey
      have h1 : key ∉ akeys b := hdisj key (by simp [akeys_cons, hkey])
      have h2 : ¬ key = k := fun h => hnd.1 (h ▸ hkey)
      simp only [akeys, List.map_append, List.mem_append]
      push_neg
      exact ⟨fun h => h1 h, by simpa [akeys] using h2⟩

theorem mem_akeys_fupdate : ∀ (f b : FlatDict) (x : String),
    x ∈ akeys (fupdate b f) → x ∈ akeys b ∨ x ∈ akeys f := by
  intro f
  induction f with
  | nil => intro b x h; left; simpa [fupdate_nil] using h
  | cons hd tl ih =>
    intro b x h
    obtain ⟨k, v⟩ := hd
    rw [fupdate_cons] at h
    rcases ih (fset b k v) x h with h2 | h2
    · rcases mem_akeys_fset b k x v h2 with h3 | h3
      · left; exact h3
      · right; simp [akeys_cons, h3]
    · right; simp [akeys_cons, h2]

-- ---------------------------------------------------------------------------
-- Round-trippable inputs and the structure of `flatten_dict`.
-- ---------------------------------------------------------------------------

def dkeys : VDict → List String
  | .nil => []
  | .cons k _ tl => k :: dkeys tl

def dhasKey : VDict → String → Bool
  | .nil, _ => false
  | .cons k' _ tl, k => k' == k || dhasKey tl k

/- A value survives `unflatten_dict(flatten_dict(...))` when every nested
dict key is non-empty and dot-free, no dict holds a key twice, and no dict
nested inside another dict is empty (flatten silently drops those, and an
empty or dotted key changes the reassembled paths).  Dict items sitting
directly inside lists are flattened from a fresh prefix, so they may be
empty; non-dict list items are carried verbatim. -/
mutual
def goodVal : Val → Bool
  | .dict .nil => false
  | .dict (.cons k v tl) => goodDict (.cons k v tl)
  | .list l => goodItems l
  | _ => true

def goodDict : VDict → Bool
  | .nil => true
  | .cons k v tl => goodKeyB k && !(dhasKey tl k) && goodVal v && goodDict tl

def goodItems : VList → Bool
  | .nil => true
  | .cons (.dict d) tl => goodDict d && goodItems tl
  | .cons x tl => goodItems tl
end

theorem goodDict_cons (k : String) (v : Val) (tl : VDict)
    (h : goodDict (.cons k v tl) = true) :
    goodKeyB k = true ∧ dhasKey tl k = false ∧ goodVal v = true ∧
      goodDict tl = true := by
  rw [goodDict] at h
  simp only [Bool.and_eq_true, Bool.not_eq_true'] at h
  exact ⟨h.1.1.1, h.1.1.2, h.1.2, h.2⟩

theorem goodVal_dict (d : VDict) (h : goodVal (.dict d) = true) :
    goodDict d = true := by
  cases d with
  | nil => rw [goodVal] at h; exact absurd h (by simp)
  | cons k v tl => rw [goodVal] at h; exact h

theorem goodVal_dict_ne_nil (d : VDict) (h : goodVal (.dict d) = true) :
    d ≠ .nil := by
  cases d with
  | nil => rw [goodVal] at h; exact absurd h (by simp)
  | cons k v tl => simp

theorem flattenGo_nodup : ∀ (d : VDict) (pre : String) (acc : FlatDict),
    NodupKeys acc → NodupKeys (flattenGo pre acc d)
  | .nil, _, _, h => h
  | .cons k v tl, pre, acc, h => by
    cases v with
    | dict sub => exact flattenGo_nodup tl pre _ (nodupKeys_fupdate _ _ h)
    | list l => exact flattenGo_nodup tl pre _ (nodupKeys_fset _ _ _ h)
    | null => exact flattenGo_nodup tl pre _ (nodupKeys_fset _ _ _ h)
    | bool b => exact flattenGo_nodup tl pre _ (nodupKeys_fset _ _ _ h)
    | int n => exact flattenGo_nodup tl pre _ (nodupKeys_fset _ _ _ h)
    | str s => exact flattenGo_nodup tl pre _ (nodupKeys_fset _ _ _ h)

theorem fupdate_nil_left (f : FlatDict) (h : NodupKeys f) :
    fupdate [] f = f := by
  rw [fupdate_disjoint_append f [] (by simp [akeys_nil]) h]
  simp

/-- The Python `ret_dict` accumulator factors out of `flatten_dict`. -/
theorem flattenGo_acc : ∀ (d : VDict) (pre : String) (acc : FlatDict),
    flattenGo pre acc d = fupdate acc (flattenGo pre [] d)
  | .nil, pre, acc => rfl
  | .cons k v tl, pre, acc => by
    cases v with
    | dict sub =>
      show flattenGo pre (fupdate acc (flattenGo (joinKey pre k) [] sub)) tl =
        fupdate acc (flattenGo pre
          (fupdate [] (flattenGo (joinKey pre k) [] sub)) tl)
      rw [flattenGo_acc tl pre (fupdate acc (flattenGo (joinKey pre k) [] sub)),
        flattenGo_acc tl pre (fupdate [] (flattenGo (joinKey pre k) [] sub))]
      have hF : NodupKeys (flattenGo (joinKey pre k) [] sub) :=
        flattenGo_nodup sub _ [] nodupKeys_nil
      rw [fupdate_nil_left _ hF]
      exact fupdate_assoc _ _ hF acc
    | list l =>
      show flattenGo pre (fset acc (joinKey pre k) (.list (flattenItems l))) tl =
        fupdate acc (flattenGo pre
          (fset [] (joinKey pre k) (.list (flattenItems l))) tl)
      rw [flattenGo_acc tl pre (fset acc (joinKey pre k) (.list (flattenItems l))),
        flattenGo_acc tl pre (fset [] (joinKey pre k) (.list (flattenItems l)))]
      rw [← fupdate_assoc _ (fset [] (joinKey pre k) (.list (flattenItems l)))
        (nodupKeys_fset [] _ _ nodupKeys_nil) acc]
      rfl
    | null =>
      show flattenGo pre (fset acc (joinKey pre k) .null) tl =
        fupdate acc (flattenGo pre (fset [] (joinKey pre k) .null) tl)
      rw [flattenGo_acc tl pre (fset acc (joinKey pre k) .null),
        flattenGo_acc tl pre (fset [] (joinKey pre k) .null)]
      rw [← fupdate_assoc _ (fset [] (joinKey pre k) .null)
        (nodupKeys_fset [] _ _ nodupKeys_nil) acc]
      rfl
    | bool b =>
      show flattenGo pre (fset acc (joinKey pre k) (.bool b)) tl =
        fupdate acc (flattenGo pre (fset [] (joinKey pre k) (.bool b)) tl)
      rw [flattenGo_acc tl pre (fset acc (joinKey pre k) (.bool b)),
        flattenGo_acc tl pre (fset [] (joinKey pre k) (.bool b))]
      rw [← fupdate_assoc _ (fset [] (joinKey pre k) (.bool b))
        (nodupKeys_fset [] _ _ nodupKeys_nil) acc]
      rfl
    | int n =>
      show flattenGo pre (fset acc (joinKey pre k) (.int n)) tl =
        fupdate acc (flattenGo pre (fset [] (joinKey pre k) (.int n)) tl)
      rw [flattenGo_acc tl pre (fset acc (joinKey pre k) (.int n)),
        flattenGo_acc tl pre (fset [] (joinKey pre k) (.int n))]
      rw [← fupdate_assoc _ (fset [] (joinKey pre k) (.int n))
        (nodupKeys_fset [] _ _ nodupKeys_nil) acc]
      rfl
    | str s =>
      show flattenGo pre (fset acc (joinKey pre k) (.str s)) tl =
        fupdate acc (flattenGo pre (fset [] (joinKey pre k) (.str s)) tl)
      rw [flattenGo_acc tl pre (fset acc (joinKey pre k) (.str s)),
        flattenGo_acc tl pre (fset [] (joinKey pre k) (.str s))]
      rw [← fupdate_assoc _ (fset [] (joinKey pre k) (.str s))
        (nodupKeys_fset [] _ _ nodupKeys_nil) acc]
      rfl

/-- The flattened leaf stored for a non-dict value. -/
def flatLeaf : Val → Val
  | .list l => .list (flattenItems l)
  | x => x

theorem flattenGo_cons_dict (pre k : String) (sub tl : VDict) :
    flattenGo pre [] (.cons k (.dict sub) tl) =
      fupdate (flattenGo (joinKey pre k) [] sub) (flattenGo pre [] tl) := by
  show flattenGo pre (fupdate [] (flattenGo (joinKey pre k) [] sub)) tl = _
  rw [flattenGo_acc tl pre _,
    fupdate_nil_left _ (flattenGo_nodup sub _ [] nodupKeys_nil)]

theorem flattenGo_cons_nondict (pre k : String) (v : Val) (tl : VDict)
    (hv : v.isPyDict = false) :
    flattenGo pre [] (.cons k v tl) =
      fupdate [(joinKey pre k, flatLeaf v)] (flattenGo pre [] tl) := by
  cases v with
  | dict d => simp [Val.isPyDict] at hv
  | list l =>
    show flattenGo pre (fset [] (joinKey pre k) (.list (flattenItems l))) tl = _
    rw [flattenGo_acc tl pre _]
    rfl
  | null =>
    show flattenGo pre (fset [] (joinKey pre k) .null) tl = _
    rw [flattenGo_acc tl pre _]
    rfl
  | bool b =>
    show flattenGo pre (fset [] (joinKey pre k) (.bool b)) tl = _
    rw [flattenGo_acc tl pre _]
    rfl
  | int n =>
    show flattenGo pre (fset [] (joinKey pre k) (.int n)) tl = _
    rw [flattenGo_acc tl pre _]
    rfl
  | str s =>
    show flattenGo pre (fset [] (joinKey pre k) (.str s)) tl = _
    rw [flattenGo_acc tl pre _]
    rfl

theorem dhasKey_eq_mem : ∀ (d : VDict) (k : String),
    dhasKey d k = true ↔ k ∈ dkeys d
  | .nil, k => by simp [dhasKey, dkeys]
  | .cons k2 v tl, k => by
    simp only [dhasKey, Bool.or_eq_true, beq_iff_eq, dkeys, List.mem_cons,
      dhasKey_eq_mem tl k]
    constructor
    · rintro (h | h)
      · exact Or.inl h.symm
      · exact Or.inr h
    · rintro (h | h)
      · exact Or.inl h.symm
      · exact Or.inr h

/-- Key provenance in `flatten_dict`: every produced key splits into the
running prefix followed by a top-level key of the dict being flattened. -/
theorem flatten_key_split : ∀ (d : VDict) (P : List String),
    goodDict d = true → goodSegs P = true → ∀ key,
    key ∈ akeys (flattenGo (joinDot P) [] d) →
    ∃ k2 rest, k2 ∈ dkeys d ∧ splitDot key = P ++ k2 :: rest
  | .nil, P, _, _, key, hkey => by
    exact absurd hkey (show key ∉ akeys ([] : FlatDict) by simp [akeys_nil])
  | .cons k v tl, P, hg, hP, key, hkey => by
    obtain ⟨hk, hfresh, hv, htl⟩ := goodDict_cons k v tl hg
    have hPk : goodSegs (P ++ [k]) = true := by
      rw [goodSegs_append, Bool.and_eq_true]
      exact ⟨hP, by simp [goodSegs, hk]⟩
    cases v with
    | dict sub =>
      rw [flattenGo_cons_dict, joinKey_joinDot P k hP hk] at hkey
      rcases mem_akeys_fupdate _ _ _ hkey with h | h
      · rcases flatten_key_split sub (P ++ [k]) (goodVal_dict sub hv) hPk key h
          with ⟨k3, rest3, _, hsp⟩
        refine ⟨k, k3 :: rest3, by simp [dkeys], ?_⟩
        rw [hsp, List.append_assoc]
        rfl
      · rcases flatten_key_split tl P htl hP key h with ⟨k2, rest, hmem, hsp⟩
        exact ⟨k2, rest, by simp [dkeys, hmem], hsp⟩
    | list l =>
      rw [flattenGo_cons_nondict (joinDot P) k (.list l) tl rfl] at hkey
      rcases mem_akeys_fupdate _ _ _ hkey with h | h
      · simp only [akeys_cons, akeys_nil, List.mem_cons, List.not_mem_nil,
          or_false] at h
        subst h
        refine ⟨k, [], by simp [dkeys], ?_⟩
        rw [joinKey_joinDot P k hP hk, splitDot_joinDot _ hPk (by simp)]
      · rcases flatten_key_split tl P htl hP key h with ⟨k2, rest, hmem, hsp⟩
        exact ⟨k2, rest, by simp [dkeys, hmem], hsp⟩
    | null =>
      rw [flattenGo_cons_nondict (joinDot P) k .null tl rfl] at hkey
      rcases mem_akeys_fupdate _ _ _ hkey with h | h
      · simp only [akeys_cons, akeys_nil, List.mem_cons, List.not_mem_nil,
          or_false] at h
        subst h
        refine ⟨k, [], by simp [dkeys], ?_⟩
        rw [joinKey_joinDot P k hP hk, splitDot_joinDot _ hPk (by simp)]
      · rcases flatten_key_split tl P htl hP key h with ⟨k2, rest, hmem, hsp⟩
        exact ⟨k2, rest, by simp [dkeys, hmem], hsp⟩
    | bool b =>
      rw [flattenGo_cons_nondict (joinDot P) k (.bool b) tl rfl] at hkey
      rcases mem_akeys_fupdate _ _ _ hkey with h | h
      · simp only [akeys_cons, akeys_nil, List.mem_cons, List.not_mem_nil,
          or_false] at h
        subst h
        refine ⟨k, [], by simp [dkeys], ?_⟩
        rw [joinKey_joinDot P k hP hk, splitDot_joinDot _ hPk (by simp)]
      · rcases flatten_key_split tl P htl hP key h with ⟨k2, rest, hmem, hsp⟩
        exact ⟨k2, rest, by simp [dkeys, hmem], hsp⟩
    | int n =>
      rw [flattenGo_cons_nondict (joinDot P) k (.int n) tl rfl] at hkey
      rcases mem_akeys_fupdate _ _ _ hkey with h | h
      · simp only [akeys_cons, akeys_nil, List.mem_cons, List.not_mem_nil,
          or_false] at h
        subst h
        refine ⟨k, [], by simp [dkeys], ?_⟩
        rw [joinKey_joinDot P k hP hk, splitDot_joinDot _ hPk (by simp)]
      · rcases flatten_key_split tl P htl hP key h with ⟨k2, rest, hmem, hsp⟩
        exact ⟨k2, rest, by simp [dkeys, hmem], hsp⟩
    | str s =>
      rw [flattenGo_cons_nondict (joinDot P) k (.str s) tl rfl] at hkey
      rcases mem_akeys_fupdate _ _ _ hkey with h | h
      · simp only [akeys_cons, akeys_nil, List.mem_cons, List.not_mem_nil,
          or_false] at h
        subst h
        refine ⟨k, [], by simp [dkeys], ?_⟩
        rw [joinKey_joinDot P k hP hk, splitDot_joinDot _ hPk (by simp)]
      · rcases flatten_key_split tl P htl hP key h with ⟨k2, rest, hmem, hsp⟩
        exact ⟨k2, rest, by simp [dkeys, hmem], hsp⟩
termination_by d => sizeOf d

theorem not_dhasKey_of_split (P : List String) (k : String) (tl : VDict)
    (hP : goodSegs P = true) (htl : goodDict tl = true)
    (hfresh : dhasKey tl k = false) (key : String)
    (hkey : key ∈ akeys (flattenGo (joinDot P) [] tl))
    (hsp2 : splitDot key = P ++ k :: [] ∨
      ∃ k3 rest3, splitDot key = (P ++ [k]) ++ k3 :: rest3) : False := by
  rcases flatten_key_split tl P htl hP key hkey with ⟨k2, rest, hmem, hsp⟩
  have hk2 : k2 = k := by
    rcases hsp2 with h | ⟨k3, rest3, h⟩
    · have := List.append_cancel_left (hsp.symm.trans h)
      exact (List.cons.injEq _ _ _ _ ▸ this).1
    · rw [List.append_assoc] at h
      have := List.append_cancel_left (hsp.symm.trans h)
      exact (List.cons.injEq _ _ _ _ ▸ this).1
  have : dhasKey tl k = true := (dhasKey_eq_mem tl k).mpr (hk2 ▸ hmem)
  rw [hfresh] at this
  exact absurd this (by simp)

/-- Flatten of a good dict peels the head entry's group off the front:
nested-dict head. -/
theorem flatten_cons_dict_append (P : List String) (k : String) (sub tl : VDict)
    (hP : goodSegs P = true) (hk : goodKeyB k = true)
    (hsub : goodDict sub = true) (htl : goodDict tl = true)
    (hfresh : dhasKey tl k = false) :
    flattenGo (joinDot P) [] (.cons k (.dict sub) tl) =
      flattenGo (joinDot (P ++ [k])) [] sub ++ flattenGo (joinDot P) [] tl := by
  have hPk : goodSegs (P ++ [k]) = true := by
    rw [goodSegs_append, Bool.and_eq_true]
    exact ⟨hP, by simp [goodSegs, hk]⟩
  rw [flattenGo_cons_dict, joinKey_joinDot P k hP hk]
  apply fupdate_disjoint_append
  · intro key hkey hG
    rcases flatten_key_split sub (P ++ [k]) hsub hPk key hG with ⟨k3, rest3, _, hsp3⟩
    exact not_dhasKey_of_split P k tl hP htl hfresh key hkey
      (Or.inr ⟨k3, rest3, hsp3⟩)
  · exact flattenGo_nodup tl _ [] nodupKeys_nil

/-- Flatten of a good dict peels the head entry's group off the front:
leaf head. -/
theorem flatten_cons_nondict_append (P : List String) (k : String) (v : Val)
    (tl : VDict) (hP : goodSegs P = true) (hk : goodKeyB k = true)
    (htl : goodDict tl = true) (hfresh : dhasKey tl k = false)
    (hv : v.isPyDict = false) :
    flattenGo (joinDot P) [] (.cons k v tl) =
      (joinDot (P ++ [k]), flatLeaf v) :: flattenGo (joinDot P) [] tl := by
  have hPk : goodSegs (P ++ [k]) = true := by
    rw [goodSegs_append, Bool.and_eq_true]
    exact ⟨hP, by simp [goodSegs, hk]⟩
  rw [flattenGo_cons_nondict (joinDot P) k v tl hv, joinKey_joinDot P k hP hk]
  rw [fupdate_disjoint_append]
  · simp
  · intro key hkey hG
    simp only [akeys_cons, akeys_nil, List.mem_cons, List.not_mem_nil,
      or_false] at hG
    have hsp : splitDot key = P ++ k :: [] := by
      rw [hG, splitDot_joinDot _ hPk (by simp)]
    exact not_dhasKey_of_split P k tl hP htl hfresh key hkey (Or.inl hsp)
  · exact flattenGo_nodup tl _ [] nodupKeys_nil

-- ---------------------------------------------------------------------------
-- Path machinery for the unflatten side.
-- ---------------------------------------------------------------------------

def vdcat : VDict → VDict → VDict
  | .nil, b => b
  | .cons k v tl, b => .cons k v (vdcat tl b)

theorem vdcat_nil : ∀ (b : VDict), vdcat b .nil = b
  | .nil => rfl
  | .cons k v tl => by rw [vdcat, vdcat_nil tl]

theorem toVDict_append : ∀ (a b : FlatDict),
    toVDict (a ++ b) = vdcat (toVDict a) (toVDict b)
  | [], b => rfl
  | (k, v) :: tl, b => by
    rw [List.cons_append]
    show VDict.cons k v (toVDict (tl ++ b)) = _
    rw [toVDict_append tl b]
    rfl

/-- Replaying a concatenation of flat entries splits into two passes. -/
theorem unflattenGo_vdcat : ∀ (a out b : VDict),
    unflattenGo out (vdcat a b) =
      (unflattenGo out a).bind (fun out2 => unflattenGo out2 b)
  | .nil, out, b => rfl
  | .cons k v tl, out, b => by
    show unflattenGo out (.cons k v (vdcat tl b)) = _
    cases hi : unflattenItem v with
    | error e => simp only [unflattenGo, hi]; rfl
    | ok v2 =>
      cases hs : setNestedGo out (splitDot k) v2 with
      | error e => simp only [unflattenGo, hi, hs]; rfl
      | ok out2 =>
        simp only [unflattenGo, hi, hs]
        exact unflattenGo_vdcat tl out2 b

/-- The dict found (or implicitly created empty) at a nested path, reading
each missing step as `{}` and failing on a non-dict step. -/
def effAt : VDict → List String → Option VDict
  | out, [] => some out
  | out, s :: rest =>
    match vdictLookup out s with
    | none => some .nil
    | some (.dict sub) => effAt sub rest
    | some _ => none

/-- Writing a dict at a nested path, creating missing intermediate dicts
(the effect of chained `setdefault(key, {})`). -/
def setEff : VDict → List String → VDict → VDict
  | _, [], newd => newd
  | out, s :: rest, newd =>
    match vdictLookup out s with
    | some (.dict sub) => vdictSet out s (.dict (setEff sub rest newd))
    | _ => vdictSet out s (.dict (setEff .nil rest newd))

theorem vdictLookup_vdictSet_self : ∀ (d : VDict) (k : String) (v : Val),
    vdictLookup (vdictSet d k v) k = some v
  | .nil, k, v => by simp [vdictSet, vdictLookup]
  | .cons k2 v2 tl, k, v => by
    by_cases h : k2 = k
    · subst h; simp [vdictSet, vdictLookup]
    · simp only [vdictSet, h, ite_false, if_false, vdictLookup]
      exact vdictLookup_vdictSet_self tl k v

theorem vdictSet_vdictSet : ∀ (d : VDict) (k : String) (a b : Val),
    vdictSet (vdictSet d k a) k b = vdictSet d k b
  | .nil, k, a, b => by simp [vdictSet]
  | .cons k2 v2 tl, k, a, b => by
    by_cases h : k2 = k
    · subst h; simp [vdictSet]
    · simp only [vdictSet, h, ite_false, if_false]
      rw [vdictSet_vdictSet tl k a b]

theorem vdictLookup_none_of_not_has : ∀ (d : VDict) (k : String),
    dhasKey d k = false → vdictLookup d k = none
  | .nil, k, _ => rfl
  | .cons k2 v2 tl, k, h => by
    rw [dhasKey] at h
    simp only [Bool.or_eq_false_iff, beq_eq_false_iff_ne, ne_eq] at h
    simp only [vdictLookup, h.1, ite_false, if_false]
    exact vdictLookup_none_of_not_has tl k h.2

theorem dhasKey_vdictSet_ne : ∀ (d : VDict) (k k2 : String) (v : Val),
    ¬ k = k2 → dhasKey (vdictSet d k v) k2 = dhasKey d k2
  | .nil, k, k2, v, h => by
    simp [vdictSet, dhasKey, h]
  | .cons k3 v3 tl, k, k2, v, h => by
    by_cases h3 : k3 = k
    · subst h3; simp [vdictSet, dhasKey]
    · simp only [vdictSet, h3, ite_false, if_false, dhasKey]
      rw [dhasKey_vdictSet_ne tl k k2 v h]

theorem vdictSet_fresh : ∀ (d : VDict) (k : String) (v : Val),
    dhasKey d k = false → vdictSet d k v = vdcat d (.cons k v .nil)
  | .nil, k, v, _ => rfl
  | .cons k2 v2 tl, k, v, h => by
    rw [dhasKey] at h
    simp only [Bool.or_eq_false_iff, beq_eq_false_iff_ne, ne_eq] at h
    simp only [vdictSet, h.1, ite_false, if_false, vdcat]
    rw [vdictSet_fresh tl k v h.2]

theorem vdcat_assoc : ∀ (a b c : VDict),
    vdcat (vdcat a b) c = vdcat a (vdcat b c)
  | .nil, b, c => rfl
  | .cons k v tl, b, c => by
    show VDict.cons k v (vdcat (vdcat tl b) c) = _
    rw [vdcat_assoc tl b c]
    rfl

theorem dhasKey_vdcat : ∀ (a b : VDict) (k : String),
    dhasKey (vdcat a b) k = (dhasKey a k || dhasKey b k)
  | .nil, b, k => by simp [vdcat, dhasKey]
  | .cons k2 v2 tl, b, k => by
    show dhasKey (.cons k2 v2 (vdcat tl b)) k = _
    rw [dhasKey, dhasKey_vdcat tl b k, dhasKey, Bool.or_assoc]

theorem effAt_nil_path (segs : List String) : effAt .nil segs = some .nil := by
  cases segs with
  | nil => rfl
  | cons s rest => simp [effAt, vdictLookup]

theorem effAt_append (segs : List String) : ∀ (out cur : VDict)
    (rest : List String), effAt out segs = some cur →
    effAt out (segs ++ rest) = effAt cur rest := by
  induction segs with
  | nil =>
    intro out cur rest h
    simp only [effAt, Option.some_inj] at h
    subst h
    simp
  | cons s ss ih =>
    intro out cur rest h
    rw [List.cons_append]
    rw [effAt] at h
    show (match vdictLookup out s with
      | none => some VDict.nil
      | some (.dict sub) => effAt sub (ss ++ rest)
      | some _ => none) = effAt cur rest
    cases hl : vdictLookup out s with
    | none =>
      rw [hl] at h
      simp only [Option.some_inj] at h
      subst h
      simp [effAt_nil_path]
    | some w =>
      rw [hl] at h
      cases w with
      | dict sub => exact ih sub cur rest h
      | null => simp at h
      | bool b => simp at h
      | int n => simp at h
      | str s2 => simp at h
      | list l => simp at h

theorem setEff_single (cur : VDict) (k : String) (newd : VDict) :
    setEff cur [k] newd = vdictSet cur k (.dict newd) := by
  rw [setEff]
  cases hl : vdictLookup cur k with
  | none => rfl
  | some w => cases w <;> rfl

theorem setEff_append (segs : List String) : ∀ (out cur : VDict)
    (rest2 : List String) (newd : VDict), effAt out segs = some cur →
    setEff out (segs ++ rest2) newd = setEff out segs (setEff cur rest2 newd) := by
  induction segs with
  | nil =>
    intro out cur rest2 newd h
    simp only [effAt, Option.some_inj] at h
    subst h
    simp [setEff]
  | cons s ss ih =>
    intro out cur rest2 newd h
    rw [List.cons_append]
    rw [effAt] at h
    rw [setEff, setEff]
    cases hl : vdictLookup out s with
    | none =>
      rw [hl] at h
      simp only [Option.some_inj] at h
      subst h
      rw [ih .nil .nil rest2 newd (effAt_nil_path ss)]
    | some w =>
      rw [hl] at h
      cases w with
      | dict sub =>
        dsimp only
        rw [ih sub cur rest2 newd h]
      | null => simp at h
      | bool b => simp at h
      | int n => simp at h
      | str s2 => simp at h
      | list l => simp at h

theorem effAt_setEff (segs : List String) : ∀ (out newd : VDict),
    effAt (setEff out segs newd) segs = some newd := by
  induction segs with
  | nil => intro out newd; rfl
  | cons s ss ih =>
    intro out newd
    rw [setEff]
    cases hl : vdictLookup out s with
    | none =>
      rw [effAt, vdictLookup_vdictSet_self]
      exact ih .nil newd
    | some w =>
      cases w with
      | dict sub =>
        rw [effAt, vdictLookup_vdictSet_self]
        exact ih sub newd
      | null =>
        rw [effAt, vdictLookup_vdictSet_self]
        exact ih .nil newd
      | bool b =>
        rw [effAt, vdictLookup_vdictSet_self]
        exact ih .nil newd
      | int n =>
        rw [effAt, vdictLookup_vdictSet_self]
        exact ih .nil newd
      | str s2 =>
        rw [effAt, vdictLookup_vdictSet_self]
        exact ih .nil newd
      | list l =>
        rw [effAt, vdictLookup_vdictSet_self]
        exact ih .nil newd

theorem setEff_setEff (segs : List String) : ∀ (out d1 d2 : VDict),
    setEff (setEff out segs d1) segs d2 = setEff out segs d2 := by
  induction segs with
  | nil => intro out d1 d2; rfl
  | cons s ss ih =>
    intro out d1 d2
    cases hl : vdictLookup out s with
    | none =>
      have h1 : setEff out (s :: ss) d1 =
          vdictSet out s (.dict (setEff .nil ss d1)) := by rw [setEff, hl]
      have h2 : setEff out (s :: ss) d2 =
          vdictSet out s (.dict (setEff .nil ss d2)) := by rw [setEff, hl]
      rw [h1, h2, setEff, vdictLookup_vdictSet_self]
      dsimp only
      rw [ih, vdictSet_vdictSet]
    | some w =>
      cases w with
      | dict sub =>
        have h1 : setEff out (s :: ss) d1 =
            vdictSet out s (.dict (setEff sub ss d1)) := by rw [setEff, hl]
        have h2 : setEff out (s :: ss) d2 =
            vdictSet out s (.dict (setEff sub ss d2)) := by rw [setEff, hl]
        rw [h1, h2, setEff, vdictLookup_vdictSet_self]
        dsimp only
        rw [ih, vdictSet_vdictSet]
      | null =>
        have h1 : setEff out (s :: ss) d1 =
            vdictSet out s (.dict (setEff .nil ss d1)) := by rw [setEff, hl]
        have h2 : setEff out (s :: ss) d2 =
            vdictSet out s (.dict (setEff .nil ss d2)) := by rw [setEff, hl]
        rw [h1, h2, setEff, vdictLookup_vdictSet_self]
        dsimp only
        rw [ih, vdictSet_vdictSet]
      | bool b =>
        have h1 : setEff out (s :: ss) d1 =
            vdictSet out s (.dict (setEff .nil ss d1)) := by rw [setEff, hl]
        have h2 : setEff out (s :: ss) d2 =
            vdictSet out s (.dict (setEff .nil ss d2)) := by rw [setEff, hl]
        rw [h1, h2, setEff, vdictLookup_vdictSet_self]
        dsimp only
        rw [ih, vdictSet_vdictSet]
      | int n =>
        have h1 : setEff out (s :: ss) d1 =
            vdictSet out s (.dict (setEff .nil ss d1)) := by rw [setEff, hl]
        have h2 : setEff out (s :: ss) d2 =
            vdictSet out s (.dict (setEff .nil ss d2)) := by rw [setEff, hl]
        rw [h1, h2, setEff, vdictLookup_vdictSet_self]
        dsimp only
        rw [ih, vdictSet_vdictSet]
      | str s2 =>
        have h1 : setEff out (s :: ss) d1 =
            vdictSet out s (.dict (setEff .nil ss d1)) := by rw [setEff, hl]
        have h2 : setEff out (s :: ss) d2 =
            vdictSet out s (.dict (setEff .nil ss d2)) := by rw [setEff, hl]
        rw [h1, h2, setEff, vdictLookup_vdictSet_self]
        dsimp only
        rw [ih, vdictSet_vdictSet]
      | list l =>
        have h1 : setEff out (s :: ss) d1 =
            vdictSet out s (.dict (setEff .nil ss d1)) := by rw [setEff, hl]
        have h2 : setEff out (s :: ss) d2 =
            vdictSet out s (.dict (setEff .nil ss d2)) := by rw [setEff, hl]
        rw [h1, h2, setEff, vdictLookup_vdictSet_self]
        dsimp only
        rw [ih, vdictSet_vdictSet]

theorem setNestedGo_cons2 (out : VDict) (s s2 : String) (rest : List String)
    (v : Val) :
    setNestedGo out (s :: s2 :: rest) v =
      match vdictLookup out s with
      | none => do
        let sub ← setNestedGo .nil (s2 :: rest) v
        .ok (vdictSet out s (.dict sub))
      | some (.dict sub) => do
        let sub2 ← setNestedGo sub (s2 :: rest) v
        .ok (vdictSet out s (.dict sub2))
      | some _ => .error "DataTypeAttributeError" := rfl

/-- One `_set_nested` call on a dotted path writes through `setEff`. -/
theorem setNestedGo_eff : ∀ (segs : List String) (out cur : VDict)
    (k : String) (v : Val), effAt out segs = some cur → segs ≠ [] →
    setNestedGo out (segs ++ [k]) v = .ok (setEff out segs (vdictSet cur k v))
  | [], _, _, _, _, _, hne => absurd rfl hne
  | [s], out, cur, k, v, heff, _ => by
    rw [effAt] at heff
    rw [List.singleton_append, setNestedGo_cons2 out s k [] v, setEff]
    cases hl : vdictLookup out s with
    | none =>
      rw [hl] at heff
      dsimp only at heff
      injection heff with heq
      subst heq
      rfl
    | some w =>
      rw [hl] at heff
      cases w with
      | dict sub =>
        dsimp only at heff
        rw [effAt] at heff
        injection heff with heq
        subst heq
        rfl
      | null => dsimp only at heff; exact absurd heff (by simp)
      | bool b => dsimp only at heff; exact absurd heff (by simp)
      | int n => dsimp only at heff; exact absurd heff (by simp)
      | str s2 => dsimp only at heff; exact absurd heff (by simp)
      | list l => dsimp only at heff; exact absurd heff (by simp)
  | s :: s2 :: rest, out, cur, k, v, heff, _ => by
    rw [effAt] at heff
    rw [List.cons_append, List.cons_append,
      setNestedGo_cons2 out s s2 (rest ++ [k]) v, setEff]
    cases hl : vdictLookup out s with
    | none =>
      rw [hl] at heff
      dsimp only at heff ⊢
      injection heff with heq
      subst heq
      have hrec := setNestedGo_eff (s2 :: rest) .nil .nil k v
        (effAt_nil_path _) (by simp)
      rw [List.cons_append] at hrec
      rw [hrec]
      rfl
    | some w =>
      rw [hl] at heff
      cases w with
      | dict sub =>
        dsimp only at heff ⊢
        have hrec := setNestedGo_eff (s2 :: rest) sub cur k v heff (by simp)
        rw [List.cons_append] at hrec
        rw [hrec]
        rfl
      | null => dsimp only at heff; exact absurd heff (by simp)
      | bool b => dsimp only at heff; exact absurd heff (by simp)
      | int n => dsimp only at heff; exact absurd heff (by simp)
      | str s2x => dsimp only at heff; exact absurd heff (by simp)
      | list l => dsimp only at heff; exact absurd heff (by simp)

/-- Replaying one flattened leaf entry through `unflatten`'s loop. -/
theorem unflatten_single_entry (segs : List String) (k : String)
    (out cur : VDict) (v : Val) (hsegs : goodSegs segs = true)
    (hk : goodKeyB k = true) (hne : segs ≠ [])
    (heff : effAt out segs = some cur)
    (hleaf : unflattenItem (flatLeaf v) = .ok v) :
    unflattenGo out (toVDict [(joinDot (segs ++ [k]), flatLeaf v)]) =
      .ok (setEff out segs (vdictSet cur k v)) := by
  show unflattenGo out (.cons (joinDot (segs ++ [k])) (flatLeaf v) .nil) = _
  have hPk : goodSegs (segs ++ [k]) = true := by
    rw [goodSegs_append, Bool.and_eq_true]
    exact ⟨hsegs, by simp [goodSegs, hk]⟩
  simp only [unflattenGo, hleaf]
  rw [splitDot_joinDot _ hPk (by simp)]
  rw [setNestedGo_eff segs out cur k v heff hne]

theorem except_bind_ok {e a b : Type} (x : a) (f : a → Except e b) :
    (Except.ok x : Except e a).bind f = f x := rfl

/- The round-trip induction: replaying the flattened entries of a good dict
rebuilds exactly the original dict.  `roundTrip_go` walks top-level entries,
`group_go` replays the dotted group a nested dict flattens to, `group_cons`
continues with the remaining siblings, and `leaf_go` / `items_go` handle
list values whose dict items were flattened in place. -/
mutual

theorem roundTrip_go : ∀ (d : VDict) (out : VDict), goodDict d = true →
    (∀ k2, k2 ∈ dkeys d → dhasKey out k2 = false) →
    unflattenGo out (toVDict (flattenGo "" [] d)) = .ok (vdcat out d)
  | .nil, out, _, _ => by rw [vdcat_nil]; rfl
  | .cons k v tl, out, hg, hfresh => by
    obtain ⟨hk, hfreshtl, hv, htl⟩ := goodDict_cons k v tl hg
    show unflattenGo out (toVDict (flattenGo (joinDot []) [] (.cons k v tl))) = _
    cases v with
    | dict sub =>
      have hfk : dhasKey out k = false := hfresh k (by simp [dkeys])
      rw [flatten_cons_dict_append [] k sub tl rfl hk (goodVal_dict sub hv)
        htl hfreshtl]
      rw [toVDict_append, unflattenGo_vdcat, List.nil_append]
      have heff2 : effAt out [k] = some .nil := by
        rw [effAt, vdictLookup_none_of_not_has out k hfk]
      have hhead := group_go sub [k] out .nil (goodVal_dict sub hv)
        (goodVal_dict_ne_nil sub hv) (by simp [goodSegs, hk]) (by simp)
        heff2 (fun k2 _ => rfl)
      rw [hhead, except_bind_ok]
      rw [show vdcat VDict.nil sub = sub from rfl, setEff_single]
      have hfresh2 : ∀ k2, k2 ∈ dkeys tl →
          dhasKey (vdictSet out k (.dict sub)) k2 = false := by
        intro k2 hk2
        have hne3 : ¬ k = k2 := by
          intro he
          subst he
          have hmem := (dhasKey_eq_mem tl k).mpr hk2
          rw [hfreshtl] at hmem
          exact absurd hmem (by simp)
        rw [dhasKey_vdictSet_ne out k k2 _ hne3]
        exact hfresh k2 (by simp [dkeys, hk2])
      have htail : unflattenGo (vdictSet out k (.dict sub))
          (toVDict (flattenGo (joinDot ([] : List String)) [] tl)) =
          .ok (vdcat (vdictSet out k (.dict sub)) tl) :=
        roundTrip_go tl _ htl hfresh2
      rw [htail, vdictSet_fresh out k _ hfk, vdcat_assoc]
      rfl
    | list l =>
      exact top_entry_go tl k (.list l) out htl hk hfreshtl hfresh
        (leaf_go (.list l) hv rfl) rfl
    | null => exact top_entry_go tl k .null out htl hk hfreshtl hfresh rfl rfl
    | bool b =>
      exact top_entry_go tl k (.bool b) out htl hk hfreshtl hfresh rfl rfl
    | int n =>
      exact top_entry_go tl k (.int n) out htl hk hfreshtl hfresh rfl rfl
    | str s =>
      exact top_entry_go tl k (.str s) out htl hk hfreshtl hfresh rfl rfl

termination_by d => (sizeOf d, 0)

theorem top_entry_go : ∀ (tl : VDict) (k : String) (v : Val) (out : VDict),
    goodDict tl = true → goodKeyB k = true → dhasKey tl k = false →
    (∀ k2, k2 ∈ dkeys (VDict.cons k v tl) → dhasKey out k2 = false) →
    unflattenItem (flatLeaf v) = .ok v → v.isPyDict = false →
    unflattenGo out (toVDict (flattenGo (joinDot []) [] (.cons k v tl))) =
      .ok (vdcat out (.cons k v tl))
  | tl, k, v, out, htl, hk, hfreshtl, hfresh, hleaf, hvd => by
    have hfk : dhasKey out k = false := hfresh k (by simp [dkeys])
    rw [flatten_cons_nondict_append [] k v tl rfl hk htl hfreshtl hvd]
    rw [← List.singleton_append, toVDict_append, unflattenGo_vdcat]
    have hhead : unflattenGo out (toVDict [(joinDot ([] ++ [k]), flatLeaf v)]) =
        .ok (vdictSet out k v) := by
      show unflattenGo out (.cons (joinDot ([] ++ [k])) (flatLeaf v) .nil) = _
      simp only [unflattenGo, hleaf]
      rw [show joinDot ([] ++ [k]) = k from rfl, splitDot_good k hk]
      rfl
    rw [hhead, except_bind_ok]
    have hfresh2 : ∀ k2, k2 ∈ dkeys tl →
        dhasKey (vdictSet out k v) k2 = false := by
      intro k2 hk2
      have hne3 : ¬ k = k2 := by
        intro he
        subst he
        have hmem := (dhasKey_eq_mem tl k).mpr hk2
        rw [hfreshtl] at hmem
        exact absurd hmem (by simp)
      rw [dhasKey_vdictSet_ne out k k2 _ hne3]
      exact hfresh k2 (by simp [dkeys, hk2])
    have htail : unflattenGo (vdictSet out k v)
        (toVDict (flattenGo (joinDot ([] : List String)) [] tl)) =
        .ok (vdcat (vdictSet out k v) tl) := roundTrip_go tl _ htl hfresh2
    rw [htail, vdictSet_fresh out k v hfk, vdcat_assoc]
    rfl

termination_by tl => (sizeOf tl, 2)

theorem group_go : ∀ (d : VDict) (segs : List String) (out cur : VDict),
    goodDict d = true → d ≠ .nil → goodSegs segs = true → segs ≠ [] →
    effAt out segs = some cur →
    (∀ k2, k2 ∈ dkeys d → dhasKey cur k2 = false) →
    unflattenGo out (toVDict (flattenGo (joinDot segs) [] d)) =
      .ok (setEff out segs (vdcat cur d))
  | .nil, _, _, _, _, hnenil, _, _, _, _ => absurd rfl hnenil
  | .cons k v tl, segs, out, cur, hg, _, hsegs, hne2, heff, hfresh => by
    obtain ⟨hk, hfreshtl, hv, htl⟩ := goodDict_cons k v tl hg
    have hfk : dhasKey cur k = false := hfresh k (by simp [dkeys])
    cases v with
    | dict sub =>
      rw [flatten_cons_dict_append segs k sub tl hsegs hk
        (goodVal_dict sub hv) htl hfreshtl]
      rw [toVDict_append, unflattenGo_vdcat]
      have heff2 : effAt out (segs ++ [k]) = some .nil := by
        rw [effAt_append segs out cur [k] heff]
        rw [effAt, vdictLookup_none_of_not_has cur k hfk]
      have hgs2 : goodSegs (segs ++ [k]) = true := by
        rw [goodSegs_append, Bool.and_eq_true]
        exact ⟨hsegs, by simp [goodSegs, hk]⟩
      have hhead := group_go sub (segs ++ [k]) out .nil (goodVal_dict sub hv)
        (goodVal_dict_ne_nil sub hv) hgs2 (by simp) heff2 (fun k2 _ => rfl)
      rw [hhead, except_bind_ok]
      have hconv : setEff out (segs ++ [k]) (vdcat .nil sub) =
          setEff out segs (vdictSet cur k (.dict sub)) := by
        rw [show vdcat VDict.nil sub = sub from rfl]
        rw [setEff_append segs out cur [k] sub heff, setEff_single]
      rw [hconv]
      exact group_cons tl k (.dict sub) segs out cur htl hsegs hne2
        hfreshtl hfk heff (fun k2 h2 => hfresh k2 (by simp [dkeys, h2]))
    | list l =>
      exact group_entry_go tl k (.list l) segs out cur htl hk hfreshtl
        hsegs hne2 heff hfresh (leaf_go (.list l) hv rfl) rfl
    | null =>
      exact group_entry_go tl k .null segs out cur htl hk hfreshtl
        hsegs hne2 heff hfresh rfl rfl
    | bool b =>
      exact group_entry_go tl k (.bool b) segs out cur htl hk hfreshtl
        hsegs hne2 heff hfresh rfl rfl
    | int n =>
      exact group_entry_go tl k (.int n) segs out cur htl hk hfreshtl
        hsegs hne2 heff hfresh rfl rfl
    | str s =>
      exact group_entry_go tl k (.str s) segs out cur htl hk hfreshtl
        hsegs hne2 heff hfresh rfl rfl

termination_by d => (sizeOf d, 0)

theorem group_entry_go : ∀ (tl : VDict) (k : String) (v : Val)
    (segs : List String) (out cur : VDict),
    goodDict tl = true → goodKeyB k = true → dhasKey tl k = false →
    goodSegs segs = true → segs ≠ [] →
    effAt out segs = some cur →
    (∀ k2, k2 ∈ dkeys (VDict.cons k v tl) → dhasKey cur k2 = false) →
    unflattenItem (flatLeaf v) = .ok v → v.isPyDict = false →
    unflattenGo out (toVDict (flattenGo (joinDot segs) [] (.cons k v tl))) =
      .ok (setEff out segs (vdcat cur (.cons k v tl)))
  | tl, k, v, segs, out, cur, htl, hk, hfreshtl, hsegs, hne2, heff, hfresh,
      hleaf, hvd => by
    have hfk : dhasKey cur k = false := hfresh k (by simp [dkeys])
    rw [flatten_cons_nondict_append segs k v tl hsegs hk htl hfreshtl hvd]
    rw [← List.singleton_append, toVDict_append, unflattenGo_vdcat]
    rw [unflatten_single_entry segs k out cur v hsegs hk hne2 heff hleaf,
      except_bind_ok]
    exact group_cons tl k v segs out cur htl hsegs hne2 hfreshtl hfk heff
      (fun k2 h2 => hfresh k2 (by simp [dkeys, h2]))

termination_by tl => (sizeOf tl, 2)

theorem group_cons : ∀ (tl : VDict) (k : String) (v : Val)
    (segs : List String) (out cur : VDict),
    goodDict tl = true → goodSegs segs = true → segs ≠ [] →
    dhasKey tl k = false → dhasKey cur k = false →
    effAt out segs = some cur →
    (∀ k2, k2 ∈ dkeys tl → dhasKey cur k2 = false) →
    unflattenGo (setEff out segs (vdictSet cur k v))
        (toVDict (flattenGo (joinDot segs) [] tl)) =
      .ok (setEff out segs (vdcat cur (.cons k v tl)))
  | .nil, k, v, segs, out, cur, _, _, _, _, hfk, _, _ => by
    rw [show vdcat cur (VDict.cons k v .nil) = vdictSet cur k v from
      (vdictSet_fresh cur k v hfk).symm]
    rfl
  | .cons k2 v2 tl2, k, v, segs, out, cur, htl, hsegs, hne2, hfreshtl, hfk,
      heff, hfresh => by
    have heff2 : effAt (setEff out segs (vdictSet cur k v)) segs =
        some (vdictSet cur k v) := effAt_setEff segs out _
    have hfresh2 : ∀ k3, k3 ∈ dkeys (VDict.cons k2 v2 tl2) →
        dhasKey (vdictSet cur k v) k3 = false := by
      intro k3 hk3
      have hne3 : ¬ k = k3 := by
        intro he
        subst he
        have hmem := (dhasKey_eq_mem (VDict.cons k2 v2 tl2) k).mpr hk3
        rw [hfreshtl] at hmem
        exact absurd hmem (by simp)
      rw [dhasKey_vdictSet_ne cur k k3 v hne3]
      exact hfresh k3 hk3
    have hrec := group_go (VDict.cons k2 v2 tl2) segs
      (setEff out segs (vdictSet cur k v)) (vdictSet cur k v) htl
      (fun h => VDict.noConfusion h) hsegs hne2 heff2 hfresh2
    rw [hrec, setEff_setEff]
    rw [vdictSet_fresh cur k v hfk, vdcat_assoc]
    rfl

termination_by tl => (sizeOf tl, 1)

theorem leaf_go : ∀ (v : Val), goodVal v = true → v.isPyDict = false →
    unflattenItem (flatLeaf v) = .ok v
  | .null, _, _ => rfl
  | .bool b, _, _ => rfl
  | .int n, _, _ => rfl
  | .str s, _, _ => rfl
  | .dict d, _, hvd => by simp [Val.isPyDict] at hvd
  | .list l, hv, _ => by
    show unflattenItem (.list (flattenItems l)) = .ok (.list l)
    have h := items_go l hv
    show (match unflattenItemList (flattenItems l) with
      | Except.error e => Except.error e
      | Except.ok l2 => Except.ok (Val.list l2)) = Except.ok (Val.list l)
    rw [h]

termination_by v => (sizeOf v, 0)

theorem items_go : ∀ (l : VList), goodItems l = true →
    unflattenItemList (flattenItems l) = .ok l
  | .nil, _ => rfl
  | .cons (.dict sub) tl, hg => by
    have hsub : goodDict sub = true := by
      rw [goodItems, Bool.and_eq_true] at hg
      exact hg.1
    have htl : goodItems tl = true := by
      rw [goodItems, Bool.and_eq_true] at hg
      exact hg.2
    show unflattenItemList
        (.cons (.dict (toVDict (flattenGo "" [] sub))) (flattenItems tl)) = _
    have hsubRT : unflattenGo VDict.nil (toVDict (flattenGo "" [] sub)) =
        .ok (vdcat VDict.nil sub) := roundTrip_go sub VDict.nil hsub
      (fun k2 _ => rfl)
    rw [show vdcat VDict.nil sub = sub from rfl] at hsubRT
    simp only [unflattenItemList, hsubRT, items_go tl htl]
  | .cons .null tl, hg => by
    show unflattenItemList (.cons .null (flattenItems tl)) = _
    simp only [unflattenItemList, items_go tl hg]
  | .cons (.bool b) tl, hg => by
    show unflattenItemList (.cons (.bool b) (flattenItems tl)) = _
    simp only [unflattenItemList, items_go tl hg]
  | .cons (.int n) tl, hg => by
    show unflattenItemList (.cons (.int n) (flattenItems tl)) = _
    simp only [unflattenItemList, items_go tl hg]
  | .cons (.str s) tl, hg => by
    show unflattenItemList (.cons (.str s) (flattenItems tl)) = _
    simp only [unflattenItemList, items_go tl hg]
  | .cons (.list li) tl, hg => by
    show unflattenItemList (.cons (.list li) (flattenItems tl)) = _
    simp only [unflattenItemList, items_go tl hg]
termination_by l => (sizeOf l, 0)

end

/-- C5 counterexample: `{"a": {}}` has no dotted literal key, yet
`flatten_dict` drops the empty-dict entry (lib.py:262 iterates items and
the `isinstance(v, dict)` branch adds nothing for `{}`), so the round trip
returns `{}`, not the original value. -/
theorem c5_counterexample :
    unflatten_dict (flatten_dict (VDict.ofList [("a", .dict .nil)])) =
      .ok .nil ∧
    VDict.ofList [("a", .dict .nil)] ≠ .nil :=
  ⟨rfl, by decide⟩

/-- C5 (amended): the round-trip law `unflatten_dict (flatten_dict V) = V`
holds for every dict whose nested keys are non-empty, dot-free and unique
per dict, and in which no dict sitting under a dict key is empty (dict
items directly inside lists may be empty); `goodDict` states exactly
these conditions. -/
theorem c5_amended_roundtrip (d : VDict) (h : goodDict d = true) :
    unflatten_dict (flatten_dict d) = .ok d :=
  roundTrip_go d .nil h (fun k2 _ => rfl)

theorem c5_witness :
    goodDict (VDict.ofList
      [("a", .dict (VDict.ofList [("b", .int 1), ("c", .str "x")])),
       ("l", .list (VList.ofList [.dict .nil, .int 2,
         .dict (VDict.ofList [("u", .bool true)])])),
       ("s", .str "v")]) = true ∧
    unflatten_dict (flatten_dict (VDict.ofList
      [("a", .dict (VDict.ofList [("b", .int 1), ("c", .str "x")])),
       ("l", .list (VList.ofList [.dict .nil, .int 2,
         .dict (VDict.ofList [("u", .bool true)])])),
       ("s", .str "v")])) =
      .ok (VDict.ofList
      [("a", .dict (VDict.ofList [("b", .int 1), ("c", .str "x")])),
       ("l", .list (VList.ofList [.dict .nil, .int 2,
         .dict (VDict.ofList [("u", .bool true)])])),
       ("s", .str "v")]) :=
  ⟨by decide, c5_amended_roundtrip _ (by decide)⟩

-- ---------------------------------------------------------------------------
-- Claim C6.  All-`$set` patches versus the deep-override merge.
-- Key-shape lemmas for colon-free patch keys.
-- ---------------------------------------------------------------------------

theorem hasColon_chars (k : String) (h : hasColon k = false) :
    ∀ c ∈ k.data, ¬ c = ':' := by
  intro c hc
  simp only [hasColon, List.any_eq_false] at h
  have := h c hc
  simpa using this

theorem hasColon_append_set (k : String) :
    hasColon (k ++ ":$set") = true := by
  simp only [hasColon, string_data_append, List.any_append, Bool.or_eq_true]
  right
  rfl

theorem hcdAux_step (c : Char) (tl : List Char) (hc : ¬ c = ':') :
    hasColonDollarAux (c :: tl) = hasColonDollarAux tl := by
  rw [hasColonDollarAux.eq_def]
  split
  · rename_i t heq
    injection heq with ha hb
    exact absurd ha hc
  · rename_i x t heq
    injection heq with ha hb
    subst ha
    rw [hb]
  · rename_i heq
    simp at heq

theorem hasColonDollarAux_append : ∀ (xs r : List Char),
    (∀ c ∈ xs, ¬ c = ':') → hasColonDollarAux (xs ++ ':' :: '$' :: r) = true := by
  intro xs r h
  induction xs with
  | nil => rfl
  | cons c tl ih =>
    rw [List.cons_append, hcdAux_step c _ (h c (by simp))]
    exact ih (fun y hy => h y (by simp [hy]))

theorem hasColonDollar_append_set (k : String) (h : hasColon k = false) :
    hasColonDollar (k ++ ":$set") = true := by
  have hd : (k ++ ":$set").data = k.data ++ ':' :: '$' :: "set".data := by
    rw [string_data_append]
  rw [hasColonDollar, hd]
  exact hasColonDollarAux_append k.data _ (hasColon_chars k h)

theorem hasColonDollarAux_no_colon : ∀ (l : List Char),
    (∀ c ∈ l, ¬ c = ':') → hasColonDollarAux l = false := by
  intro l h
  induction l with
  | nil => rfl
  | cons c tl ih =>
    rw [hcdAux_step c tl (h c (by simp))]
    exact ih (fun y hy => h y (by simp [hy]))

theorem hasColonDollar_of_no_colon (k : String) (h : hasColon k = false) :
    hasColonDollar k = false :=
  hasColonDollarAux_no_colon k.data (hasColon_chars k h)

theorem splitCDAux_step (c : Char) (tl cur : List Char) (hc : ¬ c = ':') :
    splitColonDollarAux (c :: tl) cur = splitColonDollarAux tl (c :: cur) := by
  rw [splitColonDollarAux.eq_def]
  split
  · rename_i t heq
    injection heq with ha hb
    exact absurd ha hc
  · rename_i x t heq
    injection heq with ha hb
    subst ha
    rw [hb]
  · rename_i heq
    simp at heq

theorem splitColonDollarAux_append : ∀ (xs : List Char) (cur : List Char),
    (∀ c ∈ xs, ¬ c = ':') →
    splitColonDollarAux (xs ++ ':' :: '$' :: "set".data) cur =
      [String.mk (cur.reverse ++ xs), "set"] := by
  intro xs
  induction xs with
  | nil =>
    intro cur _
    rw [List.nil_append]
    show String.mk cur.reverse :: splitColonDollarAux "set".data [] = _
    rw [show splitColonDollarAux "set".data [] = ["set"] from rfl]
    simp
  | cons c tl ih =>
    intro cur h
    rw [List.cons_append, splitCDAux_step c _ cur (h c (by simp))]
    rw [ih (c :: cur) (fun y hy => h y (by simp [hy]))]
    simp

theorem splitColonDollar_set (k : String) (h : hasColon k = false) :
    splitColonDollar (k ++ ":$set") = [k, "set"] := by
  have hd : (k ++ ":$set").data = k.data ++ ':' :: '$' :: "set".data := by
    rw [string_data_append]
  rw [splitColonDollar, hd,
    splitColonDollarAux_append k.data [] (hasColon_chars k h)]
  simp [mk_data]

theorem goSplitOps_step (m : Nat) (c : Char) (tl cur : List Char)
    (out : List String) (hc : ¬ c = ':') :
    goSplitOps (m+1) (c :: tl) cur out = goSplitOps m tl (c :: cur) out := by
  rw [goSplitOps.eq_def]
  split
  · rename_i heq
    omega
  · rename_i heq h2
    simp at h2
  · rename_i f t heq h1 h2
    injection h2 with ha hb
    exact absurd ha hc
  · rename_i f x t heq h1 h2
    injection h2 with ha hb
    subst ha
    subst hb
    have hf : f = m := by omega
    subst hf
    rfl

theorem goSplitOps_no_colon : ∀ (data : List Char) (fuel : Nat)
    (cur : List Char) (out : List String), (∀ c ∈ data, ¬ c = ':') →
    data.length < fuel →
    goSplitOps fuel data cur out =
      (out ++ [String.mk (cur.reverse ++ data)]).filter (· ≠ "") := by
  intro data
  induction data with
  | nil =>
    intro fuel cur out _ hlt
    cases fuel with
    | zero => omega
    | succ m => simp [goSplitOps]
  | cons c tl ih =>
    intro fuel cur out h hlt
    cases fuel with
    | zero => simp at hlt
    | succ m =>
      rw [goSplitOps_step m c tl cur out (h c (by simp))]
      rw [ih m (c :: cur) out (fun y hy => h y (by simp [hy]))
        (by simp at hlt ⊢; omega)]
      simp

theorem splitOps_plain (k : String) (h : hasColon k = false) (hne : ¬ k = "") :
    splitOps k = [k] := by
  rw [splitOps, goSplitOps_no_colon k.data (k.data.length + 1) [] []
    (hasColon_chars k h) (by omega)]
  simp [mk_data, hne]

/- A patch value is "plain" when no key anywhere in it contains a colon:
every key then takes the default `$set` operator. -/
mutual
def plainVal : Val → Bool
  | .dict d => plainDict d
  | .list l => plainItems l
  | _ => true

def plainDict : VDict → Bool
  | .nil => true
  | .cons k v tl => !(hasColon k) && plainVal v && plainDict tl

def plainItems : VList → Bool
  | .nil => true
  | .cons (.dict d) tl => plainDict d && plainItems tl
  | .cons _ tl => plainItems tl
end

def dAllKeysNoColon : VDict → Bool
  | .nil => true
  | .cons k _ tl => !(hasColon k) && dAllKeysNoColon tl

/-- Well-formedness of a flattened leaf value as `mutate` re-wraps it:
list items that are (already flattened) dicts must have colon-free,
duplicate-free keys so the nested `_mutate` call writes them back as-is. -/
def itemsOKF : VList → Bool
  | .nil => true
  | .cons (.dict dflat) tl =>
    dAllKeysNoColon dflat && decide (dkeys dflat).Nodup && itemsOKF tl
  | .cons _ tl => itemsOKF tl

def flatLeafOK : Val → Bool
  | .dict _ => false
  | .list L => itemsOKF L
  | _ => true

/-- Fuel needed to convert one re-wrapped flattened leaf. -/
def itemsNeedF : VList → Nat
  | .nil => 1
  | .cons (.dict dflat) tl => 1 + (VDict.length dflat + 2) + itemsNeedF tl
  | .cons _ tl => 1 + itemsNeedF tl

def leafNeedF : Val → Nat
  | .list L => 1 + itemsNeedF L
  | _ => 1

theorem MDtoList_liftVD : ∀ (d : VDict),
    MDict.toList (liftVD d) = (ofVDict d).map (fun kv => (kv.1, MVal.plain kv.2))
  | .nil => rfl
  | .cons k v tl => by
    show (k, MVal.plain v) :: MDict.toList (liftVD tl) = _
    rw [MDtoList_liftVD tl]
    rfl

theorem ofVDict_toVDict : ∀ (F : FlatDict), ofVDict (toVDict F) = F
  | [] => rfl
  | (k, v) :: tl => by
    show (k, v) :: ofVDict (toVDict tl) = _
    rw [ofVDict_toVDict tl]

theorem toVDict_ofVDict : ∀ (d : VDict), toVDict (ofVDict d) = d
  | .nil => rfl
  | .cons k v tl => by
    show VDict.cons k v (toVDict (ofVDict tl)) = _
    rw [toVDict_ofVDict tl]

theorem akeys_ofVDict : ∀ (d : VDict), akeys (ofVDict d) = dkeys d
  | .nil => rfl
  | .cons k v tl => by
    show k :: akeys (ofVDict tl) = _
    rw [akeys_ofVDict tl]
    rfl

theorem length_ofVDict : ∀ (d : VDict), (ofVDict d).length = VDict.length d
  | .nil => rfl
  | .cons k v tl => by
    show (ofVDict tl).length + 1 = _
    rw [length_ofVDict tl]
    rfl

theorem ofVDict_no_colon : ∀ (d : VDict), dAllKeysNoColon d = true →
    ∀ kv ∈ ofVDict d, hasColon kv.1 = false
  | .nil, _, kv, hkv => by simp [ofVDict] at hkv
  | .cons k v tl, h, kv, hkv => by
    rw [dAllKeysNoColon, Bool.and_eq_true, Bool.not_eq_true'] at h
    have hkv2 : kv ∈ (k, v) :: ofVDict tl := hkv
    rcases List.mem_cons.mp hkv2 with he | hm
    · subst he
      exact h.1
    · exact ofVDict_no_colon tl h.2 kv hm

/-- Colon-free patch entries are written verbatim by `_mutate`'s loop
(dict_mutator.py:304-305). -/
theorem mutLoop_plain (env : MutEnv) (cops : CustomOps) : ∀ (E : FlatDict)
    (fuel : Nat) (st : MutSt), (∀ kv ∈ E, hasColon kv.1 = false) →
    E.length < fuel →
    mutLoop env cops fuel (E.map (fun kv => (kv.1, MVal.plain kv.2))) st [] =
      .ok { st with data := fupdate st.data E } := by
  intro E
  induction E with
  | nil =>
    intro fuel st _ hlt
    cases fuel with
    | zero => omega
    | succ m => rfl
  | cons kv tl ih =>
    intro fuel st h kv2
    obtain ⟨k, v⟩ := kv
    cases fuel with
    | zero => simp at kv2
    | succ m =>
      have hk : hasColon k = false := h (k, v) (by simp)
      show mutLoop env cops (m+1)
        ((k, MVal.plain v) :: tl.map (fun kv => (kv.1, MVal.plain kv.2))) st [] = _
      simp only [mutLoop, ne_eq, not_true_eq_false, false_and, if_false,
        List.not_mem_nil, and_false, hk, Bool.false_eq_true, ite_false]
      rw [ih m _ (fun x hx => h x (by simp [hx])) (by simp at kv2 ⊢; omega)]
      rfl

/-- `_mutate` on a plain colon-free patch over an empty document writes the
patch back unchanged. -/
theorem mutateFull_plain (env : MutEnv) (cops : CustomOps) (E : FlatDict)
    (fuel : Nat) (h : ∀ kv ∈ E, hasColon kv.1 = false) (hnd : NodupKeys E)
    (hfuel : E.length + 1 < fuel) :
    mutateFull env cops fuel (E.map (fun kv => (kv.1, MVal.plain kv.2))) [] [] =
      .ok (E, []) := by
  cases fuel with
  | zero => omega
  | succ m =>
    simp only [mutateFull]
    rw [mutLoop_plain env cops E m ⟨[], [], []⟩ h (by omega)]
    dsimp only
    rw [fupdate_nil_left E hnd]
    rfl

theorem convert_items (env : MutEnv) (cops : CustomOps) : ∀ (L : VList)
    (g : Nat), itemsOKF L = true → itemsNeedF L ≤ g →
    convertMList env cops g (wrapItems L) = .ok L
  | .nil, g, _, hg => by
    cases g with
    | zero => simp [itemsNeedF] at hg
    | succ m => rfl
  | .cons (.dict dflat) tl, g, hok, hg => by
    rw [itemsOKF, Bool.and_eq_true, Bool.and_eq_true] at hok
    rw [itemsNeedF] at hg
    cases g with
    | zero => omega
    | succ m =>
      show convertMList env cops (m+1)
        (.cons (.nmutdict (liftVD dflat)) (wrapItems tl)) = _
      simp only [convertMList]
      rw [MDtoList_liftVD dflat]
      rw [mutateFull_plain env [] (ofVDict dflat) m
        (ofVDict_no_colon dflat hok.1.1)
        (by rw [NodupKeys, akeys_ofVDict]; exact of_decide_eq_true hok.1.2)
        (by rw [length_ofVDict]; omega)]
      rw [convert_items env cops tl m hok.2 (by omega)]
      dsimp only
      rw [toVDict_ofVDict dflat]
  | .cons (.list x) tl, g, hok, hg => by
    have hok2 : itemsOKF tl = true := hok
    have hg2 : 1 + itemsNeedF tl ≤ g := by
      rw [show itemsNeedF (VList.cons (.list x) tl) = 1 + itemsNeedF tl from rfl] at hg
      exact hg
    cases g with
    | zero => omega
    | succ m =>
      have hstep : convertMList env cops (m+1)
          (.cons (.plain (.list x)) (wrapItems tl)) =
          match convertMList env cops m (wrapItems tl) with
          | .error e => .error e
          | .ok tl2 => .ok (VList.cons (.list x) tl2) := rfl
      show convertMList env cops (m+1) (.cons (.plain (.list x)) (wrapItems tl)) = _
      rw [hstep, convert_items env cops tl m hok2 (by omega)]
  | .cons .null tl, g, hok, hg => by
    have hok2 : itemsOKF tl = true := hok
    have hg2 : 1 + itemsNeedF tl ≤ g := by
      rw [show itemsNeedF (VList.cons .null tl) = 1 + itemsNeedF tl from rfl] at hg
      exact hg
    cases g with
    | zero => omega
    | succ m =>
      have hstep : convertMList env cops (m+1)
          (.cons (.plain .null) (wrapItems tl)) =
          match convertMList env cops m (wrapItems tl) with
          | .error e => .error e
          | .ok tl2 => .ok (VList.cons .null tl2) := rfl
      show convertMList env cops (m+1) (.cons (.plain .null) (wrapItems tl)) = _
      rw [hstep, convert_items env cops tl m hok2 (by omega)]
  | .cons (.bool b) tl, g, hok, hg => by
    have hok2 : itemsOKF tl = true := hok
    have hg2 : 1 + itemsNeedF tl ≤ g := by
      rw [show itemsNeedF (VList.cons (.bool b) tl) = 1 + itemsNeedF tl from rfl] at hg
      exact hg
    cases g with
    | zero => omega
    | succ m =>
      have hstep : convertMList env cops (m+1)
          (.cons (.plain (.bool b)) (wrapItems tl)) =
          match convertMList env cops m (wrapItems tl) with
          | .error e => .error e
          | .ok tl2 => .ok (VList.cons (.bool b) tl2) := rfl
      show convertMList env cops (m+1) (.cons (.plain (.bool b)) (wrapItems tl)) = _
      rw [hstep, convert_items env cops tl m hok2 (by omega)]
  | .cons (.int n) tl, g, hok, hg => by
    have hok2 : itemsOKF tl = true := hok
    have hg2 : 1 + itemsNeedF tl ≤ g := by
      rw [show itemsNeedF (VList.cons (.int n) tl) = 1 + itemsNeedF tl from rfl] at hg
      exact hg
    cases g with
    | zero => omega
    | succ m =>
      have hstep : convertMList env cops (m+1)
          (.cons (.plain (.int n)) (wrapItems tl)) =
          match convertMList env cops m (wrapItems tl) with
          | .error e => .error e
          | .ok tl2 => .ok (VList.cons (.int n) tl2) := rfl
      show convertMList env cops (m+1) (.cons (.plain (.int n)) (wrapItems tl)) = _
      rw [hstep, convert_items env cops tl m hok2 (by omega)]
  | .cons (.str s) tl, g, hok, hg => by
    have hok2 : itemsOKF tl = true := hok
    have hg2 : 1 + itemsNeedF tl ≤ g := by
      rw [show itemsNeedF (VList.cons (.str s) tl) = 1 + itemsNeedF tl from rfl] at hg
      exact hg
    cases g with
    | zero => omega
    | succ m =>
      have hstep : convertMList env cops (m+1)
          (.cons (.plain (.str s)) (wrapItems tl)) =
          match convertMList env cops m (wrapItems tl) with
          | .error e => .error e
          | .ok tl2 => .ok (VList.cons (.str s) tl2) := rfl
      show convertMList env cops (m+1) (.cons (.plain (.str s)) (wrapItems tl)) = _
      rw [hstep, convert_items env cops tl m hok2 (by omega)]

/-- Re-wrapping and converting a well-formed flattened leaf is the
identity (dict_mutator.py:70-74 and 178-183 cancel out). -/
theorem convert_wrap_id (env : MutEnv) (cops : CustomOps) (v : Val) (f : Nat)
    (hok : flatLeafOK v = true) (hf : leafNeedF v ≤ f) :
    convertMVal env cops f (wrapMutVal v) = .ok v := by
  cases v with
  | dict d => simp [flatLeafOK] at hok
  | list L =>
    rw [flatLeafOK] at hok
    rw [leafNeedF] at hf
    cases f with
    | zero => omega
    | succ m =>
      show convertMVal env cops (m+1) (.nmutlist (wrapItems L)) = _
      simp only [convertMVal]
      rw [convert_items env cops L m hok (by omega)]
  | null =>
    cases f with
    | zero => simp [leafNeedF] at hf
    | succ m => rfl
  | bool b =>
    cases f with
    | zero => simp [leafNeedF] at hf
    | succ m => rfl
  | int n =>
    cases f with
    | zero => simp [leafNeedF] at hf
    | succ m => rfl
  | str s =>
    cases f with
    | zero => simp [leafNeedF] at hf
    | succ m => rfl

/-- `_mutate` on entries of the form `key:$set` writes each converted value
at its key: the whole pass is one `dict.update`. -/
theorem mutLoop_set_entries (env : MutEnv) (cops : CustomOps) : ∀ (E : FlatDict)
    (fuel : Nat) (st : MutSt),
    (∀ kv ∈ E, hasColon kv.1 = false ∧ ¬ kv.1 = "" ∧ flatLeafOK kv.2 = true) →
    E.length < fuel →
    (∀ kv ∈ E, leafNeedF kv.2 + E.length < fuel) →
    mutLoop env cops fuel
      (E.map (fun kv => (kv.1 ++ ":$set", wrapMutVal kv.2))) st [] =
      .ok { st with data := fupdate st.data E } := by
  intro E
  induction E with
  | nil =>
    intro fuel st _ hlen _
    cases fuel with
    | zero => omega
    | succ m => rfl
  | cons kv tl ih =>
    intro fuel st h hlen hneed
    obtain ⟨k, v⟩ := kv
    cases fuel with
    | zero => simp at hlen
    | succ m =>
      obtain ⟨hk, hkne, hokv⟩ := h (k, v) (by simp)
      have hcv : convertMVal env cops m (wrapMutVal v) = .ok v :=
        convert_wrap_id env cops v m hokv (by
          have := hneed (k, v) (by simp)
          simp at this ⊢
          omega)
      have hsp : splitColonDollar (k ++ ":$set") = [k, "set"] :=
        splitColonDollar_set k hk
      have hhc : hasColon (k ++ ":$set") = true := hasColon_append_set k
      have hhcd : hasColonDollar (k ++ ":$set") = true :=
        hasColonDollar_append_set k hk
      have hpp : ("set" ∈ POSTPROC_OPS) = False := by simp [POSTPROC_OPS]
      have hbi : isBuiltinOp "set" = true := by decide
      have hms : mutStep env cops st.data st.oplog k (k ++ ":$set") "set" v =
          .ok (some v, st.data, st.oplog) := rfl
      show mutLoop env cops (m+1)
        ((k ++ ":$set", wrapMutVal v) ::
          tl.map (fun kv => (kv.1 ++ ":$set", wrapMutVal kv.2))) st [] = _
      simp only [mutLoop, ne_eq, not_true_eq_false, false_and, if_false,
        List.not_mem_nil, and_false, hhc, hhcd, not_true, Bool.not_eq_true',
        ite_true, ite_false, if_true, hcv, hsp, hpp, hbi, hms]
      rw [ih m _ (fun x hx => h x (by simp [hx]))
        (by simp at hlen ⊢; omega)
        (by
          intro x hx
          have := hneed x (by simp [hx])
          simp at this ⊢
          omega)]
      rfl

/-- The restructure pass on colon-free keys only appends `:$set`. -/
theorem restructureGo_plain : ∀ (F : FlatDict) (muts : List (String × MVal))
    (restr : List (String × FlatDict)),
    (∀ kv ∈ F, hasColon kv.1 = false ∧ ¬ kv.1 = "") →
    restructureGo F muts restr =
      (F.foldl (fun m kv => aset m (kv.1 ++ ":$set") (wrapMutVal kv.2)) muts,
       restr) := by
  intro F
  induction F with
  | nil => intro muts restr _; rfl
  | cons kv tl ih =>
    intro muts restr h
    obtain ⟨k, v⟩ := kv
    obtain ⟨hk, hkne⟩ := h (k, v) (by simp)
    show restructureGo ((k, v) :: tl) muts restr = _
    simp only [restructureGo, splitOps_plain k hk hkne,
      hasColonDollar_of_no_colon k hk, List.length_cons, List.length_nil,
      Bool.false_eq_true, if_false, ite_false]
    exact ih _ _ (fun x hx => h x (by simp [hx]))

theorem aset_fresh {α : Type} : ∀ (acc : List (String × α)) (k : String)
    (v : α), k ∉ acc.map Prod.fst → aset acc k v = acc ++ [(k, v)] := by
  intro acc
  induction acc with
  | nil => intro k v _; rfl
  | cons kv tl ih =>
    intro k v h
    obtain ⟨k2, v2⟩ := kv
    simp only [List.map_cons, List.mem_cons, not_or] at h
    have hne : ¬ k2 = k := fun he => h.1 he.symm
    simp only [aset, hne, if_false, ite_false, List.cons_append]
    rw [ih k v h.2]

theorem aset_fold_fresh {α : Type} : ∀ (L : List (String × α))
    (acc : List (String × α)), (∀ kv ∈ L, kv.1 ∉ acc.map Prod.fst) →
    (L.map Prod.fst).Nodup →
    L.foldl (fun m kv => aset m kv.1 kv.2) acc = acc ++ L := by
  intro L
  induction L with
  | nil => intro acc _ _; simp
  | cons kv tl ih =>
    intro acc hfresh hnd
    obtain ⟨k, v⟩ := kv
    simp only [List.map_cons, List.nodup_cons] at hnd
    rw [List.foldl_cons]
    rw [aset_fresh acc k v (hfresh (k, v) (by simp))]
    rw [ih (acc ++ [(k, v)]) ?hf hnd.2]
    · simp
    case hf =>
      intro x hx
      simp only [List.map_append, List.mem_append, List.map_cons,
        List.map_nil, List.mem_cons, List.not_mem_nil, or_false, not_or]
      refine ⟨fun hc => hfresh x (by simp [hx]) hc, fun hc => ?_⟩
      exact hnd.1 (hc ▸ List.mem_map_of_mem Prod.fst hx)

theorem dAllKeysNoColon_toVDict : ∀ (F : FlatDict),
    (∀ kv ∈ F, hasColon kv.1 = false) → dAllKeysNoColon (toVDict F) = true
  | [], _ => rfl
  | (k, v) :: tl, h => by
    show dAllKeysNoColon (.cons k v (toVDict tl)) = true
    rw [dAllKeysNoColon, Bool.and_eq_true, Bool.not_eq_true']
    exact ⟨h (k, v) (by simp), dAllKeysNoColon_toVDict tl
      (fun x hx => h x (by simp [hx]))⟩

theorem dkeys_toVDict : ∀ (F : FlatDict), dkeys (toVDict F) = akeys F
  | [] => rfl
  | (k, v) :: tl => by
    show k :: dkeys (toVDict tl) = _
    rw [dkeys_toVDict tl]
    rfl

theorem hasColon_joinDot : ∀ (l : List String),
    (∀ s ∈ l, hasColon s = false) → hasColon (joinDot l) = false := by
  intro l
  induction l with
  | nil => intro _; rfl
  | cons s tl ih =>
    intro h
    cases tl with
    | nil => exact h s (by simp)
    | cons y tl2 =>
      show hasColon (s ++ "." ++ joinDot (y :: tl2)) = false
      simp only [hasColon, string_data_append, List.any_append,
        Bool.or_eq_false_iff]
      refine ⟨⟨?_, by rfl⟩, ?_⟩
      · have := h s (by simp)
        simpa [hasColon] using this
      · have := ih (fun x hx => h x (by simp [hx]))
        simpa [hasColon] using this

theorem joinDot_ne_empty (segs : List String) (k : String)
    (hk : goodKeyB k = true) (hs : goodSegs segs = true) :
    ¬ joinDot (segs ++ [k]) = "" := by
  intro he
  cases segs with
  | nil =>
    rw [List.nil_append, show joinDot [k] = k from rfl] at he
    exact goodKey_data_ne_nil k hk (by rw [he])
  | cons s ss =>
    have hgs : goodKeyB s = true := by
      rw [goodSegs_cons, Bool.and_eq_true] at hs
      exact hs.1
    have hne := joinDot_data_ne_nil s (ss ++ [k]) hgs
    rw [List.cons_append] at he
    exact hne (by rw [he])

/- Every entry that `flatten_dict` produces from a good, colon-free dict has
a colon-free non-empty key and a well-formed flattened leaf value. -/
mutual

theorem flatten_entry_plain : ∀ (d : VDict) (segs : List String),
    goodDict d = true → plainDict d = true → goodSegs segs = true →
    (∀ s ∈ segs, hasColon s = false) →
    ∀ kv ∈ flattenGo (joinDot segs) [] d,
      (hasColon kv.1 = false ∧ ¬ kv.1 = "") ∧ flatLeafOK kv.2 = true
  | .nil, segs, _, _, _, _, kv, hkv => by
    exact absurd hkv (show kv ∉ ([] : FlatDict) by simp)
  | .cons k v tl, segs, hg, hp, hs, hsc, kv, hkv => by
    obtain ⟨hk, hfresh, hv, htl⟩ := goodDict_cons k v tl hg
    have hpl : hasColon k = false ∧ plainVal v = true ∧ plainDict tl = true := by
      rw [plainDict, Bool.and_eq_true, Bool.and_eq_true,
        Bool.not_eq_true'] at hp
      exact ⟨hp.1.1, hp.1.2, hp.2⟩
    have hsc2 : ∀ s ∈ segs ++ [k], hasColon s = false := by
      intro s hsm
      rcases List.mem_append.mp hsm with h1 | h1
      · exact hsc s h1
      · simp at h1
        subst h1
        exact hpl.1
    have hgs2 : goodSegs (segs ++ [k]) = true := by
      rw [goodSegs_append, Bool.and_eq_true]
      exact ⟨hs, by simp [goodSegs, hk]⟩
    cases v with
    | dict sub =>
      rw [flatten_cons_dict_append segs k sub tl hs hk (goodVal_dict sub hv)
        htl hfresh] at hkv
      rcases List.mem_append.mp hkv with h1 | h1
      · exact flatten_entry_plain sub (segs ++ [k]) (goodVal_dict sub hv)
          hpl.2.1 hgs2 hsc2 kv h1
      · exact flatten_entry_plain tl segs htl hpl.2.2 hs hsc kv h1
    | list l =>
      rw [flatten_cons_nondict_append segs k (.list l) tl hs hk htl hfresh rfl]
        at hkv
      rcases List.mem_cons.mp hkv with h1 | h1
      · subst h1
        refine ⟨⟨hasColon_joinDot _ hsc2, joinDot_ne_empty segs k hk hs⟩, ?_⟩
        exact flatLeafOK_flatLeaf (.list l) hv hpl.2.1 rfl
      · exact flatten_entry_plain tl segs htl hpl.2.2 hs hsc kv h1
    | null =>
      rw [flatten_cons_nondict_append segs k .null tl hs hk htl hfresh rfl]
        at hkv
      rcases List.mem_cons.mp hkv with h1 | h1
      · subst h1
        refine ⟨⟨hasColon_joinDot _ hsc2, joinDot_ne_empty segs k hk hs⟩, ?_⟩
        exact flatLeafOK_flatLeaf .null hv hpl.2.1 rfl
      · exact flatten_entry_plain tl segs htl hpl.2.2 hs hsc kv h1
    | bool b =>
      rw [flatten_cons_nondict_append segs k (.bool b) tl hs hk htl hfresh rfl]
        at hkv
      rcases List.mem_cons.mp hkv with h1 | h1
      · subst h1
        refine ⟨⟨hasColon_joinDot _ hsc2, joinDot_ne_empty segs k hk hs⟩, ?_⟩
        exact flatLeafOK_flatLeaf (.bool b) hv hpl.2.1 rfl
      · exact flatten_entry_plain tl segs htl hpl.2.2 hs hsc kv h1
    | int n =>
      rw [flatten_cons_nondict_append segs k (.int n) tl hs hk htl hfresh rfl]
        at hkv
      rcases List.mem_cons.mp hkv with h1 | h1
      · subst h1
        refine ⟨⟨hasColon_joinDot _ hsc2, joinDot_ne_empty segs k hk hs⟩, ?_⟩
        exact flatLeafOK_flatLeaf (.int n) hv hpl.2.1 rfl
      · exact flatten_entry_plain tl segs htl hpl.2.2 hs hsc kv h1
    | str s =>
      rw [flatten_cons_nondict_append segs k (.str s) tl hs hk htl hfresh rfl]
        at hkv
      rcases List.mem_cons.mp hkv with h1 | h1
      · subst h1
        refine ⟨⟨hasColon_joinDot _ hsc2, joinDot_ne_empty segs k hk hs⟩, ?_⟩
        exact flatLeafOK_flatLeaf (.str s) hv hpl.2.1 rfl
      · exact flatten_entry_plain tl segs htl hpl.2.2 hs hsc kv h1
termination_by d => (sizeOf d, 0)

theorem flatLeafOK_flatLeaf : ∀ (v : Val), goodVal v = true →
    plainVal v = true → v.isPyDict = false → flatLeafOK (flatLeaf v) = true
  | .null, _, _, _ => rfl
  | .bool b, _, _, _ => rfl
  | .int n, _, _, _ => rfl
  | .str s, _, _, _ => rfl
  | .dict d, _, _, hd => by simp [Val.isPyDict] at hd
  | .list l, hv, hp, _ => by
    show flatLeafOK (.list (flattenItems l)) = true
    rw [flatLeafOK]
    exact itemsOKF_flattenItems l hv hp
termination_by v => (sizeOf v, 1)

theorem itemsOKF_flattenItems : ∀ (l : VList), goodItems l = true →
    plainItems l = true → itemsOKF (flattenItems l) = true
  | .nil, _, _ => rfl
  | .cons (.dict sub) tl, hg, hp => by
    have hgs : goodDict sub = true ∧ goodItems tl = true := by
      rw [goodItems, Bool.and_eq_true] at hg
      exact hg
    have hps : plainDict sub = true ∧ plainItems tl = true := by
      rw [plainItems, Bool.and_eq_true] at hp
      exact hp
    show itemsOKF (.cons (.dict (toVDict (flattenGo "" [] sub)))
      (flattenItems tl)) = true
    rw [itemsOKF, Bool.and_eq_true, Bool.and_eq_true]
    refine ⟨⟨?_, ?_⟩, itemsOKF_flattenItems tl hgs.2 hps.2⟩
    · apply dAllKeysNoColon_toVDict
      intro x hx
      exact ((flatten_entry_plain sub [] hgs.1 hps.1 rfl (by simp) x hx).1).1
    · apply decide_eq_true
      rw [dkeys_toVDict]
      exact flattenGo_nodup sub "" [] nodupKeys_nil
  | .cons (.list x) tl, hg, hp => by
    show itemsOKF (.cons (.list x) (flattenItems tl)) = true
    exact itemsOKF_flattenItems tl hg hp
  | .cons .null tl, hg, hp => by
    show itemsOKF (.cons .null (flattenItems tl)) = true
    exact itemsOKF_flattenItems tl hg hp
  | .cons (.bool b) tl, hg, hp => by
    show itemsOKF (.cons (.bool b) (flattenItems tl)) = true
    exact itemsOKF_flattenItems tl hg hp
  | .cons (.int n) tl, hg, hp => by
    show itemsOKF (.cons (.int n) (flattenItems tl)) = true
    exact itemsOKF_flattenItems tl hg hp
  | .cons (.str s) tl, hg, hp => by
    show itemsOKF (.cons (.str s) (flattenItems tl)) = true
    exact itemsOKF_flattenItems tl hg hp
termination_by l => (sizeOf l, 0)

end

/-- `mutate` on a plain (all-default-`$set`) patch is exactly
`data.update(flatten(patch))` followed by `unflatten`, with an empty oplog. -/
theorem mutate_allset (env : MutEnv) (cops : CustomOps) (P D : VDict)
    (immuts : List String) (fuel : Nat)
    (hgP : goodDict P = true) (hpP : plainDict P = true)
    (hlen : (flatten_dict P).length + 1 < fuel)
    (hneed : ∀ kv ∈ flatten_dict P,
      leafNeedF kv.2 + (flatten_dict P).length + 1 < fuel) :
    mutate env cops fuel P D immuts =
      match unflatten_dict (fupdate (flatten_dict D) (flatten_dict P)) with
      | .error e => .error e
      | .ok out => .ok (out, []) := by
  have hentry : ∀ kv ∈ flatten_dict P,
      (hasColon kv.1 = false ∧ ¬ kv.1 = "") ∧ flatLeafOK kv.2 = true :=
    flatten_entry_plain P [] hgP hpP rfl (by simp)
  have hinj : Function.Injective (fun s : String => s ++ ":$set") := by
    intro a b h
    apply str_ext
    have h2 := congrArg String.data h
    rw [string_data_append, string_data_append] at h2
    exact List.append_cancel_right h2
  have hnodupP : (akeys (flatten_dict P)).Nodup :=
    flattenGo_nodup P "" [] nodupKeys_nil
  have hnodup : (((flatten_dict P).map
      (fun kv => (kv.1 ++ ":$set", wrapMutVal kv.2))).map Prod.fst).Nodup := by
    rw [List.map_map]
    have he : (Prod.fst ∘ fun kv : String × Val =>
        (kv.1 ++ ":$set", wrapMutVal kv.2)) =
        ((fun s => s ++ ":$set") ∘ fun kv : String × Val => kv.1) := rfl
    rw [he, ← List.map_map]
    exact List.Nodup.map hinj hnodupP
  unfold mutate
  dsimp only []
  rw [restructureGo_plain (flatten_dict P) [] []
    (fun kv hkv => (hentry kv hkv).1)]
  dsimp only [List.foldl_nil]
  rw [show (flatten_dict P).foldl
      (fun m kv => aset m (kv.1 ++ ":$set") (wrapMutVal kv.2)) [] =
      (((flatten_dict P).map
        (fun kv => (kv.1 ++ ":$set", wrapMutVal kv.2))).foldl
        (fun m kv => aset m kv.1 kv.2) []) from
    (List.foldl_map
      (fun kv : String × Val => (kv.1 ++ ":$set", wrapMutVal kv.2))
      (fun (m : List (String × MVal)) (kv : String × MVal) =>
        aset m kv.1 kv.2)
      (flatten_dict P) []).symm]
  rw [aset_fold_fresh _ [] (by simp) hnodup]
  rw [List.nil_append]
  cases fuel with
  | zero => omega
  | succ m =>
    simp only [mutateFull]
    rw [mutLoop_set_entries env cops (flatten_dict P) m
      ⟨flatten_dict D, [], []⟩
      (fun kv hkv => ⟨(hentry kv hkv).1.1, (hentry kv hkv).1.2,
        (hentry kv hkv).2⟩)
      (by omega)
      (fun kv hkv => by have := hneed kv hkv; omega)]
    dsimp only
    rfl

-- ---------------------------------------------------------------------------
-- Splitting `data.update(patch)` into in-place overrides plus appended news.
-- ---------------------------------------------------------------------------

/-- `d1` with each value overridden by `d2`'s value at the same key. -/
def ovList (d1 d2 : FlatDict) : FlatDict :=
  d1.map (fun kv => (kv.1, (fget d2 kv.1).getD kv.2))

/-- The entries of `d2` whose keys are new to `d1`, in order. -/
def newList (d1 d2 : FlatDict) : FlatDict :=
  d2.filter (fun kv => (fget d1 kv.1).isNone)

theorem fget_append : ∀ (a b : FlatDict) (k : String),
    fget (a ++ b) k = match fget a k with
      | some v => some v
      | none => fget b k := by
  intro a
  induction a with
  | nil => intro b k; rfl
  | cons kv tl ih =>
    intro b k
    obtain ⟨k2, v2⟩ := kv
    by_cases h : k2 = k
    · subst h
      simp [fget]
    · simp only [List.cons_append, fget, h, ite_false, if_false]
      exact ih b k

theorem fget_some_of_mem (d : FlatDict) (k : String) (hk : k ∈ akeys d) :
    ∃ w, fget d k = some w := by
  induction d with
  | nil => simp [akeys_nil] at hk
  | cons kv tl ih =>
    obtain ⟨k2, v2⟩ := kv
    by_cases h : k2 = k
    · subst h
      exact ⟨v2, by simp [fget]⟩
    · simp only [akeys_cons, List.mem_cons] at hk
      rcases hk with hk | hk
      · exact absurd hk.symm h
      · obtain ⟨w, hw⟩ := ih hk
        exact ⟨w, by simp [fget, h, hw]⟩

theorem fget_none_iff (d : FlatDict) (k : String) :
    fget d k = none ↔ k ∉ akeys d := by
  constructor
  · intro h hk
    obtain ⟨w, hw⟩ := fget_some_of_mem d k hk
    rw [h] at hw
    exact Option.noConfusion hw
  · intro h
    cases hf : fget d k with
    | none => rfl
    | some w =>
      exfalso
      apply h
      induction d with
      | nil => simp [fget] at hf
      | cons kv tl ih =>
        obtain ⟨k2, v2⟩ := kv
        by_cases h2 : k2 = k
        · subst h2
          simp [akeys_cons]
        · simp only [fget, h2, ite_false, if_false] at hf
          simp only [akeys_cons, List.mem_cons]
          right
          exact ih (fun hm => h (by simp [akeys_cons, hm])) hf

theorem ovList_nil (d1 : FlatDict) : ovList d1 [] = d1 := by
  unfold ovList
  rw [show (fun kv : String × Val => (kv.1, (fget [] kv.1).getD kv.2)) =
    (fun kv => kv) from ?he]
  · exact List.map_id d1
  case he =>
    funext kv
    simp [fget]

theorem ovList_append (a b d2 : FlatDict) :
    ovList (a ++ b) d2 = ovList a d2 ++ ovList b d2 := by
  simp [ovList]

theorem ovList_id_of_none (d1 d2 : FlatDict)
    (h : ∀ kv ∈ d1, fget d2 kv.1 = none) : ovList d1 d2 = d1 := by
  unfold ovList
  have h2 : d1.map (fun kv => (kv.1, (fget d2 kv.1).getD kv.2)) =
      d1.map (fun kv => kv) := by
    apply List.map_congr_left
    intro kv hkv
    rw [h kv hkv]
    rfl
  rw [h2]
  exact List.map_id d1

theorem newList_congr (d1 d1b d2 : FlatDict)
    (h : ∀ kv ∈ d2, (fget d1 kv.1).isNone = (fget d1b kv.1).isNone) :
    newList d1 d2 = newList d1b d2 := by
  unfold newList
  exact List.filter_congr (fun kv hkv => h kv hkv)

theorem fset_mem_akeys (d1 : FlatDict) (k : String) (v : Val)
    (hk : k ∈ akeys d1) : ∀ x, fget (fset d1 k v) x =
      if x = k then some v else fget d1 x := by
  intro x
  by_cases hx : x = k
  · subst hx
    simp [fget_fset_self]
  · simp [fget_fset_ne d1 k x v (fun he => hx he.symm), hx]

theorem ovList_skip_absent (m : FlatDict) (k : String) (v : Val)
    (tl : FlatDict) (hk : k ∉ akeys m) :
    ovList m ((k, v) :: tl) = ovList m tl := by
  unfold ovList
  apply List.map_congr_left
  intro kv hkv
  have hne : ¬ k = kv.1 := by
    intro he
    exact hk (he ▸ List.mem_map_of_mem (fun p => p.1) hkv)
  simp [fget, hne]

theorem ovList_fset_present : ∀ (d1 : FlatDict) (k : String) (v : Val)
    (tl : FlatDict), NodupKeys d1 → k ∈ akeys d1 → k ∉ akeys tl →
    ovList (fset d1 k v) tl = ovList d1 ((k, v) :: tl) := by
  intro d1
  induction d1 with
  | nil => intro k v tl _ hk _; simp [akeys_nil] at hk
  | cons kv d1tl ih =>
    intro k v tl hnd hk htl
    obtain ⟨k2, w2⟩ := kv
    rw [nodupKeys_cons] at hnd
    by_cases h2 : k2 = k
    · subst h2
      have hfset : fset ((k2, w2) :: d1tl) k2 v = (k2, v) :: d1tl := by
        simp [fset]
      rw [hfset]
      show (k2, (fget tl k2).getD v) :: ovList d1tl tl = _
      have hnone : fget tl k2 = none := (fget_none_iff tl k2).mpr htl
      rw [hnone]
      show (k2, v) :: ovList d1tl tl =
        (k2, (fget ((k2, v) :: tl) k2).getD w2) :: ovList d1tl ((k2, v) :: tl)
      rw [show fget ((k2, v) :: tl) k2 = some v from by simp [fget]]
      rw [ovList_skip_absent d1tl k2 v tl hnd.1]
      rfl
    · have hfset : fset ((k2, w2) :: d1tl) k v = (k2, w2) :: fset d1tl k v := by
        simp [fset, h2]
      have hk2 : k ∈ akeys d1tl := by
        simp only [akeys_cons, List.mem_cons] at hk
        rcases hk with hk | hk
        · exact absurd hk.symm h2
        · exact hk
      rw [hfset]
      show (k2, (fget tl k2).getD w2) :: ovList (fset d1tl k v) tl = _
      rw [ih k v tl hnd.2 hk2 htl]
      show _ = (k2, (fget ((k, v) :: tl) k2).getD w2) :: ovList d1tl ((k, v) :: tl)
      have hne : ¬ k = k2 := fun he => h2 he.symm
      rw [show fget ((k, v) :: tl) k2 = fget tl k2 from by simp [fget, hne]]

theorem newList_fset_present (d1 : FlatDict) (k : String) (v w : Val)
    (tl : FlatDict) (hw : fget d1 k = some w) :
    newList (fset d1 k v) tl = newList d1 tl := by
  apply newList_congr
  intro kv _
  by_cases h : kv.1 = k
  · rw [h, fget_fset_self, hw]
    rfl
  · rw [fget_fset_ne d1 k kv.1 v (fun he => h he.symm)]

theorem newList_cons_present (d1 : FlatDict) (k : String) (v w : Val)
    (tl : FlatDict) (hw : fget d1 k = some w) :
    newList d1 ((k, v) :: tl) = newList d1 tl := by
  unfold newList
  rw [List.filter_cons]
  simp [hw]

theorem newList_cons_absent (d1 : FlatDict) (k : String) (v : Val)
    (tl : FlatDict) (hk : k ∉ akeys d1) :
    newList d1 ((k, v) :: tl) = (k, v) :: newList d1 tl := by
  unfold newList
  rw [List.filter_cons]
  simp [(fget_none_iff d1 k).mpr hk]

theorem newList_append_absent (d1 : FlatDict) (k : String) (v : Val)
    (tl : FlatDict) (htl : k ∉ akeys tl) :
    newList (d1 ++ [(k, v)]) tl = newList d1 tl := by
  apply newList_congr
  intro kv hkv
  rw [fget_append]
  cases hf : fget d1 kv.1 with
  | some w => rfl
  | none =>
    have hne : ¬ k = kv.1 := by
      intro he
      exact htl (he ▸ List.mem_map_of_mem (fun p => p.1) hkv)
    simp [fget, hne]

/-- `d1.update(d2)` is the in-place overrides followed by the new keys. -/
theorem fupdate_split : ∀ (d2 d1 : FlatDict), NodupKeys d1 → NodupKeys d2 →
    fupdate d1 d2 = ovList d1 d2 ++ newList d1 d2 := by
  intro d2
  induction d2 with
  | nil =>
    intro d1 _ _
    rw [fupdate_nil, ovList_nil]
    simp [newList]
  | cons kv tl ih =>
    intro d1 hnd1 hnd
    obtain ⟨k, v⟩ := kv
    rw [nodupKeys_cons] at hnd
    rw [fupdate_cons, ih (fset d1 k v) (nodupKeys_fset d1 k v hnd1) hnd.2]
    by_cases hk : k ∈ akeys d1
    · obtain ⟨w, hw⟩ := fget_some_of_mem d1 k hk
      rw [ovList_fset_present d1 k v tl hnd1 hk hnd.1]
      rw [newList_fset_present d1 k v w tl hw]
      rw [newList_cons_present d1 k v w tl hw]
    · rw [fset_notin_append d1 k v hk]
      rw [ovList_append, ovList_skip_absent d1 k v tl hk]
      rw [newList_append_absent d1 k v tl hnd.1]
      rw [newList_cons_absent d1 k v tl hk]
      show (ovList d1 tl ++ [(k, (fget tl k).getD v)]) ++ newList d1 tl = _
      rw [(fget_none_iff tl k).mpr hnd.1]
      simp

-- ---------------------------------------------------------------------------
-- Splitting on dots is injective: joining undoes it on every string.
-- ---------------------------------------------------------------------------

theorem joinDot_cons_ne (s : String) (tl : List String) (h : tl ≠ []) :
    joinDot (s :: tl) = s ++ "." ++ joinDot tl := by
  cases tl with
  | nil => exact absurd rfl h
  | cons y tl2 => rfl

theorem splitCharAux_ne_nil : ∀ (c : Char) (l cur : List Char),
    splitCharAux c l cur ≠ []
  | c, [], cur => by rw [splitCharAux]; simp
  | c, x :: tl, cur => by
    rw [splitCharAux]
    by_cases hx : x = c
    · simp [hx]
    · rw [if_neg hx]
      exact splitCharAux_ne_nil c tl (x :: cur)

theorem joinDot_splitCharAux : ∀ (l cur : List Char),
    joinDot (splitCharAux '.' l cur) = String.mk (cur.reverse ++ l)
  | [], cur => by
    rw [splitCharAux]
    show String.mk cur.reverse = _
    rw [List.append_nil]
  | x :: tl, cur => by
    rw [splitCharAux]
    by_cases hx : x = '.'
    · rw [if_pos hx]
      rw [joinDot_cons_ne _ _ (splitCharAux_ne_nil '.' tl [])]
      rw [joinDot_splitCharAux tl []]
      subst hx
      apply str_ext
      rw [string_data_append, string_data_append]
      show cur.reverse ++ ['.'] ++ ([].reverse ++ tl) = cur.reverse ++ '.' :: tl
      simp
    · rw [if_neg hx, joinDot_splitCharAux tl (x :: cur)]
      apply congrArg String.mk
      simp

theorem joinDot_splitDot (s : String) : joinDot (splitDot s) = s := by
  show joinDot (splitCharAux '.' s.data []) = s
  rw [joinDot_splitCharAux]
  show String.mk s.data = s
  rfl

theorem splitDot_inj (a b : String) (h : splitDot a = splitDot b) : a = b := by
  rw [← joinDot_splitDot a, ← joinDot_splitDot b, h]

-- ---------------------------------------------------------------------------
-- Strict descent through nested dicts along a segment path.
-- ---------------------------------------------------------------------------

/-- Follow a path of keys through nested dicts; `none` when a step is
missing or not a dict. -/
def descend : VDict → List String → Option VDict
  | d, [] => some d
  | d, s :: rest =>
    match vdictLookup d s with
    | some (.dict sub) => descend sub rest
    | _ => none

theorem descend_append : ∀ (a : List String) (d : VDict) (b : List String),
    descend d (a ++ b) =
      match descend d a with
      | some q => descend q b
      | none => none
  | [], d, b => rfl
  | s :: rest, d, b => by
    have h1 : descend d (s :: (rest ++ b)) =
        (match vdictLookup d s with
         | some (Val.dict sub) => descend sub (rest ++ b)
         | _ => none) := rfl
    have h2 : descend d (s :: rest) =
        (match vdictLookup d s with
         | some (Val.dict sub) => descend sub rest
         | _ => none) := rfl
    rw [List.cons_append, h1, h2]
    cases hl : vdictLookup d s with
    | none => rfl
    | some w =>
      cases w with
      | dict sub =>
        show descend sub (rest ++ b) =
          (match descend sub rest with
           | some q => descend q b
           | none => none)
        exact descend_append rest sub b
      | null => rfl
      | bool v => rfl
      | int n => rfl
      | str t => rfl
      | list l => rfl

theorem descend_to_effAt : ∀ (segs : List String) (out cur : VDict),
    descend out segs = some cur → effAt out segs = some cur
  | [], out, cur, h => h
  | s :: rest, out, cur, h => by
    rw [descend] at h
    rw [effAt]
    cases hl : vdictLookup out s with
    | none => rw [hl] at h; exact absurd h (by simp)
    | some w =>
      rw [hl] at h
      cases w with
      | dict sub => exact descend_to_effAt rest sub cur h
      | null => exact absurd h (by simp)
      | bool v => exact absurd h (by simp)
      | int n => exact absurd h (by simp)
      | str t => exact absurd h (by simp)
      | list l => exact absurd h (by simp)

theorem vdictLookup_vdictSet_ne : ∀ (d : VDict) (k k2 : String) (v : Val),
    ¬ k = k2 → vdictLookup (vdictSet d k v) k2 = vdictLookup d k2
  | .nil, k, k2, v, h => by simp [vdictSet, vdictLookup, h]
  | .cons k3 v3 tl, k, k2, v, h => by
    by_cases h3 : k3 = k
    · subst h3; simp [vdictSet, vdictLookup, h]
    · simp only [vdictSet, h3, ite_false, if_false, vdictLookup]
      by_cases h2 : k3 = k2
      · simp [h2]
      · simp only [h2, ite_false, if_false]
        exact vdictLookup_vdictSet_ne tl k k2 v h

theorem vdictSet_lookup_id : ∀ (d : VDict) (k : String) (v : Val),
    vdictLookup d k = some v → vdictSet d k v = d
  | .nil, k, v, h => by simp [vdictLookup] at h
  | .cons k2 v2 tl, k, v, h => by
    by_cases h2 : k2 = k
    · subst h2
      simp only [vdictLookup, ite_true, if_true, Option.some_inj] at h
      simp [vdictSet, h]
    · simp only [vdictLookup, h2, ite_false, if_false] at h
      simp only [vdictSet, h2, ite_false, if_false]
      rw [vdictSet_lookup_id tl k v h]

theorem dhasKey_of_lookup (d : VDict) (k : String) (v : Val)
    (h : vdictLookup d k = some v) : dhasKey d k = true := by
  cases hh : dhasKey d k with
  | true => rfl
  | false =>
    rw [vdictLookup_none_of_not_has d k hh] at h
    exact absurd h (by simp)

theorem mem_dkeys_of_lookup (d : VDict) (k : String) (v : Val)
    (h : vdictLookup d k = some v) : k ∈ dkeys d :=
  (dhasKey_eq_mem d k).mp (dhasKey_of_lookup d k v h)

theorem goodVal_of_lookup : ∀ (d : VDict) (k : String) (v : Val),
    goodDict d = true → vdictLookup d k = some v → goodVal v = true
  | .nil, k, v, _, h => by simp [vdictLookup] at h
  | .cons k2 v2 tl, k, v, hg, h => by
    obtain ⟨_, _, hv2, htl⟩ := goodDict_cons k2 v2 tl hg
    by_cases h2 : k2 = k
    · subst h2
      simp only [vdictLookup, ite_true, if_true, Option.some_inj] at h
      exact h ▸ hv2
    · simp only [vdictLookup, h2, ite_false, if_false] at h
      exact goodVal_of_lookup tl k v htl h

theorem descend_good : ∀ (segs : List String) (d q : VDict),
    goodDict d = true → descend d segs = some q → goodDict q = true
  | [], d, q, hg, h => by
    rw [descend, Option.some_inj] at h
    exact h ▸ hg
  | s :: rest, d, q, hg, h => by
    rw [descend] at h
    cases hl : vdictLookup d s with
    | none => rw [hl] at h; exact absurd h (by simp)
    | some w =>
      rw [hl] at h
      cases w with
      | dict sub =>
        exact descend_good rest sub q
          (goodVal_dict sub (goodVal_of_lookup d s (.dict sub) hg hl)) h
      | null => exact absurd h (by simp)
      | bool v => exact absurd h (by simp)
      | int n => exact absurd h (by simp)
      | str t => exact absurd h (by simp)
      | list l => exact absurd h (by simp)

theorem descend_setEff : ∀ (segs : List String) (out cur c2 : VDict),
    descend out segs = some cur →
    descend (setEff out segs c2) segs = some c2
  | [], out, cur, c2, _ => rfl
  | s :: rest, out, cur, c2, h => by
    rw [descend] at h
    cases hl : vdictLookup out s with
    | none => rw [hl] at h; exact absurd h (by simp)
    | some w =>
      rw [hl] at h
      cases w with
      | dict sub =>
        rw [setEff, hl]
        rw [descend, vdictLookup_vdictSet_self]
        exact descend_setEff rest sub cur c2 h
      | null => exact absurd h (by simp)
      | bool v => exact absurd h (by simp)
      | int n => exact absurd h (by simp)
      | str t => exact absurd h (by simp)
      | list l => exact absurd h (by simp)

theorem setEff_id : ∀ (segs : List String) (out cur : VDict),
    descend out segs = some cur → setEff out segs cur = out
  | [], out, cur, h => by
    rw [descend, Option.some_inj] at h
    rw [setEff, h]
  | s :: rest, out, cur, h => by
    rw [descend] at h
    cases hl : vdictLookup out s with
    | none => rw [hl] at h; exact absurd h (by simp)
    | some w =>
      rw [hl] at h
      cases w with
      | dict sub =>
        have h2 : descend sub rest = some cur := h
        have hs : setEff out (s :: rest) cur =
            vdictSet out s (.dict (setEff sub rest cur)) := by
          rw [setEff, hl]
        rw [hs, setEff_id rest sub cur h2]
        exact vdictSet_lookup_id out s (.dict sub) hl
      | null => exact absurd h (by simp)
      | bool v => exact absurd h (by simp)
      | int n => exact absurd h (by simp)
      | str t => exact absurd h (by simp)
      | list l => exact absurd h (by simp)

-- ---------------------------------------------------------------------------
-- Looking up a dotted key in the flatten of a good dict.
-- ---------------------------------------------------------------------------

theorem not_mem_dkeys_of_not_has (d : VDict) (k : String)
    (h : dhasKey d k = false) : k ∉ dkeys d := by
  intro hmem
  have h2 := (dhasKey_eq_mem d k).mpr hmem
  rw [h] at h2
  exact absurd h2 (by simp)

theorem isPyDict_dict (v : Val) (h : v.isPyDict = true) :
    ∃ sub, v = .dict sub := by
  cases v with
  | dict sub => exact ⟨sub, rfl⟩
  | null => simp [Val.isPyDict] at h
  | bool b => simp [Val.isPyDict] at h
  | int n => simp [Val.isPyDict] at h
  | str s => simp [Val.isPyDict] at h
  | list l => simp [Val.isPyDict] at h

theorem fget_flatten_none (Q : VDict) (pre : List String) (K : String)
    (hg : goodDict Q = true) (hpre : goodSegs pre = true)
    (h : ∀ k2 rest, splitDot K = pre ++ k2 :: rest → k2 ∉ dkeys Q) :
    fget (flattenGo (joinDot pre) [] Q) K = none := by
  rw [fget_none_iff]
  intro hk
  rcases flatten_key_split Q pre hg hpre K hk with ⟨k2, rest, hmem, hsp⟩
  exact h k2 rest hsp hmem

/-- The value `flatten_dict` records at the dotted path `probe ++ [k]`:
present exactly when the path descends through dicts to a non-dict leaf. -/
def leafProbe (q : VDict) (k : String) : Option Val :=
  match vdictLookup q k with
  | some (.dict _) => none
  | some v => some (flatLeaf v)
  | none => none

def fgSpec (Q : VDict) (probe : List String) (k : String) : Option Val :=
  match descend Q probe with
  | some q => leafProbe q k
  | none => none

theorem leafProbe_nondict (q : VDict) (k : String) (v : Val)
    (hv : v.isPyDict = false) (hl : vdictLookup q k = some v) :
    leafProbe q k = some (flatLeaf v) := by
  unfold leafProbe
  rw [hl]
  cases v with
  | dict sub => simp [Val.isPyDict] at hv
  | null => rfl
  | bool b => rfl
  | int n => rfl
  | str s => rfl
  | list l => rfl

theorem leafProbe_cons_ne (k2 : String) (v : Val) (tl : VDict) (k : String)
    (h : ¬ k2 = k) :
    leafProbe (VDict.cons k2 v tl) k = leafProbe tl k := by
  unfold leafProbe
  rw [show vdictLookup (VDict.cons k2 v tl) k = vdictLookup tl k from by
    simp [vdictLookup, h]]

theorem descend_cons_ne (k2 : String) (v : Val) (tl : VDict) (s : String)
    (r : List String) (h : ¬ k2 = s) :
    descend (VDict.cons k2 v tl) (s :: r) = descend tl (s :: r) := by
  show (match vdictLookup (VDict.cons k2 v tl) s with
    | some (Val.dict sub) => descend sub r
    | _ => none) =
    (match vdictLookup tl s with
    | some (Val.dict sub) => descend sub r
    | _ => none)
  rw [show vdictLookup (VDict.cons k2 v tl) s = vdictLookup tl s from by
    simp [vdictLookup, h]]

theorem descend_cons_dict_self (k2 : String) (sub tl : VDict)
    (r : List String) :
    descend (VDict.cons k2 (.dict sub) tl) (k2 :: r) = descend sub r := by
  show (match vdictLookup (VDict.cons k2 (.dict sub) tl) k2 with
    | some (Val.dict sub) => descend sub r
    | _ => none) = descend sub r
  rw [show vdictLookup (VDict.cons k2 (Val.dict sub) tl) k2 =
    some (Val.dict sub) from by simp [vdictLookup]]

theorem descend_cons_nondict_self (k2 : String) (v : Val) (tl : VDict)
    (r : List String) (hv : v.isPyDict = false) :
    descend (VDict.cons k2 v tl) (k2 :: r) = none := by
  show (match vdictLookup (VDict.cons k2 v tl) k2 with
    | some (Val.dict sub) => descend sub r
    | _ => none) = none
  rw [show vdictLookup (VDict.cons k2 v tl) k2 = some v from by
    simp [vdictLookup]]
  cases v with
  | dict sub => simp [Val.isPyDict] at hv
  | null => rfl
  | bool b => rfl
  | int n => rfl
  | str s => rfl
  | list l => rfl

theorem fgSpec_cons_ne (k2 : String) (v : Val) (tl : VDict) (s : String)
    (r : List String) (k : String) (h : ¬ k2 = s) :
    fgSpec (VDict.cons k2 v tl) (s :: r) k = fgSpec tl (s :: r) k := by
  unfold fgSpec
  rw [descend_cons_ne k2 v tl s r h]

theorem fget_flatten_key : ∀ (Q : VDict) (pre probe : List String)
    (k K : String), goodDict Q = true → goodSegs pre = true →
    splitDot K = pre ++ probe ++ [k] →
    fget (flattenGo (joinDot pre) [] Q) K = fgSpec Q probe k
  | .nil, pre, probe, k, K, _, _, _ => by
    cases probe with
    | nil => rfl
    | cons s r => rfl
  | .cons k2 v tl, pre, probe, k, K, hg, hpre, hsp => by
    obtain ⟨hk2, hfreshtl, hv, htl⟩ := goodDict_cons k2 v tl hg
    have hPk2 : goodSegs (pre ++ [k2]) = true := by
      rw [goodSegs_append, Bool.and_eq_true]
      exact ⟨hpre, by simp [goodSegs, hk2]⟩
    by_cases hvd : v.isPyDict = true
    · obtain ⟨sub, rfl⟩ := isPyDict_dict v hvd
      rw [flatten_cons_dict_append pre k2 sub tl hpre hk2
        (goodVal_dict sub hv) htl hfreshtl]
      rw [fget_append]
      cases probe with
      | nil =>
        have hbn : fget (flattenGo (joinDot (pre ++ [k2])) [] sub) K = none := by
          apply fget_flatten_none sub (pre ++ [k2]) K (goodVal_dict sub hv) hPk2
          intro k3 rest3 hsp3
          rw [hsp] at hsp3
          simp only [List.append_assoc, List.nil_append, List.cons_append,
            List.singleton_append] at hsp3
          have h4 := List.append_cancel_left hsp3
          simp at h4
        rw [hbn]
        by_cases h2 : k2 = k
        · subst h2
          have hrn : fget (flattenGo (joinDot pre) [] tl) K = none := by
            apply fget_flatten_none tl pre K htl hpre
            intro k3 rest3 hsp3
            rw [hsp] at hsp3
            simp only [List.append_assoc, List.nil_append] at hsp3
            have h4 := List.append_cancel_left hsp3
            simp only [List.cons.injEq] at h4
            rw [← h4.1]
            exact not_mem_dkeys_of_not_has tl k2 hfreshtl
          have hr : fgSpec (VDict.cons k2 (Val.dict sub) tl) [] k2 = none := by
            show leafProbe (VDict.cons k2 (Val.dict sub) tl) k2 = none
            unfold leafProbe
            rw [show vdictLookup (VDict.cons k2 (Val.dict sub) tl) k2 =
              some (Val.dict sub) from by simp [vdictLookup]]
          rw [hr]
          exact hrn
        · have hr : fgSpec (VDict.cons k2 (Val.dict sub) tl) [] k =
              fgSpec tl [] k := by
            show leafProbe (VDict.cons k2 (Val.dict sub) tl) k = leafProbe tl k
            exact leafProbe_cons_ne k2 (Val.dict sub) tl k h2
          rw [hr]
          exact fget_flatten_key tl pre [] k K htl hpre hsp
      | cons s probe' =>
        by_cases hs : s = k2
        · subst hs
          have hsp2 : splitDot K = (pre ++ [s]) ++ probe' ++ [k] := by
            rw [hsp]; simp
          have hIH := fget_flatten_key sub (pre ++ [s]) probe' k K
            (goodVal_dict sub hv) hPk2 hsp2
          rw [hIH]
          have hrn : fget (flattenGo (joinDot pre) [] tl) K = none := by
            apply fget_flatten_none tl pre K htl hpre
            intro k3 rest3 hsp3
            rw [hsp] at hsp3
            simp only [List.append_assoc, List.nil_append, List.cons_append,
              List.singleton_append] at hsp3
            have h4 := List.append_cancel_left hsp3
            simp only [List.cons.injEq] at h4
            rw [← h4.1]
            exact not_mem_dkeys_of_not_has tl s hfreshtl
          have hr : fgSpec (VDict.cons s (Val.dict sub) tl) (s :: probe') k =
              fgSpec sub probe' k := by
            unfold fgSpec
            rw [descend_cons_dict_self s sub tl probe']
          rw [hr]
          cases hfs : fgSpec sub probe' k with
          | some w => rfl
          | none => exact hrn
        · have hbn : fget (flattenGo (joinDot (pre ++ [k2])) [] sub) K =
              none := by
            apply fget_flatten_none sub (pre ++ [k2]) K (goodVal_dict sub hv)
              hPk2
            intro k3 rest3 hsp3
            rw [hsp] at hsp3
            simp only [List.append_assoc, List.nil_append, List.cons_append,
              List.singleton_append] at hsp3
            have h4 := List.append_cancel_left hsp3
            simp only [List.cons.injEq] at h4
            exact absurd h4.1 hs
          rw [hbn]
          have hr : fgSpec (VDict.cons k2 (Val.dict sub) tl) (s :: probe') k =
              fgSpec tl (s :: probe') k :=
            fgSpec_cons_ne k2 (Val.dict sub) tl s probe' k
              (fun he => hs he.symm)
          rw [hr]
          exact fget_flatten_key tl pre (s :: probe') k K htl hpre hsp
    · have hvf : v.isPyDict = false := by
        cases h0 : v.isPyDict with
        | true => exact absurd h0 hvd
        | false => rfl
      rw [flatten_cons_nondict_append pre k2 v tl hpre hk2 htl hfreshtl hvf]
      have hK0 : splitDot (joinDot (pre ++ [k2])) = pre ++ [k2] :=
        splitDot_joinDot (pre ++ [k2]) hPk2 (by simp)
      cases probe with
      | nil =>
        by_cases h2 : k2 = k
        · subst h2
          have hKK : joinDot (pre ++ [k2]) = K := by
            apply splitDot_inj
            rw [hK0, hsp]
            simp
          show (if joinDot (pre ++ [k2]) = K then some (flatLeaf v)
            else fget (flattenGo (joinDot pre) [] tl) K) = _
          rw [if_pos hKK]
          have hr : fgSpec (VDict.cons k2 v tl) [] k2 =
              some (flatLeaf v) := by
            show leafProbe (VDict.cons k2 v tl) k2 = some (flatLeaf v)
            exact leafProbe_nondict _ k2 v hvf (by simp [vdictLookup])
          rw [hr]
        · have hKK : ¬ joinDot (pre ++ [k2]) = K := by
            intro he
            have h3 : pre ++ [k2] = pre ++ [] ++ [k] := by
              rw [← hK0, he, hsp]
            simp only [List.append_assoc, List.nil_append] at h3
            have h4 := List.append_cancel_left h3
            simp only [List.cons.injEq] at h4
            exact h2 h4.1
          show (if joinDot (pre ++ [k2]) = K then some (flatLeaf v)
            else fget (flattenGo (joinDot pre) [] tl) K) = _
          rw [if_neg hKK]
          have hr : fgSpec (VDict.cons k2 v tl) [] k = fgSpec tl [] k := by
            show leafProbe (VDict.cons k2 v tl) k = leafProbe tl k
            exact leafProbe_cons_ne k2 v tl k h2
          rw [hr]
          exact fget_flatten_key tl pre [] k K htl hpre hsp
      | cons s probe' =>
        have hKK : ¬ joinDot (pre ++ [k2]) = K := by
          intro he
          have h3 : pre ++ [k2] = pre ++ (s :: probe') ++ [k] := by
            rw [← hK0, he, hsp]
          simp only [List.append_assoc, List.nil_append, List.cons_append,
            List.singleton_append] at h3
          have h4 := List.append_cancel_left h3
          simp only [List.cons.injEq] at h4
          exact absurd h4.2.symm (by simp)
        show (if joinDot (pre ++ [k2]) = K then some (flatLeaf v)
          else fget (flattenGo (joinDot pre) [] tl) K) = _
        rw [if_neg hKK]
        by_cases hs : s = k2
        · subst hs
          have hrn : fget (flattenGo (joinDot pre) [] tl) K = none := by
            apply fget_flatten_none tl pre K htl hpre
            intro k3 rest3 hsp3
            rw [hsp] at hsp3
            simp only [List.append_assoc, List.nil_append, List.cons_append,
              List.singleton_append] at hsp3
            have h4 := List.append_cancel_left hsp3
            simp only [List.cons.injEq] at h4
            rw [← h4.1]
            exact not_mem_dkeys_of_not_has tl s hfreshtl
          have hr : fgSpec (VDict.cons s v tl) (s :: probe') k = none := by
            unfold fgSpec
            rw [descend_cons_nondict_self s v tl probe' hvf]
          rw [hr]
          exact hrn
        · have hr : fgSpec (VDict.cons k2 v tl) (s :: probe') k =
              fgSpec tl (s :: probe') k :=
            fgSpec_cons_ne k2 v tl s probe' k (fun he => hs he.symm)
          rw [hr]
          exact fget_flatten_key tl pre (s :: probe') k K htl hpre hsp
termination_by Q => sizeOf Q

-- ---------------------------------------------------------------------------
-- The deep-override merge the claim describes, and the phase-1 override
-- image of the stored document.
-- ---------------------------------------------------------------------------

/- The deep-override merge of a document with a patch: patch entries
overwrite document entries at the same key, except that two dicts at the
same key merge recursively; new patch keys are appended in patch order. -/
mutual
def mergeVal : Val → Val → Val
  | .dict dsub, .dict psub => .dict (mergeGo dsub dsub psub)
  | _, pv => pv

def mergeGo : VDict → VDict → VDict → VDict
  | _, cur, .nil => cur
  | d0, cur, .cons k pv ptl =>
    mergeGo d0 (vdictSet cur k (match vdictLookup d0 k with
      | none => pv
      | some dv => mergeVal dv pv)) ptl
end

def mergeDict (d p : VDict) : VDict := mergeGo d d p

/- Merge compatibility: the patch never puts a dict where the document
already holds a non-dict value (the replay of such a patch raises
`AttributeError` in `_set_nested`). -/
mutual
def mergeCompatVal : Val → Val → Bool
  | .dict dsub, .dict psub => mergeCompatGo dsub psub
  | _, .dict _ => false
  | _, _ => true

def mergeCompatGo : VDict → VDict → Bool
  | _, .nil => true
  | d, .cons k pv ptl =>
    (match vdictLookup d k with
      | none => true
      | some dv => mergeCompatVal dv pv) && mergeCompatGo d ptl
end

/- The document after phase 1 of `data.update(patch)` + unflatten: each
leaf of the document whose dotted path carries a patch leaf is overwritten
in place; dict skeletons and unmatched leaves are untouched. -/
mutual
def ovVal : Val → Val → Val
  | .dict dsub, .dict psub => .dict (ovD dsub psub)
  | .dict dsub, _ => .dict dsub
  | dv, .dict _ => dv
  | _, pv => pv

def ovD : VDict → VDict → VDict
  | .nil, _ => .nil
  | .cons k dv dtl, q =>
    .cons k (match vdictLookup q k with
      | none => dv
      | some pv => ovVal dv pv) (ovD dtl q)
end

theorem ovD_cons (k : String) (dv : Val) (dtl q : VDict) :
    ovD (.cons k dv dtl) q =
      .cons k (match vdictLookup q k with
        | none => dv
        | some pv => ovVal dv pv) (ovD dtl q) := rfl

theorem dkeys_ovD : ∀ (d q : VDict), dkeys (ovD d q) = dkeys d
  | .nil, _ => rfl
  | .cons k dv dtl, q => by
    rw [ovD_cons]
    show k :: dkeys (ovD dtl q) = k :: dkeys dtl
    rw [dkeys_ovD dtl q]

theorem dhasKey_ovD : ∀ (d q : VDict) (k : String),
    dhasKey (ovD d q) k = dhasKey d k
  | .nil, _, _ => rfl
  | .cons k2 dv dtl, q, k => by
    rw [ovD_cons]
    show (k2 == k || dhasKey (ovD dtl q) k) = (k2 == k || dhasKey dtl k)
    rw [dhasKey_ovD dtl q k]

theorem ovD_ne_nil (d q : VDict) (h : d ≠ .nil) : ovD d q ≠ .nil := by
  cases d with
  | nil => exact absurd rfl h
  | cons k dv dtl => rw [ovD_cons]; simp

theorem vdictLookup_ovD : ∀ (d q : VDict) (k : String),
    vdictLookup (ovD d q) k =
      match vdictLookup d k with
      | none => none
      | some dv => some (match vdictLookup q k with
        | none => dv
        | some pv => ovVal dv pv)
  | .nil, _, _ => rfl
  | .cons k2 dv dtl, q, k => by
    rw [ovD_cons]
    by_cases h2 : k2 = k
    · subst h2
      show (if k2 = k2 then _ else _) = _
      rw [if_pos rfl]
      rw [show vdictLookup (VDict.cons k2 dv dtl) k2 = some dv from by
        simp [vdictLookup]]
    · show (if k2 = k then _ else _) = _
      rw [if_neg h2]
      rw [show vdictLookup (VDict.cons k2 dv dtl) k = vdictLookup dtl k from by
        simp [vdictLookup, h2]]
      exact vdictLookup_ovD dtl q k

theorem vdictLookup_ovD_skip (d q : VDict) (k : String)
    (hp : vdictLookup q k = none) :
    vdictLookup (ovD d q) k = vdictLookup d k := by
  rw [vdictLookup_ovD, hp]
  cases hd : vdictLookup d k with
  | none => rfl
  | some dv => rfl

theorem ovVal_dict_nondict (a : VDict) (pv : Val) (hv : pv.isPyDict = false) :
    ovVal (.dict a) pv = .dict a := by
  cases pv with
  | dict b => simp [Val.isPyDict] at hv
  | null => rfl
  | bool b => rfl
  | int n => rfl
  | str s => rfl
  | list l => rfl

theorem ovVal_nondict_dict (dv : Val) (b : VDict) (hd : dv.isPyDict = false) :
    ovVal dv (.dict b) = dv := by
  cases dv with
  | dict a => simp [Val.isPyDict] at hd
  | null => rfl
  | bool v => rfl
  | int n => rfl
  | str s => rfl
  | list l => rfl

theorem ovVal_nondict_nondict (dv pv : Val) (hd : dv.isPyDict = false)
    (hv : pv.isPyDict = false) : ovVal dv pv = pv := by
  cases pv with
  | dict b => simp [Val.isPyDict] at hv
  | null => cases dv with
    | dict a => simp [Val.isPyDict] at hd
    | null => rfl
    | bool v => rfl
    | int n => rfl
    | str s => rfl
    | list l => rfl
  | bool bb => cases dv with
    | dict a => simp [Val.isPyDict] at hd
    | null => rfl
    | bool v => rfl
    | int n => rfl
    | str s => rfl
    | list l => rfl
  | int nn => cases dv with
    | dict a => simp [Val.isPyDict] at hd
    | null => rfl
    | bool v => rfl
    | int n => rfl
    | str s => rfl
    | list l => rfl
  | str ss => cases dv with
    | dict a => simp [Val.isPyDict] at hd
    | null => rfl
    | bool v => rfl
    | int n => rfl
    | str s => rfl
    | list l => rfl
  | list ll => cases dv with
    | dict a => simp [Val.isPyDict] at hd
    | null => rfl
    | bool v => rfl
    | int n => rfl
    | str s => rfl
    | list l => rfl

theorem mergeVal_nondict (dv pv : Val) (hv : pv.isPyDict = false) :
    mergeVal dv pv = pv := by
  cases pv with
  | dict b => simp [Val.isPyDict] at hv
  | null => cases dv <;> rfl
  | bool bb => cases dv <;> rfl
  | int nn => cases dv <;> rfl
  | str ss => cases dv <;> rfl
  | list ll => cases dv <;> rfl

theorem mergeCompatVal_nondict_dict (dv : Val) (b : VDict)
    (hd : dv.isPyDict = false) : mergeCompatVal dv (.dict b) = false := by
  cases dv with
  | dict a => simp [Val.isPyDict] at hd
  | null => rfl
  | bool v => rfl
  | int n => rfl
  | str s => rfl
  | list l => rfl

theorem mergeCompatGo_cons (d : VDict) (k : String) (pv : Val) (ptl : VDict) :
    mergeCompatGo d (.cons k pv ptl) =
      ((match vdictLookup d k with
        | none => true
        | some dv => mergeCompatVal dv pv) && mergeCompatGo d ptl) := rfl

theorem mergeGo_cons (d0 cur : VDict) (k : String) (pv : Val) (ptl : VDict) :
    mergeGo d0 cur (.cons k pv ptl) =
      mergeGo d0 (vdictSet cur k (match vdictLookup d0 k with
        | none => pv
        | some dv => mergeVal dv pv)) ptl := rfl

theorem goodVal_dict_of (x : VDict) (hg : goodDict x = true) (hne : x ≠ .nil) :
    goodVal (.dict x) = true := by
  cases x with
  | nil => exact absurd rfl hne
  | cons k v tl => rw [goodVal]; exact hg

mutual

theorem ovD_good : ∀ (d q : VDict), goodDict d = true → goodDict q = true →
    goodDict (ovD d q) = true
  | .nil, _, _, _ => rfl
  | .cons k dv dtl, q, hgd, hgq => by
    obtain ⟨hk, hfresh, hdv, hdtl⟩ := goodDict_cons k dv dtl hgd
    rw [ovD_cons, goodDict]
    simp only [Bool.and_eq_true, Bool.not_eq_true']
    refine ⟨⟨⟨hk, ?_⟩, ?_⟩, ovD_good dtl q hdtl hgq⟩
    · rw [dhasKey_ovD dtl q k]; exact hfresh
    · cases hq : vdictLookup q k with
      | none => exact hdv
      | some pv => exact ovVal_good dv pv hdv (goodVal_of_lookup q k pv hgq hq)
  termination_by d => (sizeOf d, 0)

theorem ovVal_good : ∀ (dv pv : Val), goodVal dv = true → goodVal pv = true →
    goodVal (ovVal dv pv) = true
  | dv, pv, hdv, hpv => by
    by_cases hd : dv.isPyDict = true
    · obtain ⟨a, rfl⟩ := isPyDict_dict dv hd
      by_cases hp : pv.isPyDict = true
      · obtain ⟨b, rfl⟩ := isPyDict_dict pv hp
        show goodVal (.dict (ovD a b)) = true
        exact goodVal_dict_of (ovD a b)
          (ovD_good a b (goodVal_dict a hdv) (goodVal_dict b hpv))
          (ovD_ne_nil a b (goodVal_dict_ne_nil a hdv))
      · have hp2 : pv.isPyDict = false := by
          cases h0 : pv.isPyDict with
          | true => exact absurd h0 hp
          | false => rfl
        rw [ovVal_dict_nondict a pv hp2]
        exact hdv
    · have hd2 : dv.isPyDict = false := by
        cases h0 : dv.isPyDict with
        | true => exact absurd h0 hd
        | false => rfl
      by_cases hp : pv.isPyDict = true
      · obtain ⟨b, rfl⟩ := isPyDict_dict pv hp
        rw [ovVal_nondict_dict dv b hd2]
        exact hdv
      · have hp2 : pv.isPyDict = false := by
          cases h0 : pv.isPyDict with
          | true => exact absurd h0 hp
          | false => rfl
        rw [ovVal_nondict_nondict dv pv hd2 hp2]
        exact hpv
  termination_by dv => (sizeOf dv, 1)

end

-- ---------------------------------------------------------------------------
-- Merging from the phase-1 image equals merging from the original document.
-- ---------------------------------------------------------------------------

theorem dkeys_vdictSet : ∀ (c : VDict) (k : String) (v : Val),
    dkeys (vdictSet c k v) =
      if dhasKey c k then dkeys c else dkeys c ++ [k]
  | .nil, k, v => by simp [vdictSet, dkeys, dhasKey]
  | .cons k2 v2 tl, k, v => by
    by_cases h2 : k2 = k
    · subst h2
      simp [vdictSet, dkeys, dhasKey]
    · simp only [vdictSet, h2, ite_false, if_false, dkeys, dhasKey]
      rw [dkeys_vdictSet tl k v]
      have hne : (k2 == k) = false := by simp [h2]
      rw [hne]
      by_cases hh : dhasKey tl k
      · simp [hh]
      · simp only [Bool.false_or]
        rw [if_neg hh, if_neg hh]
        rfl

theorem dhasKey_congr (c1 c2 : VDict) (k : String)
    (h : dkeys c1 = dkeys c2) : dhasKey c1 k = dhasKey c2 k := by
  cases h1 : dhasKey c1 k with
  | true =>
    have hm := (dhasKey_eq_mem c1 k).mp h1
    rw [h] at hm
    exact ((dhasKey_eq_mem c2 k).mpr hm).symm
  | false =>
    cases h2 : dhasKey c2 k with
    | false => rfl
    | true =>
      have hm := (dhasKey_eq_mem c2 k).mp h2
      rw [← h] at hm
      rw [(dhasKey_eq_mem c1 k).mpr hm] at h1
      exact absurd h1 (by simp)

theorem nodup_dkeys_vdictSet (c : VDict) (k : String) (v : Val)
    (h : (dkeys c).Nodup) : (dkeys (vdictSet c k v)).Nodup := by
  rw [dkeys_vdictSet]
  cases hh : dhasKey c k with
  | true => simpa using h
  | false =>
    simp only [Bool.false_eq_true, if_false]
    rw [List.nodup_append]
    refine ⟨h, List.nodup_singleton k, ?_⟩
    have hk : k ∉ dkeys c := not_mem_dkeys_of_not_has c k hh
    simp [List.disjoint_singleton, hk]

theorem vdict_ext : ∀ (c1 c2 : VDict), dkeys c1 = dkeys c2 →
    (dkeys c1).Nodup → (∀ k, vdictLookup c1 k = vdictLookup c2 k) → c1 = c2
  | .nil, c2, hk, _, _ => by
    cases c2 with
    | nil => rfl
    | cons k v tl => simp [dkeys] at hk
  | .cons k v tl, c2, hk, hnd, hl => by
    cases c2 with
    | nil => simp [dkeys] at hk
    | cons k2 v2 tl2 =>
      simp only [dkeys, List.cons.injEq] at hk
      obtain ⟨hkk, htk⟩ := hk
      subst hkk
      have hv : v = v2 := by
        have h1 := hl k
        simp only [vdictLookup, ite_true, if_true, Option.some_inj] at h1
        exact h1
      subst hv
      simp only [List.nodup_cons, dkeys] at hnd
      have htl : tl = tl2 := by
        apply vdict_ext tl tl2 htk hnd.2
        intro k3
        by_cases h3 : k = k3
        · subst h3
          rw [vdictLookup_none_of_not_has tl k, vdictLookup_none_of_not_has tl2 k]
          · cases hh : dhasKey tl2 k with
            | false => rfl
            | true =>
              have hm := (dhasKey_eq_mem tl2 k).mp hh
              rw [← htk] at hm
              exact absurd hm hnd.1
          · cases hh : dhasKey tl k with
            | false => rfl
            | true =>
              exact absurd ((dhasKey_eq_mem tl k).mp hh) hnd.1
        · have h1 := hl k3
          simp only [vdictLookup, h3, ite_false, if_false] at h1
          exact h1
      rw [htl]

theorem mergeGo_congr : ∀ (p : VDict) (d0 c1 c2 : VDict),
    dkeys c1 = dkeys c2 → (dkeys c1).Nodup →
    (∀ k2, vdictLookup c1 k2 ≠ vdictLookup c2 k2 → k2 ∈ dkeys p) →
    mergeGo d0 c1 p = mergeGo d0 c2 p
  | .nil, d0, c1, c2, hk, hnd, hdif => by
    show c1 = c2
    apply vdict_ext c1 c2 hk hnd
    intro k
    by_contra hne
    exact absurd (hdif k hne) (by simp [dkeys])
  | .cons k pv ptl, d0, c1, c2, hk, hnd, hdif => by
    rw [mergeGo_cons, mergeGo_cons]
    apply mergeGo_congr ptl d0
    · rw [dkeys_vdictSet, dkeys_vdictSet, hk, dhasKey_congr c1 c2 k hk]
    · exact nodup_dkeys_vdictSet c1 k _ hnd
    · intro k2 hne2
      by_cases h2 : k = k2
      · subst h2
        rw [vdictLookup_vdictSet_self, vdictLookup_vdictSet_self] at hne2
        exact absurd rfl hne2
      · rw [vdictLookup_vdictSet_ne c1 k k2 _ h2,
          vdictLookup_vdictSet_ne c2 k k2 _ h2] at hne2
        have hm := hdif k2 hne2
        simp only [dkeys, List.mem_cons] at hm
        rcases hm with hm | hm
        · exact absurd hm.symm h2
        · exact hm

theorem goodDict_nodup : ∀ (d : VDict), goodDict d = true → (dkeys d).Nodup
  | .nil, _ => List.nodup_nil
  | .cons k v tl, hg => by
    obtain ⟨_, hfresh, _, htl⟩ := goodDict_cons k v tl hg
    rw [dkeys, List.nodup_cons]
    exact ⟨not_mem_dkeys_of_not_has tl k hfresh, goodDict_nodup tl htl⟩

/-- Phase 2 may start from the override image: merging into `ovD d p`
gives the same result as merging into `d` itself. -/
theorem mergeGo_ovD (d p : VDict) (hnd : (dkeys d).Nodup) :
    mergeGo d (ovD d p) p = mergeGo d d p := by
  apply mergeGo_congr p d (ovD d p) d (dkeys_ovD d p)
  · rw [dkeys_ovD d p]; exact hnd
  · intro k2 hne
    cases hp : vdictLookup p k2 with
    | none =>
      rw [vdictLookup_ovD_skip d p k2 hp] at hne
      exact absurd rfl hne
    | some pv => exact mem_dkeys_of_lookup p k2 pv hp

-- ---------------------------------------------------------------------------
-- Phase 1: overriding the flattened document by the flattened patch is the
-- flatten of the leaf-override image `ovD`.
-- ---------------------------------------------------------------------------

theorem ovList_cons (a : String) (b : Val) (r d2 : FlatDict) :
    ovList ((a, b) :: r) d2 = (a, (fget d2 a).getD b) :: ovList r d2 := rfl

theorem descend_single_nondict (q : VDict) (k : String) (pv : Val)
    (hq : vdictLookup q k = some pv) (hp : pv.isPyDict = false) :
    descend q [k] = none := by
  show (match vdictLookup q k with
    | some (Val.dict sub) => descend sub []
    | _ => none) = none
  rw [hq]
  cases pv with
  | dict b => simp [Val.isPyDict] at hp
  | null => rfl
  | bool v => rfl
  | int n => rfl
  | str s => rfl
  | list l => rfl

theorem descend_single_dict (q : VDict) (k : String) (psub : VDict)
    (hq : vdictLookup q k = some (.dict psub)) :
    descend q [k] = some psub := by
  show (match vdictLookup q k with
    | some (Val.dict sub) => descend sub []
    | _ => none) = some psub
  rw [hq]
  rfl

theorem descend_single_none (q : VDict) (k : String)
    (hq : vdictLookup q k = none) : descend q [k] = none := by
  show (match vdictLookup q k with
    | some (Val.dict sub) => descend sub []
    | _ => none) = none
  rw [hq]

theorem ovList_flatten_skip (Dd Pp : VDict) (pre : List String)
    (hgD : goodDict Dd = true) (hgP : goodDict Pp = true)
    (hpre : goodSegs pre = true) (hnone : descend Pp pre = none) :
    ovList (flattenGo (joinDot pre) [] Dd) (flatten_dict Pp) =
      flattenGo (joinDot pre) [] Dd := by
  apply ovList_id_of_none
  intro kv hkv
  have hmem : kv.1 ∈ akeys (flattenGo (joinDot pre) [] Dd) :=
    List.mem_map_of_mem (·.1) hkv
  rcases flatten_key_split Dd pre hgD hpre kv.1 hmem with ⟨k2, rest, _, hsp⟩
  have hne : (k2 :: rest) ≠ [] := by simp
  have hdec := List.dropLast_append_getLast hne
  have hsp2 : splitDot kv.1 =
      [] ++ (pre ++ (k2 :: rest).dropLast) ++ [(k2 :: rest).getLast hne] := by
    rw [List.nil_append, List.append_assoc, hdec]
    exact hsp
  have hfk := fget_flatten_key Pp [] (pre ++ (k2 :: rest).dropLast)
    ((k2 :: rest).getLast hne) kv.1 hgP rfl hsp2
  show fget (flatten_dict Pp) kv.1 = none
  rw [show flatten_dict Pp = flattenGo (joinDot []) [] Pp from rfl, hfk]
  unfold fgSpec
  rw [descend_append pre Pp _, hnone]

theorem ovList_flatten : ∀ (Dd : VDict) (Pp Q : VDict) (pre : List String),
    goodDict Dd = true → goodDict Pp = true → goodSegs pre = true →
    descend Pp pre = some Q →
    ovList (flattenGo (joinDot pre) [] Dd) (flatten_dict Pp) =
      flattenGo (joinDot pre) [] (ovD Dd Q)
  | .nil, Pp, Q, pre, _, _, _, _ => rfl
  | .cons k dv dtl, Pp, Q, pre, hgD, hgP, hpre, hdesc => by
    obtain ⟨hk, hfresh, hdv, hdtl⟩ := goodDict_cons k dv dtl hgD
    have hQg : goodDict Q = true := descend_good pre Pp Q hgP hdesc
    have hPk : goodSegs (pre ++ [k]) = true := by
      rw [goodSegs_append, Bool.and_eq_true]
      exact ⟨hpre, by simp [goodSegs, hk]⟩
    have hfreshOv : dhasKey (ovD dtl Q) k = false := by
      rw [dhasKey_ovD dtl Q k]; exact hfresh
    have hgOv : goodDict (ovD dtl Q) = true := ovD_good dtl Q hdtl hQg
    by_cases hd : dv.isPyDict = true
    · obtain ⟨dsub, rfl⟩ := isPyDict_dict dv hd
      rw [flatten_cons_dict_append pre k dsub dtl hpre hk
        (goodVal_dict dsub hdv) hdtl hfresh]
      rw [ovList_append]
      rw [ovD_cons]
      cases hq : vdictLookup Q k with
      | none =>
        have hd2 : descend Pp (pre ++ [k]) = none := by
          rw [descend_append pre Pp [k], hdesc]
          exact descend_single_none Q k hq
        rw [ovList_flatten_skip dsub Pp (pre ++ [k])
          (goodVal_dict dsub hdv) hgP hPk hd2]
        rw [ovList_flatten dtl Pp Q pre hdtl hgP hpre hdesc]
        rw [flatten_cons_dict_append pre k dsub (ovD dtl Q) hpre hk
          (goodVal_dict dsub hdv) hgOv hfreshOv]
      | some pv =>
        by_cases hp : pv.isPyDict = true
        · obtain ⟨psub, rfl⟩ := isPyDict_dict pv hp
          have hpsub : goodDict psub = true :=
            goodVal_dict psub (goodVal_of_lookup Q k (.dict psub) hQg hq)
          have hd2 : descend Pp (pre ++ [k]) = some psub := by
            rw [descend_append pre Pp [k], hdesc]
            exact descend_single_dict Q k psub hq
          rw [ovList_flatten dsub Pp psub (pre ++ [k])
            (goodVal_dict dsub hdv) hgP hPk hd2]
          rw [ovList_flatten dtl Pp Q pre hdtl hgP hpre hdesc]
          show _ = flattenGo (joinDot pre) []
            (.cons k (.dict (ovD dsub psub)) (ovD dtl Q))
          rw [flatten_cons_dict_append pre k (ovD dsub psub) (ovD dtl Q)
            hpre hk
            (ovD_good dsub psub (goodVal_dict dsub hdv) hpsub) hgOv hfreshOv]
        · have hp2 : pv.isPyDict = false := by
            cases h0 : pv.isPyDict with
            | true => exact absurd h0 hp
            | false => rfl
          have hd2 : descend Pp (pre ++ [k]) = none := by
            rw [descend_append pre Pp [k], hdesc]
            exact descend_single_nondict Q k pv hq hp2
          rw [ovList_flatten_skip dsub Pp (pre ++ [k])
            (goodVal_dict dsub hdv) hgP hPk hd2]
          rw [ovList_flatten dtl Pp Q pre hdtl hgP hpre hdesc]
          dsimp only []
          rw [ovVal_dict_nondict dsub pv hp2]
          rw [flatten_cons_dict_append pre k dsub (ovD dtl Q) hpre hk
            (goodVal_dict dsub hdv) hgOv hfreshOv]
    · have hd2 : dv.isPyDict = false := by
        cases h0 : dv.isPyDict with
        | true => exact absurd h0 hd
        | false => rfl
      rw [flatten_cons_nondict_append pre k dv dtl hpre hk hdtl hfresh hd2]
      rw [ovList_cons]
      have hsp0 : splitDot (joinDot (pre ++ [k])) = [] ++ pre ++ [k] := by
        rw [List.nil_append]
        exact splitDot_joinDot (pre ++ [k]) hPk (by simp)
      have hfk := fget_flatten_key Pp [] pre k (joinDot (pre ++ [k]))
        hgP rfl hsp0
      have hfk2 : fget (flatten_dict Pp) (joinDot (pre ++ [k])) =
          leafProbe Q k := by
        rw [show flatten_dict Pp = flattenGo (joinDot []) [] Pp from rfl, hfk]
        unfold fgSpec
        rw [hdesc]
      rw [hfk2]
      rw [ovD_cons]
      rw [ovList_flatten dtl Pp Q pre hdtl hgP hpre hdesc]
      cases hq : vdictLookup Q k with
      | none =>
        rw [show leafProbe Q k = none from by unfold leafProbe; rw [hq]]
        dsimp only []
        rw [flatten_cons_nondict_append pre k dv (ovD dtl Q) hpre hk
          hgOv hfreshOv hd2]
        rfl
      | some pv =>
        by_cases hp : pv.isPyDict = true
        · obtain ⟨psub, rfl⟩ := isPyDict_dict pv hp
          rw [show leafProbe Q k = none from by unfold leafProbe; rw [hq]]
          dsimp only []
          rw [ovVal_nondict_dict dv psub hd2]
          rw [flatten_cons_nondict_append pre k dv (ovD dtl Q) hpre hk
            hgOv hfreshOv hd2]
          rfl
        · have hp2 : pv.isPyDict = false := by
            cases h0 : pv.isPyDict with
            | true => exact absurd h0 hp
            | false => rfl
          rw [leafProbe_nondict Q k pv hp2 hq]
          dsimp only []
          rw [ovVal_nondict_nondict dv pv hd2 hp2]
          rw [flatten_cons_nondict_append pre k pv (ovD dtl Q) hpre hk
            hgOv hfreshOv hp2]
          rfl
termination_by Dd => sizeOf Dd

-- ---------------------------------------------------------------------------
-- Phase 2: replaying the new flat keys merges the patch into the override
-- image.
-- ---------------------------------------------------------------------------

theorem newList_split (d1 a b : FlatDict) :
    newList d1 (a ++ b) = newList d1 a ++ newList d1 b := by
  unfold newList
  exact List.filter_append a b

theorem newList_keep (d1 block : FlatDict)
    (h : ∀ kv ∈ block, fget d1 kv.1 = none) : newList d1 block = block := by
  unfold newList
  apply List.filter_eq_self.mpr
  intro kv hkv
  rw [h kv hkv]
  rfl

/-- Every key flattened under a prefix the document cannot descend to is
absent from the flattened document. -/
theorem block_new_none (Dd psub : VDict) (pre2 : List String)
    (hgD : goodDict Dd = true) (hgp : goodDict psub = true)
    (hpre2 : goodSegs pre2 = true) (hnone : descend Dd pre2 = none) :
    ∀ kv ∈ flattenGo (joinDot pre2) [] psub,
      fget (flatten_dict Dd) kv.1 = none := by
  intro kv hkv
  have hmem : kv.1 ∈ akeys (flattenGo (joinDot pre2) [] psub) :=
    List.mem_map_of_mem (·.1) hkv
  rcases flatten_key_split psub pre2 hgp hpre2 kv.1 hmem with ⟨k2, rest, _, hsp⟩
  have hne : (k2 :: rest) ≠ [] := by simp
  have hdec := List.dropLast_append_getLast hne
  have hsp2 : splitDot kv.1 =
      [] ++ (pre2 ++ (k2 :: rest).dropLast) ++ [(k2 :: rest).getLast hne] := by
    rw [List.nil_append, List.append_assoc, hdec]
    exact hsp
  rw [show flatten_dict Dd = flattenGo (joinDot []) [] Dd from rfl]
  rw [fget_flatten_key Dd [] (pre2 ++ (k2 :: rest).dropLast)
    ((k2 :: rest).getLast hne) kv.1 hgD rfl hsp2]
  unfold fgSpec
  rw [descend_append pre2 Dd _, hnone]

/-- Replaying one new flat leaf entry writes the leaf at its path; the
top-level (`segs = []`) write is a plain key assignment. -/
theorem unflatten_entry_any (segs : List String) (k : String)
    (out cur : VDict) (v : Val) (hsegs : goodSegs segs = true)
    (hk : goodKeyB k = true)
    (hout : descend out segs = some cur)
    (hleaf : unflattenItem (flatLeaf v) = .ok v) :
    unflattenGo out (toVDict [(joinDot (segs ++ [k]), flatLeaf v)]) =
      .ok (setEff out segs (vdictSet cur k v)) := by
  cases segs with
  | nil =>
    have hco : out = cur := by
      have h2 : some out = some cur := hout
      exact Option.some_inj.mp h2
    subst hco
    show unflattenGo out (.cons (joinDot [k]) (flatLeaf v) .nil) = _
    simp only [unflattenGo, hleaf]
    rw [show joinDot [k] = k from rfl]
    rw [splitDot_good k hk]
    show (match (Except.ok (vdictSet out k v) : Except String VDict) with
      | Except.error e => Except.error e
      | Except.ok out2 => unflattenGo out2 .nil) = _
    rfl
  | cons s ss =>
    exact unflatten_single_entry (s :: ss) k out cur v hsegs hk (by simp)
      (descend_to_effAt (s :: ss) out cur hout) hleaf

/-- Shifting the override-image lookup hypothesis past a processed head
entry of the patch. -/
theorem hcur_shift (dsub cur : VDict) (k : String) (pv X : Val) (ptl : VDict)
    (hfreshtl : dhasKey ptl k = false)
    (hcur : ∀ k2 pv2, vdictLookup (VDict.cons k pv ptl) k2 = some pv2 →
      vdictLookup cur k2 = match vdictLookup dsub k2 with
        | none => none
        | some dv => some (ovVal dv pv2)) :
    ∀ k2 pv2, vdictLookup ptl k2 = some pv2 →
      vdictLookup (vdictSet cur k X) k2 = match vdictLookup dsub k2 with
        | none => none
        | some dv => some (ovVal dv pv2) := by
  intro k2 pv2 hl2
  have hk2ne : ¬ k = k2 := by
    intro he
    subst he
    rw [vdictLookup_none_of_not_has ptl k hfreshtl] at hl2
    exact absurd hl2 (by simp)
  rw [vdictLookup_vdictSet_ne cur k k2 X hk2ne]
  apply hcur k2 pv2
  rw [show vdictLookup (VDict.cons k pv ptl) k2 = vdictLookup ptl k2 from by
    simp [vdictLookup, hk2ne]]
  exact hl2

theorem hcur_tail (dsub cur : VDict) (k : String) (pv : Val) (ptl : VDict)
    (hfreshtl : dhasKey ptl k = false)
    (hcur : ∀ k2 pv2, vdictLookup (VDict.cons k pv ptl) k2 = some pv2 →
      vdictLookup cur k2 = match vdictLookup dsub k2 with
        | none => none
        | some dv => some (ovVal dv pv2)) :
    ∀ k2 pv2, vdictLookup ptl k2 = some pv2 →
      vdictLookup cur k2 = match vdictLookup dsub k2 with
        | none => none
        | some dv => some (ovVal dv pv2) := by
  intro k2 pv2 hl2
  have hk2ne : ¬ k = k2 := by
    intro he
    subst he
    rw [vdictLookup_none_of_not_has ptl k hfreshtl] at hl2
    exact absurd hl2 (by simp)
  apply hcur k2 pv2
  rw [show vdictLookup (VDict.cons k pv ptl) k2 = vdictLookup ptl k2 from by
    simp [vdictLookup, hk2ne]]
  exact hl2

/-- Phase 2 of the all-`$set` mutation: replaying the flat patch entries
whose keys are new to the flattened document merges the patch group at
`segs` into the override image sitting there. -/
theorem merge_go : ∀ (p : VDict) (Dd dsub : VDict) (segs : List String)
    (out cur : VDict),
    goodDict Dd = true → goodDict p = true → goodSegs segs = true →
    descend Dd segs = some dsub →
    mergeCompatGo dsub p = true →
    descend out segs = some cur →
    (∀ k pv, vdictLookup p k = some pv →
      vdictLookup cur k = match vdictLookup dsub k with
        | none => none
        | some dv => some (ovVal dv pv)) →
    unflattenGo out (toVDict (newList (flatten_dict Dd)
        (flattenGo (joinDot segs) [] p))) =
      .ok (setEff out segs (mergeGo dsub cur p))
  | .nil, Dd, dsub, segs, out, cur, _, _, _, _, _, hout, _ => by
    have h1 : unflattenGo out (toVDict (newList (flatten_dict Dd)
        (flattenGo (joinDot segs) [] .nil))) = .ok out := rfl
    rw [h1, show mergeGo dsub cur VDict.nil = cur from rfl,
      setEff_id segs out cur hout]
  | .cons k pv ptl, Dd, dsub, segs, out, cur, hgD, hg, hsegs, hdesc, hcomp,
      hout, hcur => by
    obtain ⟨hk, hfreshtl, hpv, htl⟩ := goodDict_cons k pv ptl hg
    have hPk : goodSegs (segs ++ [k]) = true := by
      rw [goodSegs_append, Bool.and_eq_true]
      exact ⟨hsegs, by simp [goodSegs, hk]⟩
    have heffout : effAt out segs = some cur := descend_to_effAt segs out cur hout
    have hcurk := hcur k pv (by simp [vdictLookup])
    have hcomp2 : (match vdictLookup dsub k with
        | none => true
        | some dv => mergeCompatVal dv pv) = true ∧
        mergeCompatGo dsub ptl = true := by
      rw [mergeCompatGo_cons, Bool.and_eq_true] at hcomp
      exact hcomp
    rw [mergeGo_cons]
    by_cases hpd : pv.isPyDict = true
    · obtain ⟨psub, rfl⟩ := isPyDict_dict pv hpd
      rw [flatten_cons_dict_append segs k psub ptl hsegs hk
        (goodVal_dict psub hpv) htl hfreshtl]
      rw [newList_split, toVDict_append, unflattenGo_vdcat]
      cases hdv : vdictLookup dsub k with
      | none =>
        have hd2 : descend Dd (segs ++ [k]) = none := by
          rw [descend_append segs Dd [k], hdesc]
          exact descend_single_none dsub k hdv
        rw [newList_keep _ _ (block_new_none Dd psub (segs ++ [k]) hgD
          (goodVal_dict psub hpv) hPk hd2)]
        have hcn : vdictLookup cur k = none := by
          rw [hdv] at hcurk
          exact hcurk
        have heff2 : effAt out (segs ++ [k]) = some .nil := by
          rw [effAt_append segs out cur [k] heffout]
          rw [effAt, hcn]
        rw [group_go psub (segs ++ [k]) out .nil (goodVal_dict psub hpv)
          (goodVal_dict_ne_nil psub hpv) hPk (by simp) heff2 (fun k2 _ => rfl)]
        rw [except_bind_ok]
        rw [show vdcat VDict.nil psub = psub from rfl]
        rw [setEff_append segs out cur [k] psub heffout, setEff_single]
        rw [merge_go ptl Dd dsub segs
          (setEff out segs (vdictSet cur k (.dict psub)))
          (vdictSet cur k (.dict psub)) hgD htl hsegs hdesc hcomp2.2
          (descend_setEff segs out cur _ hout)
          (hcur_shift dsub cur k (.dict psub) (.dict psub) ptl hfreshtl hcur)]
        rw [setEff_setEff]
      | some dv =>
        have hcompv : mergeCompatVal dv (.dict psub) = true := by
          have h2 := hcomp2.1
          rw [hdv] at h2
          exact h2
        by_cases hdvd : dv.isPyDict = true
        · obtain ⟨dsubb, rfl⟩ := isPyDict_dict dv hdvd
          have hcompGo : mergeCompatGo dsubb psub = true := hcompv
          have hd2 : descend Dd (segs ++ [k]) = some dsubb := by
            rw [descend_append segs Dd [k], hdesc]
            exact descend_single_dict dsub k dsubb hdv
          have hgdsubb : goodDict dsubb = true :=
            goodVal_dict dsubb (goodVal_of_lookup dsub k (.dict dsubb)
              (descend_good segs Dd dsub hgD hdesc) hdv)
          have hcurk2 : vdictLookup cur k = some (.dict (ovD dsubb psub)) := by
            rw [hdv] at hcurk
            exact hcurk
          have hout2 : descend out (segs ++ [k]) = some (ovD dsubb psub) := by
            rw [descend_append segs out [k], hout]
            exact descend_single_dict cur k (ovD dsubb psub) hcurk2
          have hcsub : ∀ k2 pv2, vdictLookup psub k2 = some pv2 →
              vdictLookup (ovD dsubb psub) k2 =
                match vdictLookup dsubb k2 with
                | none => none
                | some dv2 => some (ovVal dv2 pv2) := by
            intro k2 pv2 hl2
            rw [vdictLookup_ovD dsubb psub k2]
            cases hdd : vdictLookup dsubb k2 with
            | none => rfl
            | some dv2 => rw [hl2]
          rw [merge_go psub Dd dsubb (segs ++ [k]) out (ovD dsubb psub) hgD
            (goodVal_dict psub hpv) hPk hd2 hcompGo hout2 hcsub]
          rw [except_bind_ok]
          rw [setEff_append segs out cur [k] _ heffout, setEff_single]
          rw [merge_go ptl Dd dsub segs
            (setEff out segs (vdictSet cur k
              (.dict (mergeGo dsubb (ovD dsubb psub) psub))))
            (vdictSet cur k (.dict (mergeGo dsubb (ovD dsubb psub) psub)))
            hgD htl hsegs hdesc hcomp2.2
            (descend_setEff segs out cur _ hout)
            (hcur_shift dsub cur k (.dict psub) _ ptl hfreshtl hcur)]
          rw [setEff_setEff]
          dsimp only []
          rw [show mergeVal (.dict dsubb) (.dict psub) =
            .dict (mergeGo dsubb dsubb psub) from rfl]
          rw [mergeGo_ovD dsubb psub (goodDict_nodup dsubb hgdsubb)]
        · have hdvnd : dv.isPyDict = false := by
            cases h0 : dv.isPyDict with
            | true => exact absurd h0 hdvd
            | false => rfl
          rw [mergeCompatVal_nondict_dict dv psub hdvnd] at hcompv
          exact absurd hcompv (by simp)
    · have hpnd : pv.isPyDict = false := by
        cases h0 : pv.isPyDict with
        | true => exact absurd h0 hpd
        | false => rfl
      rw [flatten_cons_nondict_append segs k pv ptl hsegs hk htl hfreshtl hpnd]
      have hsp0 : splitDot (joinDot (segs ++ [k])) = [] ++ segs ++ [k] := by
        rw [List.nil_append]
        exact splitDot_joinDot (segs ++ [k]) hPk (by simp)
      have hfK : fget (flatten_dict Dd) (joinDot (segs ++ [k])) =
          leafProbe dsub k := by
        rw [show flatten_dict Dd = flattenGo (joinDot []) [] Dd from rfl]
        rw [fget_flatten_key Dd [] segs k (joinDot (segs ++ [k])) hgD rfl hsp0]
        unfold fgSpec
        rw [hdesc]
      cases hdv : vdictLookup dsub k with
      | none =>
        have hnoneK : fget (flatten_dict Dd) (joinDot (segs ++ [k])) =
            none := by
          rw [hfK]
          unfold leafProbe
          rw [hdv]
        rw [newList_cons_absent (flatten_dict Dd) (joinDot (segs ++ [k]))
          (flatLeaf pv) _ ((fget_none_iff _ _).mp hnoneK)]
        rw [← List.singleton_append, toVDict_append, unflattenGo_vdcat]
        rw [unflatten_entry_any segs k out cur pv hsegs hk hout
          (leaf_go pv hpv hpnd)]
        rw [except_bind_ok]
        rw [merge_go ptl Dd dsub segs (setEff out segs (vdictSet cur k pv))
          (vdictSet cur k pv) hgD htl hsegs hdesc hcomp2.2
          (descend_setEff segs out cur _ hout)
          (hcur_shift dsub cur k pv pv ptl hfreshtl hcur)]
        rw [setEff_setEff]
      | some dv =>
        by_cases hdvd : dv.isPyDict = true
        · obtain ⟨dsubb, rfl⟩ := isPyDict_dict dv hdvd
          have hnoneK : fget (flatten_dict Dd) (joinDot (segs ++ [k])) =
              none := by
            rw [hfK]
            unfold leafProbe
            rw [hdv]
          rw [newList_cons_absent (flatten_dict Dd) (joinDot (segs ++ [k]))
            (flatLeaf pv) _ ((fget_none_iff _ _).mp hnoneK)]
          rw [← List.singleton_append, toVDict_append, unflattenGo_vdcat]
          rw [unflatten_entry_any segs k out cur pv hsegs hk hout
            (leaf_go pv hpv hpnd)]
          rw [except_bind_ok]
          rw [merge_go ptl Dd dsub segs (setEff out segs (vdictSet cur k pv))
            (vdictSet cur k pv) hgD htl hsegs hdesc hcomp2.2
            (descend_setEff segs out cur _ hout)
            (hcur_shift dsub cur k pv pv ptl hfreshtl hcur)]
          rw [setEff_setEff]
          dsimp only []
          rw [mergeVal_nondict (.dict dsubb) pv hpnd]
        · have hdvnd : dv.isPyDict = false := by
            cases h0 : dv.isPyDict with
            | true => exact absurd h0 hdvd
            | false => rfl
          have hsomeK : fget (flatten_dict Dd) (joinDot (segs ++ [k])) =
              some (flatLeaf dv) := by
            rw [hfK]
            exact leafProbe_nondict dsub k dv hdvnd hdv
          rw [newList_cons_present (flatten_dict Dd) (joinDot (segs ++ [k]))
            (flatLeaf pv) (flatLeaf dv) _ hsomeK]
          have hcurk2 : vdictLookup cur k = some pv := by
            rw [hdv] at hcurk
            have hcurk3 : vdictLookup cur k = some (ovVal dv pv) := hcurk
            rw [hcurk3, ovVal_nondict_nondict dv pv hdvnd hpnd]
          rw [merge_go ptl Dd dsub segs out cur hgD htl hsegs hdesc hcomp2.2
            hout (hcur_tail dsub cur k pv ptl hfreshtl hcur)]
          dsimp only []
          rw [mergeVal_nondict dv pv hpnd]
          rw [vdictSet_lookup_id cur k pv hcurk2]
termination_by p => sizeOf p

-- ---------------------------------------------------------------------------
-- Claim C6: assembly.
-- ---------------------------------------------------------------------------

theorem c6_counterexample :
    mutate testEnv [] 20
      (VDict.cons "a" (.dict (VDict.cons "b" (.int 1) .nil)) .nil)
      (VDict.cons "a" (.int 2) .nil) [] =
      .error "DataTypeAttributeError" ∧
    mutate testEnv [] 20
      (VDict.cons "a" (.dict (VDict.cons "b" (.int 1) .nil)) .nil)
      (VDict.cons "a" (.int 2) .nil) [] ≠
      .ok (mergeDict (VDict.cons "a" (.int 2) .nil)
        (VDict.cons "a" (.dict (VDict.cons "b" (.int 1) .nil)) .nil), []) := by
  refine ⟨rfl, ?_⟩
  intro h
  rw [show mutate testEnv [] 20
      (VDict.cons "a" (.dict (VDict.cons "b" (.int 1) .nil)) .nil)
      (VDict.cons "a" (.int 2) .nil) [] =
      .error "DataTypeAttributeError" from rfl] at h
  exact Except.noConfusion h

/-- C6 (amended): for a patch with no explicit operators (every key plain,
hence defaulted to `$set`), a round-trippable patch and document
(`goodDict`), merge compatibility (the patch never puts a dict where the
document holds a non-dict value at the same path), and enough fuel for the
mutation loop, `mutate` returns exactly the deep-override merge of the
document with the patch as the new document, and an empty oplog.  Without
merge compatibility the claim fails: replaying a patch dict over a stored
scalar raises `AttributeError` (re-raised as `DataTypeAttributeError`), as
`c6_counterexample` shows. -/
theorem c6_amended_set_merge (env : MutEnv) (cops : CustomOps) (P D : VDict)
    (immuts : List String) (fuel : Nat)
    (hgP : goodDict P = true) (hpP : plainDict P = true)
    (hgD : goodDict D = true)
    (hcompat : mergeCompatGo D P = true)
    (hlen : (flatten_dict P).length + 1 < fuel)
    (hneed : ∀ kv ∈ flatten_dict P,
      leafNeedF kv.2 + (flatten_dict P).length + 1 < fuel) :
    mutate env cops fuel P D immuts = .ok (mergeDict D P, []) := by
  rw [mutate_allset env cops P D immuts fuel hgP hpP hlen hneed]
  have hU : unflatten_dict (fupdate (flatten_dict D) (flatten_dict P)) =
      .ok (mergeDict D P) := by
    have hndD : NodupKeys (flatten_dict D) :=
      flattenGo_nodup D "" [] nodupKeys_nil
    have hndP : NodupKeys (flatten_dict P) :=
      flattenGo_nodup P "" [] nodupKeys_nil
    rw [show (unflatten_dict (fupdate (flatten_dict D) (flatten_dict P)) :
        Except String VDict) =
      unflattenGo .nil (toVDict (fupdate (flatten_dict D) (flatten_dict P)))
      from rfl]
    rw [fupdate_split (flatten_dict P) (flatten_dict D) hndD hndP]
    rw [toVDict_append, unflattenGo_vdcat]
    have h1 : ovList (flatten_dict D) (flatten_dict P) =
        flatten_dict (ovD D P) :=
      ovList_flatten D P P [] hgD hgP rfl rfl
    rw [h1]
    rw [show flatten_dict (ovD D P) = flattenGo "" [] (ovD D P) from rfl]
    rw [roundTrip_go (ovD D P) .nil (ovD_good D P hgD hgP) (fun k2 _ => rfl)]
    rw [except_bind_ok]
    rw [show vdcat VDict.nil (ovD D P) = ovD D P from rfl]
    have hcur0 : ∀ k pv, vdictLookup P k = some pv →
        vdictLookup (ovD D P) k = match vdictLookup D k with
          | none => none
          | some dv => some (ovVal dv pv) := by
      intro k pv hl
      rw [vdictLookup_ovD D P k]
      cases hd : vdictLookup D k with
      | none => rfl
      | some dv => rw [hl]
    have h2 := merge_go P D D [] (ovD D P) (ovD D P) hgD hgP rfl rfl hcompat
      rfl hcur0
    rw [show flattenGo (joinDot []) [] P = flatten_dict P from rfl] at h2
    rw [h2]
    rw [show setEff (ovD D P) [] (mergeGo D (ovD D P) P) =
      mergeGo D (ovD D P) P from rfl]
    rw [mergeGo_ovD D P (goodDict_nodup D hgD)]
    rfl
  rw [hU]

theorem c6_witness :
    (goodDict (VDict.cons "a"
        (.dict (VDict.cons "b" (.int 1) (VDict.cons "c" (.str "x") .nil)))
        (VDict.cons "n" (.int 7) .nil)) = true ∧
      plainDict (VDict.cons "a"
        (.dict (VDict.cons "b" (.int 1) (VDict.cons "c" (.str "x") .nil)))
        (VDict.cons "n" (.int 7) .nil)) = true ∧
      goodDict (VDict.cons "a"
        (.dict (VDict.cons "b" (.int 9) (VDict.cons "d" (.bool true) .nil)))
        (VDict.cons "z" (.str "keep") .nil)) = true ∧
      mergeCompatGo
        (VDict.cons "a"
          (.dict (VDict.cons "b" (.int 9) (VDict.cons "d" (.bool true) .nil)))
          (VDict.cons "z" (.str "keep") .nil))
        (VDict.cons "a"
          (.dict (VDict.cons "b" (.int 1) (VDict.cons "c" (.str "x") .nil)))
          (VDict.cons "n" (.int 7) .nil)) = true) ∧
    mutate testEnv [] 20
      (VDict.cons "a"
        (.dict (VDict.cons "b" (.int 1) (VDict.cons "c" (.str "x") .nil)))
        (VDict.cons "n" (.int 7) .nil))
      (VDict.cons "a"
        (.dict (VDict.cons "b" (.int 9) (VDict.cons "d" (.bool true) .nil)))
        (VDict.cons "z" (.str "keep") .nil)) [] =
      .ok (mergeDict
        (VDict.cons "a"
          (.dict (VDict.cons "b" (.int 9) (VDict.cons "d" (.bool true) .nil)))
          (VDict.cons "z" (.str "keep") .nil))
        (VDict.cons "a"
          (.dict (VDict.cons "b" (.int 1) (VDict.cons "c" (.str "x") .nil)))
          (VDict.cons "n" (.int 7) .nil)), []) :=
  ⟨⟨by decide, by decide, by decide, by decide⟩,
    c6_amended_set_merge testEnv [] _ _ [] 20 (by decide) (by decide)
      (by decide) (by decide) (by decide) (by decide)⟩
